import Mathlib

/-!
# Verification of the rustregex matching engine

A shallow embedding of the `rustregex` repository: the NFA data model and the
algebraic constructors of `src/modules/automata.rs`, the simulation loop
(`Automata::search`, `exhaust_epsilons`, `TransitionIter`), the monadic parser
combinators of `src/modules/monadic_parser.rs`, the grammar of
`src/modules/regex/grammar.rs` and the AST compiler of
`src/modules/regex/ast.rs`.

States of the Rust NFA are heap nodes compared by pointer identity; the
embedding replaces the heap by an arena (`List StateK`) and pointers by arena
indices, which preserves identity semantics because the Rust code allocates
every state exactly once and never merges allocations.  The recursive
epsilon-closure walk and the grammar recursion are embedded with an explicit
fuel parameter; fuel exhaustion is modelled by `Option.none` and is proved
unreachable for well-formed automata (claim C8).
-/

namespace RustRegex

/-- Anchor kinds, from `regex/grammar.rs` (`enum Anchor`). -/
inductive Anchor
  | startA
  | endA
  | wordB
  | notWordB
deriving DecidableEq, Repr

/-- The character predicates that `regex/ast.rs` ever installs into a
`LambdaState`: the wildcard, the six ASCII character classes, and character
ranges.  `from_lambda`/`from_closure` take arbitrary Rust closures; the
compiler only ever passes these. -/
inductive CPred
  | anyC
  | alnum
  | notAlnum
  | digitP
  | notDigit
  | white
  | notWhite
  | range (lo hi : Char)
deriving DecidableEq, Repr

/-- Rust `char::is_ascii_whitespace`: space, tab, newline, form feed, carriage
return. -/
def isAsciiWhitespace (c : Char) : Bool :=
  c = ' ' || c = '\t' || c = '\n' || c = '\x0c' || c = '\r'

/-- Evaluate a compiled character predicate, mirroring the closures built in
`regex/ast.rs` (`is_ascii_alphanumeric`, `is_ascii_digit`,
`is_ascii_whitespace`, `(lower..=upper).contains`). -/
def evalCPred : CPred → Char → Bool
  | .anyC, _ => true
  | .alnum, c => c.isAlphanum
  | .notAlnum, c => !c.isAlphanum
  | .digitP, c => c.isDigit
  | .notDigit, c => !c.isDigit
  | .white, c => isAsciiWhitespace c
  | .notWhite, c => !isAsciiWhitespace c
  | .range lo hi, c => lo ≤ c && c ≤ hi

/-- The four state kinds of `src/modules/state/`: `TrivialState` (epsilon
fan-out), `TokenState`, `LambdaState`, `AnchorState`.  `dest` indices point
into the automaton's arena. -/
inductive StateK
  | triv (dest : List Nat)
  | token (c : Char) (dest : Nat)
  | lambda (p : CPred) (dest : Nat)
  | anchorS (a : Anchor) (dest : Nat)
deriving DecidableEq, Repr

/-- `Automata` of `automata.rs`: `start` and `end` pointers into the state
graph.  The Rust field `end` is called `accept` here (`end` is a Lean
keyword). -/
structure NFA where
  states : List StateK
  start : Nat
  accept : Nat
deriving DecidableEq, Repr

instance : DecidableEq (Except String NFA) := fun x y =>
  match x, y with
  | .ok a, .ok b =>
      if h : a = b then isTrue (by rw [h]) else isFalse (by intro hh; cases hh; exact h rfl)
  | .error a, .error b =>
      if h : a = b then isTrue (by rw [h]) else isFalse (by intro hh; cases hh; exact h rfl)
  | .ok _, .error _ => isFalse (by intro hh; cases hh)
  | .error _, .ok _ => isFalse (by intro hh; cases hh)

/-- Arena lookup; out-of-range indices (which cannot arise for automata built
by the constructors) behave as an inert state with no transitions. -/
def getState (nfa : NFA) (i : Nat) : StateK := nfa.states.getD i (.triv [])

/-- `State::epsilon(anchors)`: a `TrivialState` exposes all its destinations, a
consuming state none, and an `AnchorState` its destination exactly when its
anchor is among the tags in force at the current boundary. -/
def epsilonOf (nfa : NFA) (anchors : List Anchor) (i : Nat) : List Nat :=
  match getState nfa i with
  | .triv ds => ds
  | .token _ _ => []
  | .lambda _ _ => []
  | .anchorS a d => if a ∈ anchors then [d] else []

/-- `State::transition(token)`: only `TokenState`/`LambdaState` consume. -/
def transitionOf (nfa : NFA) (c : Char) (i : Nat) : Option Nat :=
  match getState nfa i with
  | .token c' d => if c' = c then some d else none
  | .lambda p d => if evalCPred p c then some d else none
  | _ => none

/-- `TrivialState::push`: append an epsilon edge (the Rust code only ever
pushes onto trivial states). -/
def StateK.pushDest : StateK → Nat → StateK
  | .triv ds, t => .triv (ds ++ [t])
  | s, _ => s

/-- Reindex a state's destinations by an arena offset. -/
def StateK.shift (k : Nat) : StateK → StateK
  | .triv ds => .triv (ds.map (· + k))
  | .token c d => .token c (d + k)
  | .lambda p d => .lambda p (d + k)
  | .anchorS a d => .anchorS a (d + k)

/-- Push the edges `ts` (in order) onto the state at index `i`. -/
def pushAts (l : List StateK) (i : Nat) (ts : List Nat) : List StateK :=
  l.set i (ts.foldl StateK.pushDest (l.getD i (.triv [])))

/-- `Automata::from_token`. -/
def fromToken (c : Char) : NFA := ⟨[.triv [], .token c 0], 1, 0⟩

/-- `Automata::from_lambda` / `from_closure`. -/
def fromLambda (p : CPred) : NFA := ⟨[.triv [], .lambda p 0], 1, 0⟩

/-- `Automata::from_anchor`. -/
def fromAnchor (a : Anchor) : NFA := ⟨[.triv [], .anchorS a 0], 1, 0⟩

/-- `Automata::concat`: epsilon from `a`'s accept to `b`'s start; new accept is
`b`'s accept. -/
def NFA.concat (a b : NFA) : NFA :=
  let n := a.states.length
  ⟨pushAts a.states a.accept [b.start + n] ++ b.states.map (.shift n),
    a.start, b.accept + n⟩

/-- `Automata::or`: fresh start with epsilons into both starts, both accepts
patched into a fresh accept. -/
def NFA.or (a b : NFA) : NFA :=
  let n := a.states.length
  let m := n + b.states.length
  ⟨pushAts a.states a.accept [m + 1]
      ++ pushAts (b.states.map (.shift n)) b.accept [m + 1]
      ++ [.triv [a.start, b.start + n], .triv []],
    m, m + 1⟩

/-- `Automata::closure`: fresh start with epsilons to `a.start` and the fresh
accept; `a`'s accept patched back to `a.start` and to the fresh accept. -/
def NFA.closure (a : NFA) : NFA :=
  let n := a.states.length
  ⟨pushAts a.states a.accept [a.start, n + 1]
      ++ [.triv [a.start, n + 1], .triv []],
    n, n + 1⟩

/-- `Automata::optional`. -/
def NFA.optional (a : NFA) : NFA :=
  let n := a.states.length
  ⟨pushAts a.states a.accept [n + 1]
      ++ [.triv [a.start, n + 1], .triv []],
    n, n + 1⟩

/-- `Automata::plus`: like closure but the fresh start has no shortcut to the
accept. -/
def NFA.plus (a : NFA) : NFA :=
  let n := a.states.length
  ⟨pushAts a.states a.accept [a.start, n + 1]
      ++ [.triv [a.start], .triv []],
    n, n + 1⟩

/-!
## The epsilon-closure worklist walk (`exhaust_epsilons`)

`traverse_epsilons` is recursive in Rust; the embedding indexes the recursion
by fuel, with `none` meaning the fuel bound was hit.  Theorem C8 shows that
the fuel `nfa.states.length + 1` used by `exhaustList` is never exhausted:
the visited list grows strictly at each level of recursion and is bounded by
the number of states.
-/

/-- The candidate loop of `traverse_epsilons`, parameterized by the recursive
exploration `T` of one level deeper: skip visited candidates, push unvisited
ones onto `visited_states` and explore them. -/
def goCandsWith (T : List Nat × List Nat → Nat → Option (List Nat × List Nat)) :
    List Nat × List Nat → List Nat → Option (List Nat × List Nat)
  | dv, [] => some dv
  | (d, v), c :: cs =>
      if c ∈ v then goCandsWith T (d, v) cs
      else
        match T (d, v ++ [c]) c with
        | none => none
        | some dv' => goCandsWith T dv' cs

/-- One recursive call of `traverse_epsilons`: `dv.1` is `destinations`,
`dv.2` is `visited_states`.  A state with no enabled epsilon successors is
pushed to `destinations`; then the candidate loop runs over the enabled
epsilon successors. -/
def traverseF (nfa : NFA) (anchors : List Anchor) :
    Nat → List Nat × List Nat → Nat → Option (List Nat × List Nat)
  | 0 => fun _ _ => none
  | fuel + 1 => fun dv st =>
      let reach := epsilonOf nfa anchors st
      goCandsWith (traverseF nfa anchors fuel)
        ((if reach.isEmpty then dv.1 ++ [st] else dv.1), dv.2) reach

/-- The loop of `exhaust_epsilons` over the source states, sharing
`destinations` and `visited_states`. -/
def exhaustList (nfa : NFA) (anchors : List Anchor) :
    List Nat × List Nat → List Nat → Option (List Nat × List Nat)
  | dv, [] => some dv
  | dv, s :: ss =>
      match traverseF nfa anchors (nfa.states.length + 1) dv s with
      | none => none
      | some dv' => exhaustList nfa anchors dv' ss

/-- `exhaust_epsilons` with explicit failure on fuel exhaustion. -/
def exhaustEpsilonsF (nfa : NFA) (states : List Nat) (anchors : List Anchor) :
    Option (List Nat) :=
  (exhaustList nfa anchors ([], []) states).map (·.1)

/-!
## The transition-event stream (`TransitionIter`)
-/

/-- `TransitionItem`. -/
inductive TItem
  | chr (c : Char)
  | eps (r : Nat) (anchors : List Anchor)
deriving DecidableEq, Repr

/-- Rust `char::is_alphanumeric`, restricted to the ASCII scalar values the
engine's predicates operate on (spec §6.2). -/
def isAlphanumeric (c : Char) : Bool := c.isAlphanum

/-- `TransitionItem::get_anchors`: the anchor tags of the boundary between
`current` and `next` (either may be absent at the ends of the input). -/
def getAnchors (current next : Option Char) : List Anchor :=
  match current, next with
  | some p, some n => if isAlphanumeric p ≠ isAlphanumeric n then [.wordB] else []
  | _, _ =>
      (if current = none then [.startA] else [])
        ++ (if next = none then [.endA] else []) ++ [.wordB]

/-- The event stream produced by `TransitionIter`:
`eps 0, chr c₀, eps 1, chr c₁, …, chr cₙ₋₁, eps n`. -/
def transitionItems : Option Char → List Char → Nat → List TItem
  | cur, [], k => [.eps k (getAnchors cur none)]
  | cur, c :: cs, k =>
      .eps k (getAnchors cur (some c)) :: .chr c :: transitionItems (some c) cs (k + 1)

/-- `transition_iter(expr)`. -/
def transitionList (s : List Char) : List TItem := transitionItems none s 0

/-!
## The simulation loop (`Automata::search`)
-/

/-- One frontier: `(best match end, active state set)`. -/
abbrev Frontier := Option Nat × List Nat

/-- Option-valued `List.map`, used to thread fuel-exhaustion failure through
the per-frontier update. -/
def mapME (f : α → Option β) : List α → Option (List β)
  | [] => some []
  | x :: xs =>
      match f x, mapME f xs with
      | some y, some ys => some (y :: ys)
      | _, _ => none

/-- Epsilon-event update of one frontier: close the state set under enabled
epsilons, and record the boundary `r` as best end if the accept state was
reached. -/
def epsFrontier (nfa : NFA) (r : Nat) (anchors : List Anchor) (fr : Frontier) :
    Option Frontier :=
  match exhaustEpsilonsF nfa fr.2 anchors with
  | none => none
  | some sts => some ((if nfa.accept ∈ sts then some r else fr.1), sts)

/-- One iteration of the `for transition in transition_iter(expr)` loop. -/
def stepItem (nfa : NFA) (frs : List Frontier) : TItem → Option (List Frontier)
  | .chr c => some (frs.map fun fr => (fr.1, fr.2.filterMap (transitionOf nfa c)))
  | .eps r anchors => mapME (epsFrontier nfa r anchors) (frs ++ [(none, [nfa.start])])

/-- Run the whole event stream. -/
def runItems (nfa : NFA) : List TItem → List Frontier → Option (List Frontier)
  | [], frs => some frs
  | it :: its, frs =>
      match stepItem nfa frs it with
      | none => none
      | some frs' => runItems nfa its frs'

/-- `enumerate`. -/
def enumFrom : Nat → List α → List (Nat × α)
  | _, [] => []
  | k, x :: xs => (k, x) :: enumFrom (k + 1) xs

/-- The `(left, right)` match candidates: frontiers with a recorded best end,
paired with their start index. -/
def matchesOf (frs : List Frontier) : List (Nat × Nat) :=
  (enumFrom 0 frs).filterMap fun p => p.2.1.map fun r => (p.1, r)

/-- The non-overlap admission loop of `Automata::search`: admit `(l, r)` iff
`results_rightmost.map_or(true, |rm| rm <= l && rm < r)`. -/
def admitFrom : Option Nat → List (Nat × Nat) → List (Nat × Nat)
  | _, [] => []
  | rm, (l, r) :: ms =>
      if (match rm with
          | none => true
          | some m => decide (m ≤ l) && decide (m < r)) then
        (l, r) :: admitFrom (some r) ms
      else admitFrom rm ms

/-- The admitted match intervals of one search, in admission order.  (The Rust
loop carves the result strings from these intervals in the same pass;
`globalSearch` below performs that extraction.)  On fuel exhaustion — shown
impossible for well-formed automata in C8 — the result defaults to no
matches. -/
def searchPairs (nfa : NFA) (s : List Char) : List (Nat × Nat) :=
  match runItems nfa (transitionList s) [] with
  | none => []
  | some frs => admitFrom none (matchesOf frs)

/-- `&expr[left..right]` on the character level. -/
def extract (s : List Char) (l r : Nat) : List Char := (s.drop l).take (r - l)

/-- `Automata::global_search`. -/
def globalSearch (nfa : NFA) (s : List Char) : List (List Char) :=
  (searchPairs nfa s).map fun p => extract s p.1 p.2

/-- Rust `Iterator::max_by_key` on string length: returns the last maximal
element (ties replace). -/
def maxByLenLast : List (List Char) → Option (List Char) :=
  List.foldl
    (fun acc x =>
      match acc with
      | none => some x
      | some b => if b.length ≤ x.length then some x else some b)
    none

/-- `Automata::greedy_search`: `results.iter().rev().max_by_key(|s| s.len())` —
the first longest admitted match. -/
def greedySearch (nfa : NFA) (s : List Char) : Option (List Char) :=
  maxByLenLast (globalSearch nfa s).reverse

/-- `Automata::full_match`. -/
def fullMatch (nfa : NFA) (s : List Char) : Bool :=
  match greedySearch nfa s with
  | some m => m.length == s.length
  | none => false

/-!
## Auxiliary predicates used by the invariant proofs
-/

/-- Best-end bounds for a frontier list whose first element has start index
`j`, before the boundary event at position `k`: every recorded best end `r` of
the frontier with start index `i` satisfies `i ≤ r < k`. -/
def BB (j k : Nat) : List Frontier → Prop
  | [] => True
  | fr :: frs => (∀ r, fr.1 = some r → j ≤ r ∧ r < k) ∧ BB (j + 1) k frs

/-- `matchesOf` generalized to an arbitrary first start index. -/
def matchesFrom (j : Nat) (frs : List Frontier) : List (Nat × Nat) :=
  (enumFrom j frs).filterMap fun p => p.2.1.map fun r => (p.1, r)

/-- The character in force before boundary offset `i` of the residual input
`rest`, when the character before offset `0` is `cur`. -/
def curAt (cur : Option Char) (rest : List Char) : Nat → Option Char
  | 0 => cur
  | i + 1 => rest.get? i

/-- The anchor tag set of the boundary at position `k`, as the specification
describes it: position `0` carries `{Start, WordBoundary}`, the final position
carries `{End, WordBoundary}`, an interior boundary carries `{WordBoundary}`
exactly when the alphanumericity of its neighbours differs, and the single
boundary of the empty input carries all three tags. -/
def boundaryTags (s : List Char) (k : Nat) : List Anchor :=
  if s = [] then [.startA, .endA, .wordB]
  else if k = 0 then [.startA, .wordB]
  else if k = s.length then [.endA, .wordB]
  else if isAlphanumeric (s.getD (k - 1) ' ') ≠ isAlphanumeric (s.getD k ' ') then [.wordB]
  else []

/-!
## Parser combinators (`src/modules/monadic_parser.rs`)

A `MonadicParser<T>` is a function from the remaining input to an optional
pair of value and rest.  The `repeat` combinator is a Rust `while let` loop;
it is embedded with fuel, where `none` denotes a loop that has not finished
within the fuel bound (Rust diverges in exactly those runs; see C9).
-/

/-- `MonadicParser<T>`. -/
abbrev Parser (α : Type) := List Char → Option (α × List Char)

/-- `MonadicParser::map` (an `f` returning `None` fails the parser). -/
def pmap (p : Parser α) (f : α → Option β) : Parser β := fun s =>
  match p s with
  | none => none
  | some (t, rst) =>
      match f t with
      | none => none
      | some u => some (u, rst)

/-- `MonadicParser::chain` (`p & q`). -/
def pchain (p : Parser α) (q : Parser β) : Parser (α × β) := fun s =>
  match p s with
  | none => none
  | some (t, rst) =>
      match q rst with
      | none => none
      | some (u, rst2) => some ((t, u), rst2)

/-- `MonadicParser::filter`. -/
def pfilter (p : Parser α) (pred : α → Bool) : Parser α :=
  pmap p fun t => if pred t then some t else none

/-- `MonadicParser::exclude`. -/
def pexclude (p : Parser α) (pred : α → Bool) : Parser α :=
  pfilter p fun t => !pred t

/-- The body of `MonadicParser::repeat`, with fuel counting loop iterations. -/
def repeatF (p : Parser α) : Nat → Parser (List α)
  | 0 => fun _ => none
  | fuel + 1 => fun s =>
      match p s with
      | none => some ([], s)
      | some (t, rst) =>
          match repeatF p fuel rst with
          | none => none
          | some (ts, rem) => some (t :: ts, rem)

/-- `MonadicParser::repeat`: greedy zero-or-more.  A parser that consumes on
success finishes within `|s| + 1` iterations (see C9); a parser that succeeds
without consuming makes the Rust loop diverge, which here surfaces as
`none`. -/
def prepeat (p : Parser α) : Parser (List α) := fun s => repeatF p (s.length + 1) s

/-- `MonadicParser::one_or_more`. -/
def poneOrMore (p : Parser α) : Parser (List α) := pexclude (prepeat p) List.isEmpty

/-- `MonadicParser::optional`. -/
def poptional (p : Parser α) : Parser (Option α) := fun s =>
  match p s with
  | some (t, rst) => some (some t, rst)
  | none => some (none, s)

/-- `MonadicParser::exists`. -/
def pexists (p : Parser α) : Parser Bool := pmap (poptional p) fun x => some x.isSome

/-- `p << q`. -/
def pleft (p : Parser α) (q : Parser β) : Parser α := pmap (pchain p q) fun x => some x.1

/-- `p >> q`. -/
def pright (p : Parser α) (q : Parser β) : Parser β := pmap (pchain p q) fun x => some x.2

/-- The `union!` macro: first success in declaration order. -/
def punion (ps : List (Parser α)) : Parser α := fun s => ps.findSome? fun p => p s

/-!
## Alphabet parsers

The grammar imports `any`, `character`, `end`, `escaped`, `number` and
`string` from an `alphabet` module that is not among the given sources (only
its callers in `regex/grammar.rs` are), so these are modelled from the
specification (§4.1).
-/

/-- Modelled from the spec: `any` consumes one character (the `alphabet`
module defining it is missing from the sources). -/
def anyP : Parser Char := fun s =>
  match s with
  | [] => none
  | c :: rst => some (c, rst)

/-- Modelled from the spec: `character(c)` matches one specific character. -/
def characterP (ch : Char) : Parser Char := pfilter anyP fun c => c = ch

/-- Modelled from the spec: `escaped()` is `'\\' >> any`, yielding the escaped
character. -/
def escapedP : Parser Char := pright (characterP '\\') anyP

/-- Modelled from the spec: `end()` succeeds exactly on empty input. -/
def endP : Parser Unit := fun s =>
  match s with
  | [] => some ((), [])
  | _ :: _ => none

/-- Rust `char::to_digit(10)`. -/
def toDigit10 (c : Char) : Option Nat :=
  if c.isDigit then some (c.toNat - '0'.toNat) else none

/-- Modelled from the spec: a single decimal digit. -/
def digitP : Parser Nat := pmap anyP toDigit10

/-- Modelled from the spec: `number()` folds decimal digits left-to-right into
an integer. -/
def numberP : Parser Nat :=
  pmap (pfilter (prepeat digitP) fun v => !v.isEmpty)
    (fun v => some (v.foldl (fun acc d => acc * 10 + d) 0))

/-- Modelled from the spec: `string(w)` matches the literal string `w`. -/
def stringP (w : List Char) : Parser (List Char) := fun s =>
  if w.isPrefixOf s then some (w, s.drop w.length) else none

/-!
## The regex AST (`src/modules/regex/grammar.rs`)
-/

/-- `Quantifier`; `RangeQuantifier` is `(u32, Option<u32>)`. -/
inductive Quantifier
  | zeroOrMore
  | oneOrMore
  | zeroOrOne
  | range (q : Nat × Option Nat)
deriving DecidableEq, Repr

/-- `CharacterClass`. -/
inductive CharacterClass
  | alphanumeric
  | notAlphanumeric
  | digitC
  | notDigit
  | whitespace
  | notWhitespace
deriving DecidableEq, Repr

/-- `CharacterGroupItem`; `CharacterRange` is `(char, char)`. -/
inductive CharacterGroupItem
  | characterClass (cc : CharacterClass)
  | characterRange (cr : Char × Char)
  | char (c : Char)
deriving DecidableEq, Repr

/-- `Match`. -/
inductive RMatch
  | anyM
  | characterClass (cc : CharacterClass)
  | characterGroup (cg : List CharacterGroupItem)
  | char (c : Char)
deriving DecidableEq, Repr

mutual

/-- `Quantifiable ::= Group | Match | Backreference`. -/
inductive Quantifiable
  | group (g : Group)
  | matchQ (m : RMatch)
  | backreference (n : Nat)

/-- `Group`: non-capturing marker, capture index, inner expression
(`Expression` is `Vec<SubExpression>`, `SubExpression` is
`Vec<BasicExpression>`). -/
inductive Group
  | mk (nonCapturing : Bool) (index : Nat) (expr : List (List BasicExpression))

/-- `BasicExpression ::= Anchor | Quantified`, with the `Quantified` pair
flattened into two constructor arguments. -/
inductive BasicExpression
  | anchor (a : Anchor)
  | quantified (qf : Quantifiable) (qt : Option Quantifier)

end

/-- `SubExpression`. -/
abbrev SubExpression := List BasicExpression

/-- `Expression` (also the top-level `Regex`). -/
abbrev Expression := List SubExpression

/-!
## The grammar rules (`src/modules/regex/grammar.rs`)

The only recursion in the grammar is the `lazy(expression)` inside `group`,
which is indexed by fuel in `expressionF`; each nesting level consumes the
opening parenthesis first, so `|s| + 1` fuel is always enough.
-/

/-- `anchor()`. -/
def anchorP : Parser Anchor :=
  punion
    [pmap (characterP '^') fun _ => some .startA,
     pmap escapedP fun c =>
       match c with
       | 'b' => some .wordB
       | 'B' => some .notWordB
       | _ => none,
     pmap (characterP '$') fun _ => some .endA]

/-- `character_class()`. -/
def characterClassP : Parser CharacterClass :=
  pmap escapedP fun c =>
    match c with
    | 'w' => some .alphanumeric
    | 'W' => some .notAlphanumeric
    | 'd' => some .digitC
    | 'D' => some .notDigit
    | 's' => some .whitespace
    | 'S' => some .notWhitespace
    | _ => none

/-- `control_char()`. -/
def controlCharP : Parser Char :=
  pmap escapedP fun c =>
    match c with
    | 't' => some '\t'
    | 'n' => some '\n'
    | 'r' => some '\r'
    | 'v' => some '\x0b'
    | 'f' => some '\x0c'
    | '0' => some '\x00'
    | _ => none

/-- The `char_group_special` predicate of `character_group_char()`. -/
def charGroupSpecial (c : Char) : Bool :=
  c = '^' || c = '\\' || c = '-' || c = ']'

/-- `character_group_char()`. -/
def characterGroupCharP : Parser Char :=
  punion
    [pexclude anyP charGroupSpecial,
     pfilter escapedP charGroupSpecial,
     controlCharP]

/-- `character_range()`: `character_group_char() << character('-') &
character_group_char()`. -/
def characterRangeP : Parser (Char × Char) :=
  pchain (pleft characterGroupCharP (characterP '-')) characterGroupCharP

/-- `character_group_item()`. -/
def characterGroupItemP : Parser CharacterGroupItem :=
  punion
    [pmap characterClassP fun cc => some (.characterClass cc),
     pmap characterRangeP fun r => some (.characterRange r),
     pmap characterGroupCharP fun c => some (.char c)]

/-- `character_group()`. -/
def characterGroupP : Parser (List CharacterGroupItem) :=
  pleft (pright (characterP '[') (poneOrMore characterGroupItemP)) (characterP ']')

/-- The `special_char` predicate of `char()`. -/
def specialChar (c : Char) : Bool :=
  (['^', '$', '|', '*', '?', '+', '.', '\\', '-', '(', ')', '{', '}', '[', ']'] :
    List Char).contains c

/-- `char()`. -/
def charP : Parser Char :=
  punion
    [pexclude anyP specialChar,
     pfilter escapedP specialChar,
     controlCharP]

/-- `match()`. -/
def matchP : Parser RMatch :=
  punion
    [pmap (characterP '.') fun _ => some .anyM,
     pmap characterClassP fun cc => some (.characterClass cc),
     pmap characterGroupP fun cg => some (.characterGroup cg),
     pmap charP fun c => some (.char c)]

/-- `backreference()`: `escaped().map(|c| c.to_digit(10)).exclude(|&n| n == 0)`. -/
def backreferenceP : Parser Nat :=
  pexclude (pmap escapedP toDigit10) fun n => n = 0

/-- `range_quantifier()`: `(character('{') >> number() & (character(',') >>
number().optional()).optional() << character('}')).map(...)`; a missing upper
part defaults to the lower bound. -/
def rangeQuantifierP : Parser (Nat × Option Nat) :=
  pmap
    (pchain (pright (characterP '{') numberP)
      (pleft (poptional (pright (characterP ',') (poptional numberP))) (characterP '}')))
    (fun p => some (p.1, p.2.getD (some p.1)))

/-- `quantifier()`. -/
def quantifierP : Parser Quantifier :=
  punion
    [pmap (characterP '*') fun _ => some .zeroOrMore,
     pmap (characterP '+') fun _ => some .oneOrMore,
     pmap (characterP '?') fun _ => some .zeroOrOne,
     pmap rangeQuantifierP fun r => some (.range r)]

/-- `group()`, parameterized by the lazily-recursive expression parser. -/
def groupCore (pe : Parser Expression) : Parser Group :=
  pmap
    (pchain (pright (characterP '(') (pexists (stringP [':', '?'])))
      (pleft pe (characterP ')')))
    (fun p => some (.mk p.1 0 p.2))

/-- `quantifiable()`. -/
def quantifiableCore (pe : Parser Expression) : Parser Quantifiable :=
  punion
    [pmap (groupCore pe) fun g => some (.group g),
     pmap matchP fun m => some (.matchQ m),
     pmap backreferenceP fun br => some (.backreference br)]

/-- `quantified()`. -/
def quantifiedCore (pe : Parser Expression) : Parser (Quantifiable × Option Quantifier) :=
  pchain (quantifiableCore pe) (poptional quantifierP)

/-- `basic_expression()`. -/
def basicExpressionCore (pe : Parser Expression) : Parser BasicExpression :=
  punion
    [pmap anchorP fun a => some (.anchor a),
     pmap (quantifiedCore pe) fun q => some (.quantified q.1 q.2)]

/-- `subexpression()`. -/
def subexpressionCore (pe : Parser Expression) : Parser SubExpression :=
  poneOrMore (basicExpressionCore pe)

/-- `expression()`. -/
def expressionCore (pe : Parser Expression) : Parser Expression :=
  pmap
    (pchain (subexpressionCore pe) (prepeat (pright (characterP '|') (subexpressionCore pe))))
    (fun p => some (p.1 :: p.2))

/-- The expression parser with the group recursion indexed by fuel
(`MonadicParser::lazy` defers each level of recursion). -/
def expressionF : Nat → Parser Expression
  | 0 => fun _ => none
  | fuel + 1 => expressionCore (expressionF fuel)

/-- `regex()` = `expression() << end()` applied to the input; a group opens
with a consumed `'('` before recursing, so fuel `|s| + 1` is never
exhausted. -/
def regexP (s : List Char) : Option (Expression × List Char) :=
  pleft (expressionF (s.length + 1)) endP s

/-- `Language::syntax`: the parsed AST. -/
def parseRegex (s : List Char) : Option Expression := (regexP s).map (·.1)

/-!
## The AST compiler (`src/modules/regex/ast.rs`)
-/

/-- The `fold` helper of `ast.rs`: fold a non-empty list of compilation
results, propagating the first error; the empty list yields the internal
non-empty-iterator error. -/
def foldAutomata (f : NFA → NFA → NFA) : List (Except String NFA) → Except String NFA
  | [] => .error "Internal Error: Iterator was expected to be non-empty"
  | x :: xs =>
      xs.foldl
        (fun acc e =>
          match acc, e with
          | .ok a, .ok b => .ok (f a b)
          | .error msg, _ => .error msg
          | .ok _, .error msg => .error msg)
        x

/-- The predicate compiled for a `CharacterClass` (`impl AbstractSyntaxTree
for CharacterClass`). -/
def ccPred : CharacterClass → CPred
  | .alphanumeric => .alnum
  | .notAlphanumeric => .notAlnum
  | .digitC => .digitP
  | .notDigit => .notDigit
  | .whitespace => .white
  | .notWhitespace => .notWhite

/-- `impl AbstractSyntaxTree for CharacterGroupItem`. -/
def compileCGItem : CharacterGroupItem → Except String NFA
  | .characterClass cc => .ok (fromLambda (ccPred cc))
  | .characterRange (lo, hi) => .ok (fromLambda (.range lo hi))
  | .char c => .ok (fromToken c)

/-- `impl AbstractSyntaxTree for Match`. -/
def compileMatch : RMatch → Except String NFA
  | .anyM => .ok (fromLambda .anyC)
  | .characterClass cc => .ok (fromLambda (ccPred cc))
  | .characterGroup cg => foldAutomata NFA.or (cg.map compileCGItem)
  | .char c => .ok (fromToken c)

mutual

/-- The compilations of the subexpressions of an expression; each
subexpression folds its items with `concat` (`impl AbstractSyntaxTree for
SubExpression`). -/
def compileSubList : List (List BasicExpression) → List (Except String NFA)
  | [] => []
  | se :: rest => foldAutomata NFA.concat (compileBasicList se) :: compileSubList rest

/-- The compilations of the items of a subexpression. -/
def compileBasicList : List BasicExpression → List (Except String NFA)
  | [] => []
  | b :: rest => compileBasic b :: compileBasicList rest

/-- `impl AbstractSyntaxTree for BasicExpression` together with the
`Quantified` arm (`impl AbstractSyntaxTree for Quantified`): `{l}`/`{l,u}`
lay down `l` mandatory copies followed by `u − l` optional ones, `{l,}`
appends a closure copy. -/
def compileBasic : BasicExpression → Except String NFA
  | .anchor a => .ok (fromAnchor a)
  | .quantified qf qt =>
      match qt with
      | none => compileQuantifiable qf
      | some .zeroOrMore => (compileQuantifiable qf).map NFA.closure
      | some .oneOrMore => (compileQuantifiable qf).map NFA.plus
      | some .zeroOrOne => (compileQuantifiable qf).map NFA.optional
      | some (.range (lower, maybeUpper)) =>
          let c := compileQuantifiable qf
          let upper : List (Except String NFA) :=
            match maybeUpper with
            | some u => List.replicate (u - lower) (c.map NFA.optional)
            | none => [c.map NFA.closure]
          foldAutomata NFA.concat (List.replicate lower c ++ upper)

/-- `impl AbstractSyntaxTree for Quantifiable`: backreferences are rejected
here, at compile time; a group compiles its inner expression, which folds its
subexpressions with `or` (`impl AbstractSyntaxTree for Expression`). -/
def compileQuantifiable : Quantifiable → Except String NFA
  | .group (.mk _ _ e) => foldAutomata NFA.or (compileSubList e)
  | .matchQ m => compileMatch m
  | .backreference _ => .error "Internal Error: Backreference not implemented!"

end

/-- `impl AbstractSyntaxTree for Expression`: fold the subexpressions with
`or`. -/
def compileExpression (e : List (List BasicExpression)) : Except String NFA :=
  foldAutomata NFA.or (compileSubList e)

/-- `impl AbstractSyntaxTree for SubExpression` as a standalone function. -/
def compileSubExpression (se : List BasicExpression) : Except String NFA :=
  foldAutomata NFA.concat (compileBasicList se)

/-- `impl AbstractSyntaxTree for Quantified` as a standalone function on the
`(Quantifiable, Option<Quantifier>)` pair (identical to the `quantified` arm
of `compileBasic`). -/
def compileQuantified (q : Quantifiable × Option Quantifier) : Except String NFA :=
  match q.2 with
  | none => compileQuantifiable q.1
  | some .zeroOrMore => (compileQuantifiable q.1).map NFA.closure
  | some .oneOrMore => (compileQuantifiable q.1).map NFA.plus
  | some .zeroOrOne => (compileQuantifiable q.1).map NFA.optional
  | some (.range (lower, maybeUpper)) =>
      let c := compileQuantifiable q.1
      let upper : List (Except String NFA) :=
        match maybeUpper with
        | some u => List.replicate (u - lower) (c.map NFA.optional)
        | none => [c.map NFA.closure]
      foldAutomata NFA.concat (List.replicate lower c ++ upper)

/-- `Language::parse` / `Language::compile`: parse, then compile the AST; a
parse failure surfaces as the `compile` error return. -/
def compileRegex (s : List Char) : Except String NFA :=
  match parseRegex s with
  | none => .error "Internal error: expr parsed into an empty Expression"
  | some e => compileExpression e

mutual

/-- Does an expression contain a `Backreference` node? -/
def exprHasBackref : List (List BasicExpression) → Bool
  | [] => false
  | se :: rest => subHasBackref se || exprHasBackref rest

/-- Does a subexpression contain a `Backreference` node? -/
def subHasBackref : List BasicExpression → Bool
  | [] => false
  | b :: rest => basicHasBackref b || subHasBackref rest

/-- Does a basic expression contain a `Backreference` node? -/
def basicHasBackref : BasicExpression → Bool
  | .anchor _ => false
  | .quantified qf _ => quantifiableHasBackref qf

/-- Does a quantifiable atom contain a `Backreference` node? -/
def quantifiableHasBackref : Quantifiable → Bool
  | .group (.mk _ _ e) => exprHasBackref e
  | .matchQ _ => false
  | .backreference _ => true

end

/-- Divergence of the Rust `repeat` loop on parser `p` and input `s`: no
iteration bound finishes the loop. -/
def repeatDiverges (p : Parser α) (s : List Char) : Prop :=
  ∀ fuel, repeatF p fuel s = none

/-- All destination indices of a state (the `get_dest` view). -/
def destsOf : StateK → List Nat
  | .triv ds => ds
  | .token _ d => [d]
  | .lambda _ d => [d]
  | .anchorS _ d => [d]

/-- Well-formedness of an arena automaton: every edge stays inside the arena.
Rust guarantees this by construction (edges are owning pointers); it is an
invariant of the index-based embedding. -/
def NFA.WF (nfa : NFA) : Prop :=
  ∀ st ∈ nfa.states, ∀ d ∈ destsOf st, d < nfa.states.length

instance (nfa : NFA) : Decidable nfa.WF := by unfold NFA.WF; infer_instance

/-- One enabled epsilon edge under the anchor tags in force. -/
def epsStep (nfa : NFA) (anchors : List Anchor) (u v : Nat) : Prop :=
  v ∈ epsilonOf nfa anchors u

/-- An enabled epsilon path of length `n` from `u` to `x` all of whose nodes —
endpoints included — lie outside `blocked`.  Used to characterize the
exhaust-epsilons walk, whose visited list blocks re-exploration. -/
def AvoidN (nfa : NFA) (anchors : List Anchor) (blocked : List Nat) :
    Nat → Nat → Nat → Prop
  | 0, u, x => u = x ∧ u ∉ blocked
  | n + 1, u, x => u ∉ blocked ∧ ∃ v, epsStep nfa anchors u v ∧ AvoidN nfa anchors blocked n v x

/-- Some enabled epsilon path avoiding `blocked`. -/
def AvoidP (nfa : NFA) (anchors : List Anchor) (blocked : List Nat) (u x : Nat) : Prop :=
  ∃ n, AvoidN nfa anchors blocked n u x

/-- Reachability from an explored source `st`: either `st` itself, or an
avoiding path from one of its enabled epsilon successors. -/
def TRP (nfa : NFA) (anchors : List Anchor) (blocked : List Nat) (st x : Nat) : Prop :=
  x = st ∨ ∃ c ∈ epsilonOf nfa anchors st, AvoidP nfa anchors blocked c x

/-- The three public search operations agree on input `s` for two compilation
results (errors agree with errors). -/
def searchEq (a b : Except String NFA) (s : List Char) : Prop :=
  match a, b with
  | .ok A, .ok B =>
      fullMatch A s = fullMatch B s ∧ greedySearch A s = greedySearch B s ∧
        globalSearch A s = globalSearch B s
  | .error _, .error _ => True
  | _, _ => False

/-- Plain enabled epsilon reachability (no blocked set). -/
def Reach (nfa : NFA) (anchors : List Anchor) (u x : Nat) : Prop :=
  AvoidP nfa anchors [] u x

/-- The structural invariant of every automaton the compiler builds: all edges
in range, start and accept in range, and the accept state is a bare
`TrivialState` with no outgoing edges (each constructor installs a fresh such
state, or in `concat` inherits the right operand's). -/
def GoodNFA (A : NFA) : Prop :=
  A.WF ∧ A.start < A.states.length ∧ A.accept < A.states.length ∧
    getState A A.accept = .triv []

instance (A : NFA) : Decidable (GoodNFA A) := by unfold GoodNFA; infer_instance

/-- The state map from `a.concat a.closure` onto `a.plus`: the first copy of
`a` maps identically, the second copy collapses onto the first, the closure's
fresh start maps to `a`'s (patched) accept, and the outer accept maps to the
fresh accept of `plus`. -/
def psiA (A : NFA) (i : Nat) : Nat :=
  if i < A.states.length then i
  else if i < 2 * A.states.length then i - A.states.length
  else if i = 2 * A.states.length then A.accept
  else A.states.length + 1

/-- Correspondence between one frontier of the `concat`/`closure` run and one
frontier of the `plus` run: equal best ends, the left state set in range, and
the right state set the `psiA` image of the left one. -/
def FrCorr (A : NFA) (f1 f2 : Frontier) : Prop :=
  f1.1 = f2.1 ∧ (∀ x ∈ f1.2, x < 2 * A.states.length + 2) ∧
    ∀ y, y ∈ f2.2 ↔ ∃ x ∈ f1.2, psiA A x = y

/-- The UTF-8 byte length of a character (Rust `char::len_utf8`). -/
def utf8Len (c : Char) : Nat :=
  if c.toNat < 0x80 then 1
  else if c.toNat < 0x800 then 2
  else if c.toNat < 0x10000 then 3
  else 4

/-- The byte length of a string (Rust `str::len`). -/
def byteLen (s : List Char) : Nat := (s.map utf8Len).sum

/-- Drop exactly `k` bytes off the front of a string, walking its UTF-8
encoding; `none` when `k` falls strictly inside a character — the condition
under which a Rust byte-slice panics. -/
def dropBytes : List Char → Nat → Option (List Char)
  | s, 0 => some s
  | [], _ + 1 => none
  | c :: cs, k + 1 =>
      if utf8Len c ≤ k + 1 then dropBytes cs (k + 1 - utf8Len c) else none

/-- Take exactly `k` bytes off the front of a string; `none` when `k` falls
inside a character or past the end. -/
def takeBytes : List Char → Nat → Option (List Char)
  | _, 0 => some []
  | [], _ + 1 => none
  | c :: cs, k + 1 =>
      if utf8Len c ≤ k + 1 then (takeBytes cs (k + 1 - utf8Len c)).map (c :: ·) else none

/-- `&expr[left..right]` as Rust evaluates it: `left` and `right` are byte
offsets into the UTF-8 encoding of `expr`, and the slice panics (`none`)
unless `left ≤ right` and both offsets lie on character boundaries.
`Automata::search` passes char positions here (the transition iterator counts
characters), which agree with byte offsets only on ASCII text. -/
def extractRust (s : List Char) (l r : Nat) : Option (List Char) :=
  if l ≤ r then
    match dropBytes s l with
    | none => none
    | some suffix => takeBytes suffix (r - l)
  else none

/-- The admission loop of `Automata::search` as Rust executes it: each
admitted match is carved out of the input with a byte slice at its char
positions, inside the loop; `none` models the panic aborting the search. -/
def admitExtractFrom (s : List Char) :
    Option Nat → List (Nat × Nat) → Option (List (List Char))
  | _, [] => some []
  | rm, (l, r) :: ms =>
      if (match rm with
          | none => true
          | some m => decide (m ≤ l) && decide (m < r)) then
        match extractRust s l r with
        | none => none
        | some w =>
            match admitExtractFrom s (some r) ms with
            | none => none
            | some ws => some (w :: ws)
      else admitExtractFrom s rm ms

/-- `Automata::search` at the Rust level: the frontier loop followed by the
admission-and-byte-slice loop and the `max_by_key` pass; `none` is a panic
(or, for the fueled frontier loop, fuel exhaustion, shown impossible for
well-formed automata). -/
def searchRust (nfa : NFA) (s : List Char) :
    Option (Option (List Char) × List (List Char)) :=
  match runItems nfa (transitionList s) [] with
  | none => none
  | some frs =>
      match admitExtractFrom s none (matchesOf frs) with
      | none => none
      | some results => some (maxByLenLast results.reverse, results)

/-- `Automata::global_search` as Rust executes it. -/
def globalSearchRust (nfa : NFA) (s : List Char) : Option (List (List Char)) :=
  (searchRust nfa s).map (·.2)

/-- `Automata::greedy_search` as Rust executes it. -/
def greedySearchRust (nfa : NFA) (s : List Char) : Option (Option (List Char)) :=
  (searchRust nfa s).map (·.1)

/-- `Automata::full_match` as Rust executes it: `matched.len() == expr.len()`
compares byte lengths. -/
def fullMatchRust (nfa : NFA) (s : List Char) : Option Bool :=
  (greedySearchRust nfa s).map fun g =>
    match g with
    | some m => byteLen m == byteLen s
    | none => false

/-!
## Lemmas: the simulation's structural invariants
-/

theorem mapME_length {α β : Type _} (f : α → Option β) :
    ∀ l l', mapME f l = some l' → l'.length = l.length := by
  intro l
  induction l with
  | nil => intro l' h; simp [mapME] at h; simp [← h]
  | cons x xs ih =>
      intro l' h
      simp only [mapME] at h
      cases hx : f x with
      | none => rw [hx] at h; simp at h
      | some y =>
          rw [hx] at h
          cases hxs : mapME f xs with
          | none => rw [hxs] at h; simp at h
          | some ys =>
              rw [hxs] at h
              simp only [Option.some.injEq] at h
              subst h
              simp [ih ys hxs]

theorem BB_append (k : Nat) :
    ∀ (l1 : List Frontier) (j : Nat) (l2 : List Frontier),
      BB j k l1 → BB (j + l1.length) k l2 → BB j k (l1 ++ l2) := by
  intro l1
  induction l1 with
  | nil => intro j l2 _ h2; simpa using h2
  | cons fr frs ih =>
      intro j l2 h1 h2
      refine ⟨h1.1, ih (j + 1) l2 h1.2 ?_⟩
      have : j + 1 + frs.length = j + (fr :: frs).length := by simp; omega
      rw [this]; exact h2

theorem mapME_eps_BB (nfa : NFA) (kk : Nat) (anchors : List Anchor) :
    ∀ (l : List Frontier) (j : Nat) (l' : List Frontier),
      BB j kk l → j + l.length ≤ kk + 1 →
      mapME (epsFrontier nfa kk anchors) l = some l' → BB j (kk + 1) l' := by
  intro l
  induction l with
  | nil => intro j l' _ _ h; simp [mapME] at h; subst h; trivial
  | cons fr frs ih =>
      intro j l' hbb hlen h
      simp only [mapME] at h
      cases hx : epsFrontier nfa kk anchors fr with
      | none => rw [hx] at h; simp at h
      | some fr2 =>
          rw [hx] at h
          cases hxs : mapME (epsFrontier nfa kk anchors) frs with
          | none => rw [hxs] at h; simp at h
          | some rest' =>
              rw [hxs] at h
              simp only [Option.some.injEq] at h
              subst h
              constructor
              · -- head bound
                intro r hr
                simp only [epsFrontier] at hx
                cases hcl : exhaustEpsilonsF nfa fr.2 anchors with
                | none => rw [hcl] at hx; simp at hx
                | some sts =>
                    rw [hcl] at hx
                    simp only [Option.some.injEq] at hx
                    subst hx
                    by_cases hacc : nfa.accept ∈ sts
                    · simp only [hacc, if_pos] at hr
                      simp only [Option.some.injEq] at hr
                      subst hr
                      constructor
                      · simp at hlen; omega
                      · omega
                    · simp only [hacc, if_neg, not_false_iff] at hr
                      have := hbb.1 r hr
                      omega
              · exact ih (j + 1) rest' hbb.2 (by simp at hlen ⊢; omega) hxs

theorem BB_map_chr (k : Nat) (g : List Nat → List Nat) :
    ∀ (l : List Frontier) (j : Nat), BB j k l →
      BB j k (l.map fun fr => (fr.1, g fr.2)) := by
  intro l
  induction l with
  | nil => intro j _; simp [BB]
  | cons fr frs ih =>
      intro j h
      exact ⟨h.1, ih (j + 1) h.2⟩

theorem runItems_BB (nfa : NFA) :
    ∀ (rest : List Char) (cur : Option Char) (k : Nat) (frs frs' : List Frontier),
      frs.length = k → BB 0 k frs →
      runItems nfa (transitionItems cur rest k) frs = some frs' →
      frs'.length = k + rest.length + 1 ∧ BB 0 (k + rest.length + 1) frs' := by
  intro rest
  induction rest with
  | nil =>
      intro cur k frs frs' hlen hbb hrun
      simp only [transitionItems, runItems, stepItem] at hrun
      cases hstep : mapME (epsFrontier nfa k (getAnchors cur none)) (frs ++ [(none, [nfa.start])]) with
      | none => rw [hstep] at hrun; simp at hrun
      | some frs2 =>
          rw [hstep] at hrun
          simp only [runItems, Option.some.injEq] at hrun
          subst hrun
          have hbb2 : BB 0 k (frs ++ [(none, [nfa.start])]) := by
            refine BB_append k frs 0 _ hbb ?_
            exact ⟨fun r hr => by simp at hr, trivial⟩
          have hl2 : (frs ++ [((none : Option Nat), [nfa.start])]).length = k + 1 := by
            simp [hlen]
          constructor
          · rw [mapME_length _ _ _ hstep, hl2]; simp
          · exact mapME_eps_BB nfa k _ _ 0 _ hbb2 (by omega) hstep
  | cons c cs ih =>
      intro cur k frs frs' hlen hbb hrun
      simp only [transitionItems, runItems, stepItem] at hrun
      cases hstep : mapME (epsFrontier nfa k (getAnchors cur (some c))) (frs ++ [(none, [nfa.start])]) with
      | none => rw [hstep] at hrun; simp at hrun
      | some frs2 =>
          rw [hstep] at hrun
          simp only [runItems, stepItem] at hrun
          have hbb2 : BB 0 k (frs ++ [(none, [nfa.start])]) := by
            refine BB_append k frs 0 _ hbb ?_
            exact ⟨fun r hr => by simp at hr, trivial⟩
          have hl2 : (frs ++ [((none : Option Nat), [nfa.start])]).length = k + 1 := by
            simp [hlen]
          have hlen2 : frs2.length = k + 1 := by rw [mapME_length _ _ _ hstep, hl2]
          have hbb3 : BB 0 (k + 1) frs2 :=
            mapME_eps_BB nfa k _ _ 0 _ hbb2 (by omega) hstep
          have hlen3 : (frs2.map fun fr => (fr.1, fr.2.filterMap (transitionOf nfa c))).length = k + 1 := by
            simp [hlen2]
          have hbb4 := BB_map_chr (k + 1) (·.filterMap (transitionOf nfa c)) frs2 0 hbb3
          have := ih (some c) (k + 1) _ frs' hlen3 hbb4 hrun
          refine ⟨?_, ?_⟩
          · rw [this.1]; simp; omega
          · have h2 := this.2
            have : k + 1 + cs.length + 1 = k + (c :: cs).length + 1 := by simp; omega
            rwa [this] at h2

theorem matchesFrom_cons (j : Nat) (fr : Frontier) (frs : List Frontier) :
    matchesFrom j (fr :: frs) =
      (match fr.1 with
        | some r => [(j, r)]
        | none => []) ++ matchesFrom (j + 1) frs := by
  simp only [matchesFrom, enumFrom, List.filterMap_cons]
  cases fr.1 <;> simp

theorem matchesFrom_bounds (k : Nat) :
    ∀ (l : List Frontier) (j : Nat), BB j k l →
      ∀ p ∈ matchesFrom j l, p.1 ≤ p.2 ∧ p.2 < k := by
  intro l
  induction l with
  | nil => intro j _ p hp; simp [matchesFrom, enumFrom] at hp
  | cons fr frs ih =>
      intro j hbb p hp
      rw [matchesFrom_cons] at hp
      cases hfr : fr.1 with
      | none =>
          rw [hfr] at hp
          rw [List.nil_append] at hp
          exact ih (j + 1) hbb.2 p hp
      | some r =>
          rw [hfr] at hp
          rcases List.mem_append.1 hp with hp | hp
          · rcases List.mem_singleton.1 hp with rfl
            exact hbb.1 r hfr
          · exact ih (j + 1) hbb.2 p hp

theorem admitFrom_subset :
    ∀ (ms : List (Nat × Nat)) (rm : Option Nat) (x : Nat × Nat),
      x ∈ admitFrom rm ms → x ∈ ms := by
  intro ms
  induction ms with
  | nil => intro rm x hx; simp [admitFrom] at hx
  | cons m ms ih =>
      intro rm x hx
      obtain ⟨l, r⟩ := m
      simp only [admitFrom] at hx
      split at hx
      · rcases List.mem_cons.1 hx with hx | hx
        · simp [hx]
        · exact List.mem_cons_of_mem _ (ih _ x hx)
      · exact List.mem_cons_of_mem _ (ih _ x hx)

theorem admitFrom_lb :
    ∀ (ms : List (Nat × Nat)) (e : Nat) (x : Nat × Nat),
      x ∈ admitFrom (some e) ms → e ≤ x.1 ∧ e < x.2 := by
  intro ms
  induction ms with
  | nil => intro e x hx; simp [admitFrom] at hx
  | cons m ms ih =>
      intro e x hx
      obtain ⟨l, r⟩ := m
      simp only [admitFrom] at hx
      split at hx
      · next hcond =>
          simp only [Bool.and_eq_true, decide_eq_true_eq] at hcond
          rcases List.mem_cons.1 hx with hx | hx
          · subst hx; exact ⟨hcond.1, hcond.2⟩
          · have := ih r x hx
            omega
      · exact ih e x hx

theorem admitFrom_pairwise :
    ∀ (ms : List (Nat × Nat)) (rm : Option Nat),
      (admitFrom rm ms).Pairwise fun p q => p.2 ≤ q.1 ∧ p.2 < q.2 := by
  intro ms
  induction ms with
  | nil => intro rm; simp [admitFrom]
  | cons m ms ih =>
      intro rm
      obtain ⟨l, r⟩ := m
      simp only [admitFrom]
      split
      · refine List.Pairwise.cons ?_ (ih (some r))
        intro q hq
        have := admitFrom_lb ms r q hq
        exact ⟨this.1, this.2⟩
      · exact ih rm

theorem searchPairs_mem_bounds (nfa : NFA) (s : List Char) :
    ∀ p ∈ searchPairs nfa s, p.1 ≤ p.2 ∧ p.2 ≤ s.length := by
  intro p hp
  unfold searchPairs at hp
  cases hrun : runItems nfa (transitionList s) [] with
  | none => rw [hrun] at hp; simp at hp
  | some frs =>
      rw [hrun] at hp
      have hinv := runItems_BB nfa s none 0 [] frs rfl trivial hrun
      have hm : p ∈ matchesFrom 0 frs := admitFrom_subset _ _ _ hp
      have := matchesFrom_bounds (0 + s.length + 1) frs 0 hinv.2 p hm
      omega

theorem searchPairs_pairwise (nfa : NFA) (s : List Char) :
    (searchPairs nfa s).Pairwise fun p q => p.2 ≤ q.1 ∧ p.2 < q.2 := by
  unfold searchPairs
  cases hrun : runItems nfa (transitionList s) [] with
  | none => simp
  | some frs => exact admitFrom_pairwise _ _

/-!
## Lemmas: `max_by_key` over the reversed result list
-/

theorem maxByLenLast_some_of_acc_some :
    ∀ (l : List (List Char)) (b : List Char),
      ∃ b', List.foldl
          (fun acc x =>
            match acc with
            | none => some x
            | some b => if b.length ≤ x.length then some x else some b)
          (some b) l = some b' := by
  intro l
  induction l with
  | nil => intro b; exact ⟨b, rfl⟩
  | cons x xs ih =>
      intro b
      simp only [List.foldl_cons]
      by_cases h : b.length ≤ x.length
      · simp only [h, if_pos]; exact ih x
      · simp only [h, if_neg, not_false_iff]; exact ih b

theorem maxByLenLast_eq_none_iff (l : List (List Char)) :
    maxByLenLast l = none ↔ l = [] := by
  cases l with
  | nil => simp [maxByLenLast]
  | cons x xs =>
      simp only [maxByLenLast, List.foldl_cons]
      obtain ⟨b', hb'⟩ := maxByLenLast_some_of_acc_some xs x
      constructor
      · intro h; rw [hb'] at h; cases h
      · intro h; cases h

theorem maxByLenLast_append_singleton (xs : List (List Char)) (x : List Char) :
    maxByLenLast (xs ++ [x]) =
      match maxByLenLast xs with
      | none => some x
      | some b => if b.length ≤ x.length then some x else some b := by
  unfold maxByLenLast
  rw [List.foldl_append]
  simp only [List.foldl_cons, List.foldl_nil]

theorem maxByLenLast_split :
    ∀ (l : List (List Char)) (b : List Char), maxByLenLast l = some b →
      ∃ l1 l2, l = l1 ++ b :: l2 ∧ (∀ x ∈ l1, x.length ≤ b.length) ∧
        ∀ x ∈ l2, x.length < b.length := by
  intro l
  induction l using List.reverseRecOn with
  | nil => intro b h; simp [maxByLenLast] at h
  | append_singleton xs x ih =>
      intro b h
      rw [maxByLenLast_append_singleton] at h
      cases hxs : maxByLenLast xs with
      | none =>
          have hnil : xs = [] := (maxByLenLast_eq_none_iff xs).1 hxs
          subst hnil
          rw [hxs] at h
          simp only [Option.some.injEq] at h
          subst h
          exact ⟨[], [], by simp, by simp, by simp⟩
      | some m =>
          rw [hxs] at h
          by_cases hle : m.length ≤ x.length
          · simp only [hle, if_pos, Option.some.injEq] at h
            subst h
            obtain ⟨l1, l2, heq, h1, h2⟩ := ih m hxs
            refine ⟨xs, [], by simp, ?_, by simp⟩
            intro y hy
            rw [heq] at hy
            rcases List.mem_append.1 hy with hy | hy
            · exact le_trans (h1 y hy) hle
            · rcases List.mem_cons.1 hy with hy | hy
              · subst hy; exact hle
              · exact le_trans (le_of_lt (h2 y hy)) hle
          · simp only [hle, if_neg, not_false_iff, Option.some.injEq] at h
            subst h
            obtain ⟨l1, l2, heq, h1, h2⟩ := ih m hxs
            refine ⟨l1, l2 ++ [x], by rw [heq]; simp, h1, ?_⟩
            intro y hy
            rcases List.mem_append.1 hy with hy | hy
            · exact h2 y hy
            · simp at hy; subst hy; omega

/-!
## Lemmas: `extract`
-/

theorem extract_length (s : List Char) (l r : Nat) (h1 : l ≤ r) (h2 : r ≤ s.length) :
    (extract s l r).length = r - l := by
  simp only [extract, List.length_take, List.length_drop]
  omega

theorem extract_whole (s : List Char) : extract s 0 s.length = s := by
  simp [extract]

/-!
## Derived facts about the three public search results
-/

theorem globalSearch_mem {nfa : NFA} {s : List Char} {m : List Char} :
    m ∈ globalSearch nfa s ↔ ∃ p ∈ searchPairs nfa s, extract s p.1 p.2 = m := by
  simp [globalSearch, List.mem_map]

theorem globalSearch_length_le (nfa : NFA) (s : List Char) :
    ∀ x ∈ globalSearch nfa s, x.length ≤ s.length := by
  intro x hx
  obtain ⟨p, hp, hex⟩ := globalSearch_mem.1 hx
  have hb := searchPairs_mem_bounds nfa s p hp
  rw [← hex, extract_length s p.1 p.2 hb.1 hb.2]
  omega

theorem greedy_none_iff (nfa : NFA) (s : List Char) :
    greedySearch nfa s = none ↔ globalSearch nfa s = [] := by
  unfold greedySearch
  rw [maxByLenLast_eq_none_iff]
  exact List.reverse_eq_nil_iff

theorem greedy_some_spec (nfa : NFA) (s : List Char) (m : List Char)
    (h : greedySearch nfa s = some m) :
    m ∈ globalSearch nfa s ∧ (∀ x ∈ globalSearch nfa s, x.length ≤ m.length) ∧
      ∃ pre post, globalSearch nfa s = pre ++ m :: post ∧
        ∀ x ∈ pre, x.length < m.length := by
  unfold greedySearch at h
  obtain ⟨l1, l2, hsplit, h1, h2⟩ := maxByLenLast_split _ m h
  have heq : globalSearch nfa s = l2.reverse ++ m :: l1.reverse := by
    have := congrArg List.reverse hsplit
    rw [List.reverse_reverse] at this
    rw [this]
    simp
  refine ⟨?_, ?_, l2.reverse, l1.reverse, heq, ?_⟩
  · rw [heq]; simp
  · intro x hx
    rw [heq] at hx
    rcases List.mem_append.1 hx with hx | hx
    · exact le_of_lt (h2 x (List.mem_reverse.1 hx))
    · rcases List.mem_cons.1 hx with rfl | hx
      · exact le_refl _
      · exact h1 x (List.mem_reverse.1 hx)
  · intro x hx
    exact h2 x (List.mem_reverse.1 hx)

/-- Claim C1: `full_match(r, s)` returns true if and only if `global_search(r, s)`
contains an admitted match equal to the entire input — an admitted interval
with start `0` and end `|s|` whose extracted text is `s` itself (equivalently,
the longest admitted match has length `|s|`). -/
theorem full_match_iff_whole_input_admitted (nfa : NFA) (s : List Char) :
    fullMatch nfa s = true ↔
      ∃ p ∈ searchPairs nfa s, p.1 = 0 ∧ p.2 = s.length ∧ extract s p.1 p.2 = s := by
  constructor
  · intro h
    unfold fullMatch at h
    cases hg : greedySearch nfa s with
    | none => rw [hg] at h; cases h
    | some m =>
        rw [hg] at h
        have hlen : m.length = s.length := by simpa using h
        obtain ⟨hmem, _, _⟩ := greedy_some_spec nfa s m hg
        obtain ⟨p, hp, hex⟩ := globalSearch_mem.1 hmem
        have hb := searchPairs_mem_bounds nfa s p hp
        have hexl : (extract s p.1 p.2).length = p.2 - p.1 :=
          extract_length s p.1 p.2 hb.1 hb.2
        rw [hex, hlen] at hexl
        have hp1 : p.1 = 0 := by omega
        have hp2 : p.2 = s.length := by omega
        refine ⟨p, hp, hp1, hp2, ?_⟩
        rw [hp1, hp2]
        exact extract_whole s
  · rintro ⟨p, hp, hp1, hp2, _⟩
    have hsmem : s ∈ globalSearch nfa s := by
      refine globalSearch_mem.2 ⟨p, hp, ?_⟩
      rw [hp1, hp2]; exact extract_whole s
    cases hg : greedySearch nfa s with
    | none =>
        rw [greedy_none_iff] at hg
        rw [hg] at hsmem
        cases hsmem
    | some m =>
        obtain ⟨hmmem, hmax, _⟩ := greedy_some_spec nfa s m hg
        have h1 : s.length ≤ m.length := hmax s hsmem
        have h2 : m.length ≤ s.length := globalSearch_length_le nfa s m hmmem
        have : m.length = s.length := le_antisymm h2 h1
        simp [fullMatch, hg, this]

/-- Claim C2: the admitted match intervals of one search are in non-decreasing
start order and pairwise non-overlapping — each earlier interval ends at or
before a later one starts, and ends strictly increase (strict forward
progress), empty matches included. -/
theorem global_search_sorted_nonoverlapping (nfa : NFA) (s : List Char) :
    (searchPairs nfa s).Pairwise fun p q => p.1 ≤ q.1 ∧ p.2 ≤ q.1 ∧ p.2 < q.2 := by
  have hpw := searchPairs_pairwise nfa s
  have hb := searchPairs_mem_bounds nfa s
  refine List.Pairwise.imp_of_mem ?_ hpw
  intro p q hp hq hpq
  exact ⟨le_trans (hb p hp).1 hpq.1, hpq.1, hpq.2⟩

/-- Claim C3: `greedy_search` is `None` exactly when `global_search` is empty;
when it returns `Some m`, `m` is an element of `global_search` of maximal
length, and it is the first (leftmost) element attaining that maximal
length. -/
theorem greedy_search_first_longest (nfa : NFA) (s : List Char) :
    (greedySearch nfa s = none ↔ globalSearch nfa s = []) ∧
      ∀ m, greedySearch nfa s = some m →
        m ∈ globalSearch nfa s ∧ (∀ x ∈ globalSearch nfa s, x.length ≤ m.length) ∧
          ∃ pre post, globalSearch nfa s = pre ++ m :: post ∧
            ∀ x ∈ pre, x.length < m.length := by
  exact ⟨greedy_none_iff nfa s, fun m h => greedy_some_spec nfa s m h⟩

/-!
## Claim C4: the boundary anchor tags
-/

theorem eps_mem_transitionItems :
    ∀ (rest : List Char) (cur : Option Char) (k j : Nat) (a : List Anchor),
      TItem.eps j a ∈ transitionItems cur rest k ↔
        ∃ i, j = k + i ∧ i ≤ rest.length ∧
          a = getAnchors (curAt cur rest i) (rest.get? i) := by
  intro rest
  induction rest with
  | nil =>
      intro cur k j a
      simp only [transitionItems, List.mem_singleton, TItem.eps.injEq]
      constructor
      · rintro ⟨rfl, rfl⟩
        exact ⟨0, by simp [curAt]⟩
      · rintro ⟨i, rfl, hi, rfl⟩
        have : i = 0 := by simpa using hi
        subst this
        simp [curAt]
  | cons c cs ih =>
      intro cur k j a
      simp only [transitionItems, List.mem_cons]
      constructor
      · rintro (h | h | h)
        · obtain ⟨rfl, rfl⟩ := TItem.eps.inj h
          exact ⟨0, by simp [curAt]⟩
        · cases h
        · obtain ⟨i', rfl, hi', rfl⟩ := (ih (some c) (k + 1) _ _).1 h
          refine ⟨i' + 1, by omega, by simp; omega, ?_⟩
          have hc : curAt (some c) cs i' = curAt cur (c :: cs) (i' + 1) := by
            cases i' with
            | zero => simp [curAt]
            | succ m => simp [curAt]
          have hn : cs.get? i' = (c :: cs).get? (i' + 1) := by simp
          rw [hc, hn]
      · rintro ⟨i, rfl, hi, rfl⟩
        cases i with
        | zero => left; simp [curAt]
        | succ i' =>
            right; right
            refine (ih (some c) (k + 1) _ _).2 ⟨i', by omega, by simp at hi; omega, ?_⟩
            have hc : curAt (some c) cs i' = curAt cur (c :: cs) (i' + 1) := by
              cases i' with
              | zero => simp [curAt]
              | succ m => simp [curAt]
            have hn : cs.get? i' = (c :: cs).get? (i' + 1) := by simp
            rw [hc, hn]

theorem getAnchors_eq_boundaryTags (s : List Char) (k : Nat) (hk : k ≤ s.length) :
    getAnchors (curAt none s k) (s.get? k) = boundaryTags s k := by
  by_cases hs : s = []
  · subst hs
    have : k = 0 := by simpa using hk
    subst this
    rfl
  · have hslen : 0 < s.length := List.length_pos.2 hs
    by_cases h0 : k = 0
    · subst h0
      obtain ⟨c, hc⟩ : ∃ c, s.get? 0 = some c := ⟨_, List.get?_eq_get hslen⟩
      rw [show curAt none s 0 = none from rfl, hc]
      simp [getAnchors, boundaryTags, hs]
    · by_cases hlast : k = s.length
      · subst hlast
        have hm : s.length - 1 < s.length := by omega
        obtain ⟨c, hc⟩ : ∃ c, s.get? (s.length - 1) = some c := ⟨_, List.get?_eq_get hm⟩
        have hnone : s.get? s.length = none := List.get?_eq_none.2 (le_refl _)
        have hcur : curAt none s s.length = some c := by
          cases hn : s.length with
          | zero => omega
          | succ m => simp only [curAt]; rw [← hc]; congr 1; omega
        rw [hcur, hnone]
        simp only [getAnchors, boundaryTags, hs, if_false, h0, if_pos rfl]
        rfl
      · have hklt : k < s.length := lt_of_le_of_ne hk hlast
        have hm : k - 1 < s.length := by omega
        obtain ⟨p, hp⟩ : ∃ p, s.get? (k - 1) = some p := ⟨_, List.get?_eq_get hm⟩
        obtain ⟨n, hn⟩ : ∃ n, s.get? k = some n := ⟨_, List.get?_eq_get hklt⟩
        have hcur : curAt none s k = some p := by
          cases hkk : k with
          | zero => omega
          | succ m => simp only [curAt]; rw [← hp]; congr 1; omega
        have hgdp : s.getD (k - 1) ' ' = p := by
          rw [List.getD_eq_getElem?_getD, ← List.get?_eq_getElem?, hp]; rfl
        have hgdn : s.getD k ' ' = n := by
          rw [List.getD_eq_getElem?_getD, ← List.get?_eq_getElem?, hn]; rfl
        rw [hcur, hn]
        simp only [boundaryTags, hs, h0, hlast, if_false, hgdp, hgdn]
        simp only [getAnchors]

/-- Claim C4: during simulation the anchor tag set computed for each
inter-character boundary is exactly as specified: `{Start, WordBoundary}` at
position 0, `{End, WordBoundary}` at the final position, `{WordBoundary}` at
an interior boundary exactly when the neighbours' alphanumericity differs
(else empty), and all of `{Start, End, WordBoundary}` at the single boundary
of the empty input — every boundary event of the transition stream carries the
specified tags, and every position up to the input length occurs as a
boundary event. -/
theorem anchor_tags_exact (s : List Char) :
    (∀ k a, TItem.eps k a ∈ transitionList s → a = boundaryTags s k) ∧
      ∀ k, k ≤ s.length → TItem.eps k (boundaryTags s k) ∈ transitionList s := by
  constructor
  · intro k a hmem
    obtain ⟨i, hji, hi, ha⟩ := (eps_mem_transitionItems s none 0 k a).1 hmem
    have : i = k := by omega
    subst this
    rw [ha]
    exact getAnchors_eq_boundaryTags s i hi
  · intro k hk
    refine (eps_mem_transitionItems s none 0 k _).2 ⟨k, by omega, hk, ?_⟩
    exact (getAnchors_eq_boundaryTags s k hk).symm

/-- Witness for C4: on the input `"a+"` the interior boundary between the
alphanumeric `'a'` and the non-alphanumeric `'+'` carries exactly the word
boundary tag. -/
theorem anchor_tags_exact_witness :
    (TItem.eps 1 [Anchor.wordB] ∈ transitionList ['a', '+']) ∧
      [Anchor.wordB] = boundaryTags ['a', '+'] 1 := by
  refine ⟨by decide, (anchor_tags_exact ['a', '+']).1 1 [Anchor.wordB] (by decide)⟩

/-!
## Lemmas: error propagation through the AST compiler
-/

theorem foldl_step_error (f : NFA → NFA → NFA) :
    ∀ (xs : List (Except String NFA)) (acc : Except String NFA),
      ((∃ m, acc = .error m) ∨ ∃ m, (.error m : Except String NFA) ∈ xs) →
      ∃ m, xs.foldl
          (fun acc e =>
            match acc, e with
            | .ok a, .ok b => .ok (f a b)
            | .error msg, _ => .error msg
            | .ok _, .error msg => .error msg)
          acc = .error m := by
  intro xs
  induction xs with
  | nil =>
      rintro acc (⟨m, rfl⟩ | ⟨m, hm⟩)
      · exact ⟨m, rfl⟩
      · simp at hm
  | cons y ys ih =>
      rintro acc h
      simp only [List.foldl_cons]
      rcases h with ⟨m, rfl⟩ | ⟨m, hm⟩
      · refine ih _ (Or.inl ⟨m, ?_⟩)
        cases y <;> rfl
      · rcases List.mem_cons.1 hm with heq | hm
        · cases acc with
          | ok a => exact ih _ (Or.inl ⟨m, by rw [← heq]⟩)
          | error m' => refine ih _ (Or.inl ⟨m', by rw [← heq]⟩)
        · exact ih _ (Or.inr ⟨m, hm⟩)

theorem foldAutomata_error_of_mem (f : NFA → NFA → NFA) (l : List (Except String NFA))
    (m : String) (hm : (.error m : Except String NFA) ∈ l) :
    ∃ m', foldAutomata f l = .error m' := by
  cases l with
  | nil => simp at hm
  | cons x xs =>
      simp only [foldAutomata]
      rcases List.mem_cons.1 hm with heq | hm
      · exact foldl_step_error f xs _ (Or.inl ⟨m, heq.symm⟩)
      · exact foldl_step_error f xs _ (Or.inr ⟨m, hm⟩)

theorem compileBasic_quantified_error (qf : Quantifiable) (qt : Option Quantifier)
    (h : ∃ m, compileQuantifiable qf = .error m) :
    ∃ m, compileBasic (.quantified qf qt) = .error m := by
  obtain ⟨m, hm⟩ := h
  cases qt with
  | none => exact ⟨m, by simp [compileBasic, hm]⟩
  | some q =>
      cases q with
      | zeroOrMore => exact ⟨m, by simp [compileBasic, hm, Except.map]⟩
      | oneOrMore => exact ⟨m, by simp [compileBasic, hm, Except.map]⟩
      | zeroOrOne => exact ⟨m, by simp [compileBasic, hm, Except.map]⟩
      | range r =>
          obtain ⟨lower, maybeUpper⟩ := r
          simp only [compileBasic, hm]
          cases maybeUpper with
          | none =>
              refine foldAutomata_error_of_mem _ _ m ?_
              refine List.mem_append.2 (Or.inr ?_)
              simp [Except.map]
          | some u =>
              by_cases hl : lower = 0
              · subst hl
                by_cases hu : u = 0
                · subst hu
                  exact ⟨_, rfl⟩
                · refine foldAutomata_error_of_mem _ _ m ?_
                  refine List.mem_append.2 (Or.inr ?_)
                  rw [show ((Except.error m : Except String NFA).map NFA.optional) =
                    (.error m : Except String NFA) from rfl]
                  exact List.mem_replicate.2 ⟨by omega, rfl⟩
              · refine foldAutomata_error_of_mem _ _ m ?_
                refine List.mem_append.2 (Or.inl ?_)
                exact List.mem_replicate.2 ⟨hl, rfl⟩

mutual

theorem exprListThm : ∀ (e : List (List BasicExpression)), exprHasBackref e = true →
    ∃ m, (.error m : Except String NFA) ∈ compileSubList e
  | se :: rest, h => by
      rw [exprHasBackref] at h
      rcases Bool.or_eq_true_iff.1 h with hs | hr
      · obtain ⟨m, hmem⟩ := subListThm se hs
        obtain ⟨m', hm'⟩ :=
          foldAutomata_error_of_mem NFA.concat (compileBasicList se) m hmem
        refine ⟨m', ?_⟩
        simp only [compileSubList]
        exact List.mem_cons.2 (Or.inl hm'.symm)
      · obtain ⟨m, hmem⟩ := exprListThm rest hr
        refine ⟨m, ?_⟩
        simp only [compileSubList]
        exact List.mem_cons.2 (Or.inr hmem)

theorem subListThm : ∀ (se : List BasicExpression), subHasBackref se = true →
    ∃ m, (.error m : Except String NFA) ∈ compileBasicList se
  | b :: rest, h => by
      rw [subHasBackref] at h
      rcases Bool.or_eq_true_iff.1 h with hb | hr
      · obtain ⟨m, hm⟩ := basicThm b hb
        refine ⟨m, ?_⟩
        simp only [compileBasicList]
        exact List.mem_cons.2 (Or.inl hm.symm)
      · obtain ⟨m, hmem⟩ := subListThm rest hr
        refine ⟨m, ?_⟩
        simp only [compileBasicList]
        exact List.mem_cons.2 (Or.inr hmem)

theorem basicThm : ∀ (b : BasicExpression), basicHasBackref b = true →
    ∃ m, compileBasic b = .error m
  | .quantified qf qt, h => by
      rw [basicHasBackref] at h
      exact compileBasic_quantified_error qf qt (quantifiableThm qf h)

theorem quantifiableThm : ∀ (qf : Quantifiable), quantifiableHasBackref qf = true →
    ∃ m, compileQuantifiable qf = .error m
  | .group (.mk nc idx e), h => by
      rw [quantifiableHasBackref] at h
      obtain ⟨m, hmem⟩ := exprListThm e h
      obtain ⟨m', hm'⟩ := foldAutomata_error_of_mem NFA.or (compileSubList e) m hmem
      exact ⟨m', by simp only [compileQuantifiable]; exact hm'⟩
  | .backreference n, _ => ⟨_, rfl⟩

end

theorem compileExpression_error_of_backref (e : List (List BasicExpression))
    (h : exprHasBackref e = true) : ∃ m, compileExpression e = .error m := by
  obtain ⟨m, hmem⟩ := exprListThm e h
  obtain ⟨m', hm'⟩ := foldAutomata_error_of_mem NFA.or (compileSubList e) m hmem
  exact ⟨m', hm'⟩

/-!
## Lemmas: the `repeat` combinator
-/

theorem repeatF_isSome {α : Type} (p : Parser α)
    (hp : ∀ s t rst, p s = some (t, rst) → rst.length < s.length) :
    ∀ (fuel : Nat) (s : List Char), s.length < fuel → (repeatF p fuel s).isSome = true := by
  intro fuel
  induction fuel with
  | zero => intro s h; omega
  | succ n ih =>
      intro s h
      rw [repeatF]
      beta_reduce
      cases hps : p s with
      | none => simp
      | some tr =>
          obtain ⟨t, rst⟩ := tr
          have hlt := hp s t rst hps
          have hsome := ih rst (by omega)
          cases hrec : repeatF p n rst with
          | none => rw [hrec] at hsome; simp at hsome
          | some vr => obtain ⟨ts, rem⟩ := vr; simp [hrec]

/-- Claim C5 counterexample: the source `a{3,2}` — a bounded repetition with
lower bound `3` above upper bound `2` — compiles successfully (no
`InvalidSyntax` error), and the resulting regex fully matches `aaa` exactly as
`a{3}` would. -/
theorem range_lower_gt_upper_compiles :
    (compileRegex ['a', '{', '3', ',', '2', '}']).isOk = true ∧
      (match compileRegex ['a', '{', '3', ',', '2', '}'] with
        | .ok A => fullMatch A ['a', 'a', 'a']
        | .error _ => false) = true ∧
      (match compileRegex ['a', '{', '3', ',', '2', '}'] with
        | .ok A => fullMatch A ['a', 'a']
        | .error _ => true) = false := by
  refine ⟨by decide, by decide, by decide⟩

/-- Claim C5 (amended): a bounded repetition `{l,u}` with `l > u` is accepted
by the grammar and compiled exactly like `{l,l}`: the optional copies drawn
from the empty range `l..u` vanish, leaving the `l` mandatory copies. -/
theorem range_lower_gt_upper_as_exact (qf : Quantifiable) (l u : Nat) (h : u < l) :
    compileQuantified (qf, some (.range (l, some u))) =
      compileQuantified (qf, some (.range (l, some l))) := by
  simp only [compileQuantified]
  have h1 : u - l = 0 := by omega
  have h2 : l - l = 0 := by omega
  rw [h1, h2]

/-- Witness for the amended C5 at `a{3,2}` versus `a{3,3}`. -/
theorem range_lower_gt_upper_as_exact_witness :
    compileQuantified (.matchQ (.char 'a'), some (.range (3, some 2))) =
      compileQuantified (.matchQ (.char 'a'), some (.range (3, some 3))) :=
  range_lower_gt_upper_as_exact (.matchQ (.char 'a')) 3 2 (by decide)

/-- Claim C10: a quantifier range with lower and upper bound `0` (sources
`a{0}` and `a{0,0}`) does not compile to a regex matching only the empty
string: the Range arm produces an empty fragment list whose fold yields the
internal non-empty-iterator error, so `compile` fails. -/
theorem zero_zero_range_compile_fails (qf : Quantifiable) :
    compileQuantified (qf, some (.range (0, some 0))) =
        .error "Internal Error: Iterator was expected to be non-empty" ∧
      compileRegex ['a', '{', '0', '}'] =
        .error "Internal Error: Iterator was expected to be non-empty" ∧
      compileRegex ['a', '{', '0', ',', '0', '}'] =
        .error "Internal Error: Iterator was expected to be non-empty" :=
  ⟨rfl, by decide, by decide⟩

/-- Claim C7 counterexample: the source `[\1]` contains the numeric
backreference `\1`, yet the parser rejects it (inside a character group the
sequence is not grammatical), so not every source containing `\1`–`\9` is
accepted by the parser. -/
theorem backref_in_character_group_rejected_at_parse :
    (parseRegex ['[', '\\', '1', ']']).isSome = false := by decide

/-- Claim C7 (amended): the backreference syntax `\1`–`\9` is accepted by the
parser where a quantifiable atom is expected — each source `\d` parses to an
AST containing a `Backreference` node while its compilation fails — and every
AST containing a `Backreference` node is rejected by `compile` with an error:
the error is emitted at compile time, not at parse time, and backreferences
are never executed. -/
theorem backreference_parsed_but_rejected_at_compile :
    (∀ c, c ∈ ['1', '2', '3', '4', '5', '6', '7', '8', '9'] →
        (parseRegex ['\\', c]).map exprHasBackref = some true ∧
          (compileRegex ['\\', c]).isOk = false) ∧
      ∀ e, exprHasBackref e = true → ∃ m, compileExpression e = .error m := by
  exact ⟨by decide, compileExpression_error_of_backref⟩

/-- Witness for C7 at the source `\1` and the AST `\1` parses to. -/
theorem backreference_parsed_but_rejected_at_compile_witness :
    ((parseRegex ['\\', '1']).map exprHasBackref = some true ∧
        (compileRegex ['\\', '1']).isOk = false) ∧
      ∃ m, compileExpression [[.quantified (.backreference 1) none]] = .error m :=
  ⟨backreference_parsed_but_rejected_at_compile.1 '1' (by decide),
    backreference_parsed_but_rejected_at_compile.2 [[.quantified (.backreference 1) none]]
      (by decide)⟩

/-- Claim C9 counterexample: for the parser `optional(any)` — which always
succeeds without consuming — the Rust `repeat` loop never terminates on empty
input: no iteration bound finishes it, so `repeat(p)` does not return for
every parser `p`. -/
theorem repeat_nonconsuming_diverges : repeatDiverges (poptional anyP) ([] : List Char) := by
  intro fuel
  induction fuel with
  | zero => rfl
  | succ n ih =>
      rw [repeatF]
      beta_reduce
      rw [show poptional anyP ([] : List Char) =
        some ((none : Option Char), ([] : List Char)) from rfl]
      simp only [ih]

/-- Claim C9 (amended): for every parser `p` that consumes input on success,
`repeat(p)` always succeeds, returning the (possibly empty) list of values
accumulated by greedily re-applying `p` together with the remaining input. -/
theorem repeat_always_succeeds_of_consuming {α : Type} (p : Parser α)
    (hp : ∀ s t rst, p s = some (t, rst) → rst.length < s.length) (s : List Char) :
    ∃ v rst, prepeat p s = some (v, rst) := by
  have h := repeatF_isSome p hp (s.length + 1) s (by omega)
  unfold prepeat
  cases hr : repeatF p (s.length + 1) s with
  | none => rw [hr] at h; simp at h
  | some vr =>
      obtain ⟨v, rst⟩ := vr
      exact ⟨v, rst, rfl⟩

/-- Witness for C9 at the consuming parser `character('a')` on input `aa`. -/
theorem repeat_always_succeeds_of_consuming_witness :
    ∃ v rst, prepeat (characterP 'a') ['a', 'a'] = some (v, rst) := by
  refine repeat_always_succeeds_of_consuming (characterP 'a') ?_ ['a', 'a']
  intro s t rst h
  cases s with
  | nil =>
      have hn : characterP 'a' ([] : List Char) = none := rfl
      rw [hn] at h
      cases h
  | cons c cs =>
      have hred : characterP 'a' (c :: cs) = if c = 'a' then some (c, cs) else none := by
        by_cases hc : c = 'a' <;> simp [characterP, pfilter, pmap, anyP, hc]
      rw [hred] at h
      split at h
      · simp only [Option.some.injEq, Prod.mk.injEq] at h
        rw [← h.2]
        simp
      · cases h

/-- Witness for C3 at the `ba*` automaton of the repository's tests on input
`"baababaaa"`, where the greedy result `"baaa"` is the longest of the three
admitted matches. -/
theorem greedy_search_first_longest_witness :
    greedySearch ((fromToken 'b').concat ((fromToken 'a').closure))
        ['b', 'a', 'a', 'b', 'a', 'b', 'a', 'a', 'a'] =
        some ['b', 'a', 'a', 'a'] ∧
      ['b', 'a', 'a', 'a'] ∈ globalSearch ((fromToken 'b').concat ((fromToken 'a').closure))
        ['b', 'a', 'a', 'b', 'a', 'b', 'a', 'a', 'a'] := by
  have h : greedySearch ((fromToken 'b').concat ((fromToken 'a').closure))
      ['b', 'a', 'a', 'b', 'a', 'b', 'a', 'a', 'a'] = some ['b', 'a', 'a', 'a'] := by decide
  exact ⟨h, ((greedy_search_first_longest _ _).2 _ h).1⟩

/-!
## Claim C8: the simulation cannot fail

The recursive `traverse_epsilons` walk terminates on cyclic graphs because
every level of recursion first pushes an unvisited state onto the visited
list, whose length is bounded by the number of states.  In the fueled
embedding this becomes: with fuel `|states| + 1` the walk never returns
`none`.
-/

theorem traverseF_succ (nfa : NFA) (anchors : List Anchor) (fuel : Nat)
    (dv : List Nat × List Nat) (st : Nat) :
    traverseF nfa anchors (fuel + 1) dv st =
      goCandsWith (traverseF nfa anchors fuel)
        ((if (epsilonOf nfa anchors st).isEmpty then dv.1 ++ [st] else dv.1), dv.2)
        (epsilonOf nfa anchors st) := by
  rw [traverseF]

theorem epsilonOf_valid (nfa : NFA) (hwf : nfa.WF) (anchors : List Anchor) (i : Nat) :
    ∀ d ∈ epsilonOf nfa anchors i, d < nfa.states.length := by
  intro d hd
  by_cases hi : i < nfa.states.length
  · have hget : getState nfa i = nfa.states.get ⟨i, hi⟩ := by
      unfold getState
      rw [List.getD_eq_getElem?_getD, List.getElem?_eq_getElem hi]
      rfl
    have hmem : getState nfa i ∈ nfa.states := by
      rw [hget]; exact List.get_mem _ _ _
    have hsub : d ∈ destsOf (getState nfa i) := by
      revert hd
      unfold epsilonOf
      cases getState nfa i with
      | triv ds => intro hd; simpa [destsOf] using hd
      | token c dd => intro hd; simp at hd
      | lambda p dd => intro hd; simp at hd
      | anchorS a dd =>
          intro hd
          simp only [destsOf]
          by_cases ha : a ∈ anchors
          · simp [ha] at hd
            simp [hd]
          · simp [ha] at hd
    exact hwf _ hmem d hsub
  · have hget : getState nfa i = .triv [] := by
      unfold getState
      rw [List.getD_eq_getElem?_getD, List.getElem?_eq_none (by omega)]
      rfl
    unfold epsilonOf at hd
    rw [hget] at hd
    simp at hd

theorem goCandsWith_fuel (nfa : NFA) (hwf : nfa.WF) (anchors : List Anchor) (fuel : Nat)
    (hP : ∀ (d v : List Nat) (st : Nat), v.Nodup → (∀ x ∈ v, x < nfa.states.length) →
      nfa.states.length < fuel + v.length →
      ∃ d' ext, traverseF nfa anchors fuel (d, v) st = some (d', v ++ ext) ∧
        (v ++ ext).Nodup ∧ ∀ x ∈ v ++ ext, x < nfa.states.length) :
    ∀ (cs d v : List Nat), v.Nodup → (∀ x ∈ v, x < nfa.states.length) →
      (∀ c ∈ cs, c < nfa.states.length) → nfa.states.length ≤ fuel + v.length →
      ∃ d' ext, goCandsWith (traverseF nfa anchors fuel) (d, v) cs = some (d', v ++ ext) ∧
        (v ++ ext).Nodup ∧ ∀ x ∈ v ++ ext, x < nfa.states.length := by
  intro cs
  induction cs with
  | nil =>
      intro d v hnd hval _ _
      exact ⟨d, [], by rw [goCandsWith]; simp, by simpa using hnd, by simpa using hval⟩
  | cons c cs ih =>
      intro d v hnd hval hcs hfl
      by_cases hc : c ∈ v
      · obtain ⟨d', ext, hrun, hnd', hval'⟩ :=
          ih d v hnd hval (fun x hx => hcs x (List.mem_cons_of_mem _ hx)) hfl
        refine ⟨d', ext, ?_, hnd', hval'⟩
        rw [goCandsWith, if_pos hc]
        exact hrun
      · have hndc : (v ++ [c]).Nodup := by
          rw [List.nodup_append]
          exact ⟨hnd, List.nodup_singleton c, by simpa using hc⟩
        have hvalc : ∀ x ∈ v ++ [c], x < nfa.states.length := by
          intro x hx
          rcases List.mem_append.1 hx with hx | hx
          · exact hval x hx
          · rw [List.mem_singleton.1 hx]
            exact hcs c (List.mem_cons_self _ _)
        have hlt : nfa.states.length < fuel + (v ++ [c]).length := by
          simp only [List.length_append, List.length_singleton]
          omega
        obtain ⟨d1, ext1, hrun1, hnd1, hval1⟩ := hP d (v ++ [c]) c hndc hvalc hlt
        have hfl2 : nfa.states.length ≤ fuel + (v ++ [c] ++ ext1).length := by
          simp only [List.length_append, List.length_singleton]
          omega
        obtain ⟨d2, ext2, hrun2, hnd2, hval2⟩ :=
          ih d1 (v ++ [c] ++ ext1) hnd1 hval1
            (fun x hx => hcs x (List.mem_cons_of_mem _ hx)) hfl2
        refine ⟨d2, [c] ++ ext1 ++ ext2, ?_, ?_, ?_⟩
        · have hstep : goCandsWith (traverseF nfa anchors fuel) (d, v) (c :: cs) =
              goCandsWith (traverseF nfa anchors fuel) (d1, v ++ [c] ++ ext1) cs := by
            rw [goCandsWith, if_neg hc, hrun1]
          rw [hstep, hrun2]
          simp [List.append_assoc]
        · have := hnd2
          rwa [List.append_assoc, List.append_assoc] at this
        · intro x hx
          apply hval2
          rwa [List.append_assoc, List.append_assoc]


theorem traverseF_fuel (nfa : NFA) (hwf : nfa.WF) (anchors : List Anchor) :
    ∀ (fuel : Nat) (d v : List Nat) (st : Nat), v.Nodup →
      (∀ x ∈ v, x < nfa.states.length) → nfa.states.length < fuel + v.length →
      ∃ d' ext, traverseF nfa anchors fuel (d, v) st = some (d', v ++ ext) ∧
        (v ++ ext).Nodup ∧ ∀ x ∈ v ++ ext, x < nfa.states.length := by
  intro fuel
  induction fuel with
  | zero =>
      intro d v st hnd hval hlt
      exfalso
      have hsub : v ⊆ List.range nfa.states.length := fun x hx =>
        List.mem_range.2 (hval x hx)
      have hle := (hnd.subperm hsub).length_le
      rw [List.length_range] at hle
      omega
  | succ fuel ih =>
      intro d v st hnd hval hlt
      rw [traverseF_succ]
      exact goCandsWith_fuel nfa hwf anchors fuel ih (epsilonOf nfa anchors st) _ v hnd hval
        (epsilonOf_valid nfa hwf anchors st) (by omega)

theorem exhaustList_isSome (nfa : NFA) (hwf : nfa.WF) (anchors : List Anchor) :
    ∀ (ss d v : List Nat), v.Nodup → (∀ x ∈ v, x < nfa.states.length) →
      ∃ dv', exhaustList nfa anchors (d, v) ss = some dv' := by
  intro ss
  induction ss with
  | nil => intro d v _ _; exact ⟨(d, v), rfl⟩
  | cons s ss ih =>
      intro d v hnd hval
      obtain ⟨d', ext, hrun, hnd', hval'⟩ :=
        traverseF_fuel nfa hwf anchors (nfa.states.length + 1) d v s hnd hval (by omega)
      obtain ⟨dv', hdv'⟩ := ih d' (v ++ ext) hnd' hval'
      refine ⟨dv', ?_⟩
      rw [exhaustList, hrun]
      exact hdv'

theorem exhaustEpsilonsF_isSome (nfa : NFA) (hwf : nfa.WF) (states : List Nat)
    (anchors : List Anchor) : (exhaustEpsilonsF nfa states anchors).isSome = true := by
  obtain ⟨dv', hdv'⟩ := exhaustList_isSome nfa hwf anchors states [] []
    List.nodup_nil (by intro x hx; cases hx)
  unfold exhaustEpsilonsF
  rw [hdv']
  rfl

theorem mapME_isSome {α β : Type _} (f : α → Option β) :
    ∀ l, (∀ x ∈ l, (f x).isSome = true) → (mapME f l).isSome = true := by
  intro l
  induction l with
  | nil => intro _; rfl
  | cons x xs ih =>
      intro h
      have hx := h x (List.mem_cons_self _ _)
      have hxs := ih fun y hy => h y (List.mem_cons_of_mem _ hy)
      rw [mapME]
      cases hfx : f x with
      | none => rw [hfx] at hx; cases hx
      | some y =>
          cases hmx : mapME f xs with
          | none => rw [hmx] at hxs; cases hxs
          | some ys => rfl

theorem stepItem_isSome (nfa : NFA) (hwf : nfa.WF) (frs : List Frontier) (it : TItem) :
    (stepItem nfa frs it).isSome = true := by
  cases it with
  | chr c => rfl
  | eps r anchors =>
      rw [stepItem]
      refine mapME_isSome _ _ fun fr _ => ?_
      unfold epsFrontier
      have h := exhaustEpsilonsF_isSome nfa hwf fr.2 anchors
      cases hcl : exhaustEpsilonsF nfa fr.2 anchors with
      | none => rw [hcl] at h; cases h
      | some sts => rfl

theorem runItems_isSome (nfa : NFA) (hwf : nfa.WF) :
    ∀ (items : List TItem) (frs : List Frontier), (runItems nfa items frs).isSome = true := by
  intro items
  induction items with
  | nil => intro frs; rfl
  | cons it its ih =>
      intro frs
      have h := stepItem_isSome nfa hwf frs it
      rw [runItems]
      cases hstep : stepItem nfa frs it with
      | none => rw [hstep] at h; cases h
      | some frs' => exact ih frs'

/-- The event loop always produces a frontier list for well-formed automata —
including the cyclic graphs produced by `closure` and `plus` — because the
epsilon-closure worklist walk terminates: each level of recursion pushes a
fresh state onto the identity-keyed visited list, whose length is bounded by
the number of states, so the fuel `|states| + 1` is never exhausted. -/
theorem runItems_total (nfa : NFA) (hwf : nfa.WF) (s : List Char) :
    ∃ frs, runItems nfa (transitionList s) [] = some frs := by
  have h := runItems_isSome nfa hwf (transitionList s) []
  cases hrun : runItems nfa (transitionList s) [] with
  | none => rw [hrun] at h; cases h
  | some frs => exact ⟨frs, rfl⟩

/-!
## Lemmas: blocked epsilon paths (towards the epsilon-closure characterization)
-/

theorem avoidN_mono (nfa : NFA) (anchors : List Anchor) (b1 b2 : List Nat)
    (hsub : ∀ y ∈ b1, y ∈ b2) :
    ∀ k u x, AvoidN nfa anchors b2 k u x → AvoidN nfa anchors b1 k u x := by
  intro k
  induction k with
  | zero =>
      intro u x h
      rw [AvoidN] at h ⊢
      exact ⟨h.1, fun hu => h.2 (hsub u hu)⟩
  | succ k ih =>
      intro u x h
      rw [AvoidN] at h ⊢
      obtain ⟨hu, w, hw, hrest⟩ := h
      exact ⟨fun hmem => hu (hsub u hmem), w, hw, ih w x hrest⟩

theorem avoidN_trans (nfa : NFA) (anchors : List Anchor) (b : List Nat) :
    ∀ m k u y x, AvoidN nfa anchors b m u y → AvoidN nfa anchors b k y x →
      AvoidN nfa anchors b (m + k) u x := by
  intro m
  induction m with
  | zero =>
      intro k u y x h1 h2
      rw [AvoidN] at h1
      rw [h1.1]
      simpa using h2
  | succ m ih =>
      intro k u y x h1 h2
      rw [AvoidN] at h1
      obtain ⟨hu, w, hw, hrest⟩ := h1
      have : m + 1 + k = (m + k) + 1 := by omega
      rw [this, AvoidN]
      exact ⟨hu, w, hw, ih k w y x hrest h2⟩

theorem avoidN_not_blocked (nfa : NFA) (anchors : List Anchor) (b : List Nat)
    (k u x : Nat) (h : AvoidN nfa anchors b k u x) : u ∉ b := by
  cases k with
  | zero => rw [AvoidN] at h; exact h.2
  | succ k => rw [AvoidN] at h; exact h.1

theorem avoidN_firstHit (nfa : NFA) (anchors : List Anchor) (b1 b2 : List Nat)
    (hsub : ∀ y ∈ b1, y ∈ b2) :
    ∀ k u x, AvoidN nfa anchors b1 k u x →
      AvoidN nfa anchors b2 k u x ∨
        ∃ y, y ∈ b2 ∧ y ∉ b1 ∧ ∃ m ≤ k, AvoidN nfa anchors b1 m y x := by
  intro k
  induction k with
  | zero =>
      intro u x h
      rw [AvoidN] at h
      by_cases hu : u ∈ b2
      · exact Or.inr ⟨u, hu, h.2, 0, Nat.le_refl 0, by rw [AvoidN]; exact h⟩
      · exact Or.inl (by rw [AvoidN]; exact ⟨h.1, hu⟩)
  | succ k ih =>
      intro u x h
      rw [AvoidN] at h
      obtain ⟨hu, w, hw, hrest⟩ := h
      by_cases hub : u ∈ b2
      · exact Or.inr ⟨u, hub, hu, k + 1, Nat.le_refl _, by rw [AvoidN]; exact ⟨hu, w, hw, hrest⟩⟩
      · rcases ih w x hrest with h2 | ⟨y, hy2, hy1, m, hm, hpath⟩
        · exact Or.inl (by rw [AvoidN]; exact ⟨hub, w, hw, h2⟩)
        · exact Or.inr ⟨y, hy2, hy1, m, Nat.le_succ_of_le hm, hpath⟩

theorem avoid_absorb_fwd (nfa : NFA) (anchors : List Anchor) (v : List Nat) (c : Nat) :
    ∀ k x, AvoidN nfa anchors v k c x →
      x = c ∨ ∃ e ∈ epsilonOf nfa anchors c, AvoidP nfa anchors (v ++ [c]) e x := by
  intro k
  induction k using Nat.strong_induction_on with
  | _ k ih =>
      intro x h
      cases k with
      | zero => rw [AvoidN] at h; exact Or.inl h.1.symm
      | succ k =>
          rw [AvoidN] at h
          obtain ⟨hc, w, hw, hrest⟩ := h
          have hstep :=
            avoidN_firstHit nfa anchors v (v ++ [c]) (fun y hy => List.mem_append_left _ hy)
              k w x hrest
          rcases hstep with h2 | ⟨y, hy2, hy1, m, hm, hpath⟩
          · exact Or.inr ⟨w, hw, k, h2⟩
          · have hyc : y = c := by
              rcases List.mem_append.1 hy2 with hy | hy
              · exact absurd hy hy1
              · exact List.mem_singleton.1 hy
            subst hyc
            exact ih m (by omega) x hpath

theorem avoid_absorb (nfa : NFA) (anchors : List Anchor) (v : List Nat) (c : Nat)
    (hc : c ∉ v) (x : Nat) :
    AvoidP nfa anchors v c x ↔
      (x = c ∨ ∃ e ∈ epsilonOf nfa anchors c, AvoidP nfa anchors (v ++ [c]) e x) := by
  constructor
  · rintro ⟨k, h⟩
    exact avoid_absorb_fwd nfa anchors v c k x h
  · rintro (rfl | ⟨e, he, k, hpath⟩)
    · exact ⟨0, by rw [AvoidN]; exact ⟨rfl, hc⟩⟩
    · refine ⟨k + 1, ?_⟩
      rw [AvoidN]
      exact ⟨hc, e, he,
        avoidN_mono nfa anchors v (v ++ [c]) (fun y hy => List.mem_append_left _ hy) k e x hpath⟩

theorem reach_refl (nfa : NFA) (anchors : List Anchor) (u : Nat) :
    Reach nfa anchors u u :=
  ⟨0, by rw [AvoidN]; exact ⟨rfl, List.not_mem_nil u⟩⟩

theorem reach_head (nfa : NFA) (anchors : List Anchor) (u w x : Nat)
    (hw : w ∈ epsilonOf nfa anchors u) (h : Reach nfa anchors w x) :
    Reach nfa anchors u x := by
  obtain ⟨k, hk⟩ := h
  exact ⟨k + 1, by rw [AvoidN]; exact ⟨List.not_mem_nil u, w, hw, hk⟩⟩

theorem reach_trans (nfa : NFA) (anchors : List Anchor) (u y x : Nat)
    (h1 : Reach nfa anchors u y) (h2 : Reach nfa anchors y x) :
    Reach nfa anchors u x := by
  obtain ⟨m, hm⟩ := h1
  obtain ⟨k, hk⟩ := h2
  exact ⟨m + k, avoidN_trans nfa anchors [] m k u y x hm hk⟩

theorem reach_of_avoid (nfa : NFA) (anchors : List Anchor) (b : List Nat) (u x : Nat)
    (h : AvoidP nfa anchors b u x) : Reach nfa anchors u x := by
  obtain ⟨k, hk⟩ := h
  exact ⟨k, avoidN_mono nfa anchors [] b (fun y hy => absurd hy (List.not_mem_nil y)) k u x hk⟩

theorem reach_bound (nfa : NFA) (hwf : nfa.WF) (anchors : List Anchor) :
    ∀ k u x, AvoidN nfa anchors [] k u x → u < nfa.states.length → x < nfa.states.length := by
  intro k
  induction k with
  | zero => intro u x h hu; rw [AvoidN] at h; rw [← h.1]; exact hu
  | succ k ih =>
      intro u x h _
      rw [AvoidN] at h
      obtain ⟨_, w, hw, hrest⟩ := h
      exact ih w x hrest (epsilonOf_valid nfa hwf anchors u w hw)

theorem goCands_spec (nfa : NFA) (anchors : List Anchor) (fuel : Nat)
    (hT : ∀ d v st d' v', traverseF nfa anchors fuel (d, v) st = some (d', v') →
      (∀ x, x ∈ v' ↔ x ∈ v ∨ ∃ c ∈ epsilonOf nfa anchors st, AvoidP nfa anchors v c x) ∧
      (∀ x, x ∈ d' ↔ x ∈ d ∨ (epsilonOf nfa anchors x = [] ∧
        (x = st ∨ ∃ c ∈ epsilonOf nfa anchors st, AvoidP nfa anchors v c x)))) :
    ∀ cs d v d' v', goCandsWith (traverseF nfa anchors fuel) (d, v) cs = some (d', v') →
      (∀ x, x ∈ v' ↔ x ∈ v ∨ ∃ c ∈ cs, AvoidP nfa anchors v c x) ∧
      (∀ x, x ∈ d' ↔ x ∈ d ∨ (epsilonOf nfa anchors x = [] ∧
        ∃ c ∈ cs, AvoidP nfa anchors v c x)) := by
  intro cs
  induction cs with
  | nil =>
      intro d v d' v' h
      rw [goCandsWith] at h
      simp only [Option.some.injEq, Prod.mk.injEq] at h
      obtain ⟨rfl, rfl⟩ := h
      constructor <;> intro x <;> simp
  | cons c cs ih =>
      intro d v d' v' h
      by_cases hc : c ∈ v
      · rw [goCandsWith, if_pos hc] at h
        have hrec := ih d v d' v' h
        have hnoc : ∀ x, ¬ AvoidP nfa anchors v c x := by
          rintro x ⟨k, hk⟩
          exact avoidN_not_blocked nfa anchors v k c x hk hc
        constructor
        · intro x
          rw [hrec.1 x]
          constructor
          · rintro (hx | ⟨e, he, hp⟩)
            · exact Or.inl hx
            · exact Or.inr ⟨e, List.mem_cons_of_mem _ he, hp⟩
          · rintro (hx | ⟨e, he, hp⟩)
            · exact Or.inl hx
            · rcases List.mem_cons.1 he with rfl | he
              · exact absurd hp (hnoc x)
              · exact Or.inr ⟨e, he, hp⟩
        · intro x
          rw [hrec.2 x]
          constructor
          · rintro (hx | ⟨hs, e, he, hp⟩)
            · exact Or.inl hx
            · exact Or.inr ⟨hs, e, List.mem_cons_of_mem _ he, hp⟩
          · rintro (hx | ⟨hs, e, he, hp⟩)
            · exact Or.inl hx
            · rcases List.mem_cons.1 he with rfl | he
              · exact absurd hp (hnoc x)
              · exact Or.inr ⟨hs, e, he, hp⟩
      · cases hT1 : traverseF nfa anchors fuel (d, v ++ [c]) c with
        | none =>
            exfalso
            rw [goCandsWith, if_neg hc, hT1] at h
            exact absurd h (by simp)
        | some dv1 =>
            obtain ⟨d1, v1⟩ := dv1
            have h1 : goCandsWith (traverseF nfa anchors fuel) (d1, v1) cs = some (d', v') := by
              rw [goCandsWith, if_neg hc, hT1] at h
              exact h
            obtain ⟨Hv1, Hd1⟩ := hT d (v ++ [c]) c d1 v1 hT1
            have habs := avoid_absorb nfa anchors v c hc
            have Hv1x : ∀ x, x ∈ v1 ↔ x ∈ v ∨ AvoidP nfa anchors v c x := by
              intro x
              rw [Hv1 x, habs x]
              constructor
              · rintro (hx | hp)
                · rcases List.mem_append.1 hx with hx | hx
                  · exact Or.inl hx
                  · exact Or.inr (Or.inl (List.mem_singleton.1 hx))
                · exact Or.inr (Or.inr hp)
              · rintro (hx | (rfl | hp))
                · exact Or.inl (List.mem_append_left _ hx)
                · exact Or.inl (List.mem_append_right _ (List.mem_singleton_self _))
                · exact Or.inr hp
            have Hd1x : ∀ x, x ∈ d1 ↔ x ∈ d ∨ (epsilonOf nfa anchors x = [] ∧
                AvoidP nfa anchors v c x) := by
              intro x
              rw [Hd1 x, habs x]
            have hsubv : ∀ y ∈ v, y ∈ v1 := fun y hy => (Hv1x y).2 (Or.inl hy)
            have hsplit : ∀ x e, AvoidP nfa anchors v e x →
                AvoidP nfa anchors v1 e x ∨ AvoidP nfa anchors v c x := by
              rintro x e ⟨k, hk⟩
              rcases avoidN_firstHit nfa anchors v v1 hsubv k e x hk with h2 | ⟨y, hy1, hy2, m, _, hm⟩
              · exact Or.inl ⟨k, h2⟩
              · rcases (Hv1x y).1 hy1 with hy | ⟨j, hj⟩
                · exact absurd hy hy2
                · exact Or.inr ⟨j + m, avoidN_trans nfa anchors v j m c y x hj hm⟩
            obtain ⟨IHv, IHd⟩ := ih d1 v1 d' v' h1
            constructor
            · intro x
              rw [IHv x]
              constructor
              · rintro (hx | ⟨e, he, hp⟩)
                · rcases (Hv1x x).1 hx with hx | hp
                  · exact Or.inl hx
                  · exact Or.inr ⟨c, List.mem_cons_self _ _, hp⟩
                · exact Or.inr ⟨e, List.mem_cons_of_mem _ he,
                    ⟨hp.choose, avoidN_mono nfa anchors v v1 hsubv _ e x hp.choose_spec⟩⟩
              · rintro (hx | ⟨e, he, hp⟩)
                · exact Or.inl (hsubv x hx)
                · rcases List.mem_cons.1 he with rfl | he
                  · exact Or.inl ((Hv1x x).2 (Or.inr hp))
                  · rcases hsplit x e hp with hp1 | hpc
                    · exact Or.inr ⟨e, he, hp1⟩
                    · exact Or.inl ((Hv1x x).2 (Or.inr hpc))
            · intro x
              rw [IHd x]
              constructor
              · rintro (hx | ⟨hs, e, he, hp⟩)
                · rcases (Hd1x x).1 hx with hx | ⟨hs, hp⟩
                  · exact Or.inl hx
                  · exact Or.inr ⟨hs, c, List.mem_cons_self _ _, hp⟩
                · exact Or.inr ⟨hs, e, List.mem_cons_of_mem _ he,
                    ⟨hp.choose, avoidN_mono nfa anchors v v1 hsubv _ e x hp.choose_spec⟩⟩
              · rintro (hx | ⟨hs, e, he, hp⟩)
                · exact Or.inl ((Hd1x x).2 (Or.inl hx))
                · rcases List.mem_cons.1 he with rfl | he
                  · exact Or.inl ((Hd1x x).2 (Or.inr ⟨hs, hp⟩))
                  · rcases hsplit x e hp with hp1 | hpc
                    · exact Or.inr ⟨hs, e, he, hp1⟩
                    · exact Or.inl ((Hd1x x).2 (Or.inr ⟨hs, hpc⟩))

theorem traverse_spec (nfa : NFA) (anchors : List Anchor) :
    ∀ fuel d v st d' v', traverseF nfa anchors fuel (d, v) st = some (d', v') →
      (∀ x, x ∈ v' ↔ x ∈ v ∨ ∃ c ∈ epsilonOf nfa anchors st, AvoidP nfa anchors v c x) ∧
      (∀ x, x ∈ d' ↔ x ∈ d ∨ (epsilonOf nfa anchors x = [] ∧
        (x = st ∨ ∃ c ∈ epsilonOf nfa anchors st, AvoidP nfa anchors v c x))) := by
  intro fuel
  induction fuel with
  | zero =>
      intro d v st d' v' h
      simp [traverseF] at h
  | succ fuel ih =>
      intro d v st d' v' h
      rw [traverseF_succ] at h
      have hg := goCands_spec nfa anchors fuel ih (epsilonOf nfa anchors st) _ _ d' v' h
      refine ⟨hg.1, ?_⟩
      intro x
      have hd := hg.2 x
      by_cases hsk : (epsilonOf nfa anchors st).isEmpty = true
      · rw [if_pos hsk] at hd
        have hste : epsilonOf nfa anchors st = [] := by
          simpa using hsk
        rw [hd]
        constructor
        · rintro (hx | ⟨hs, hp⟩)
          · rcases List.mem_append.1 hx with hx | hx
            · exact Or.inl hx
            · have hxs := List.mem_singleton.1 hx
              subst hxs
              exact Or.inr ⟨hste, Or.inl rfl⟩
          · exact Or.inr ⟨hs, Or.inr hp⟩
        · rintro (hx | ⟨hs, (rfl | hp)⟩)
          · exact Or.inl (List.mem_append_left _ hx)
          · exact Or.inl (List.mem_append_right _ (List.mem_singleton_self _))
          · exact Or.inr ⟨hs, hp⟩
      · rw [if_neg hsk] at hd
        have hste : epsilonOf nfa anchors st ≠ [] := by
          simpa using hsk
        rw [hd]
        constructor
        · rintro (hx | ⟨hs, hp⟩)
          · exact Or.inl hx
          · exact Or.inr ⟨hs, Or.inr hp⟩
        · rintro (hx | ⟨hs, (rfl | hp)⟩)
          · exact Or.inl hx
          · exact absurd hs hste
          · exact Or.inr ⟨hs, hp⟩

theorem exhaustList_spec (nfa : NFA) (anchors : List Anchor) :
    ∀ ss d v d' v',
      (∀ y ∈ v, ∀ x, epsilonOf nfa anchors x = [] → Reach nfa anchors y x → x ∈ d) →
      exhaustList nfa anchors (d, v) ss = some (d', v') →
      (∀ x ∈ d, x ∈ d') ∧
      (∀ x, x ∈ d' →
        x ∈ d ∨ (epsilonOf nfa anchors x = [] ∧ ∃ u ∈ ss, Reach nfa anchors u x)) ∧
      (∀ u ∈ ss, ∀ x, epsilonOf nfa anchors x = [] → Reach nfa anchors u x → x ∈ d') ∧
      (∀ y ∈ v', ∀ x, epsilonOf nfa anchors x = [] → Reach nfa anchors y x → x ∈ d') := by
  intro ss
  induction ss with
  | nil =>
      intro d v d' v' hC h
      rw [exhaustList] at h
      simp only [Option.some.injEq, Prod.mk.injEq] at h
      obtain ⟨rfl, rfl⟩ := h
      refine ⟨fun x hx => hx, fun x hx => Or.inl hx, ?_, hC⟩
      intro u hu
      exact absurd hu (List.not_mem_nil u)
  | cons s ss ih =>
      intro d v d' v' hC h
      cases ht : traverseF nfa anchors (nfa.states.length + 1) (d, v) s with
      | none =>
          exfalso
          rw [exhaustList, ht] at h
          exact absurd h (by simp)
      | some dv1 =>
          obtain ⟨d1, v1⟩ := dv1
          have hrest : exhaustList nfa anchors (d1, v1) ss = some (d', v') := by
            rw [exhaustList, ht] at h
            exact h
          obtain ⟨Hv1, Hd1⟩ := traverse_spec nfa anchors _ d v s d1 v1 ht
          have hsubd : ∀ x ∈ d, x ∈ d1 := fun x hx => (Hd1 x).2 (Or.inl hx)
          have hd1sound : ∀ x ∈ d1,
              x ∈ d ∨ (epsilonOf nfa anchors x = [] ∧ Reach nfa anchors s x) := by
            intro x hx
            rcases (Hd1 x).1 hx with hx | ⟨hs, (rfl | ⟨c, hc, hp⟩)⟩
            · exact Or.inl hx
            · exact Or.inr ⟨hs, reach_refl nfa anchors x⟩
            · exact Or.inr ⟨hs, reach_head nfa anchors s c x hc
                (reach_of_avoid nfa anchors v c x hp)⟩
          have hcomp_s : ∀ x, epsilonOf nfa anchors x = [] → Reach nfa anchors s x →
              x ∈ d1 := by
            rintro x hsx ⟨k, hk⟩
            cases k with
            | zero =>
                rw [AvoidN] at hk
                rw [← hk.1]
                exact (Hd1 s).2 (Or.inr ⟨hk.1 ▸ hsx, Or.inl rfl⟩)
            | succ k =>
                rw [AvoidN] at hk
                obtain ⟨_, w, hw, hrest'⟩ := hk
                rcases avoidN_firstHit nfa anchors [] v
                    (fun y hy => absurd hy (List.not_mem_nil y)) k w x hrest' with
                  h2 | ⟨y, hy1, _, m, _, hm⟩
                · exact (Hd1 x).2 (Or.inr ⟨hsx, Or.inr ⟨w, hw, k, h2⟩⟩)
                · exact hsubd x (hC y hy1 x hsx ⟨m, hm⟩)
          have hC1 : ∀ y ∈ v1, ∀ x, epsilonOf nfa anchors x = [] →
              Reach nfa anchors y x → x ∈ d1 := by
            intro y hy x hsx hr
            rcases (Hv1 y).1 hy with hy | ⟨c, hc, hp⟩
            · exact hsubd x (hC y hy x hsx hr)
            · obtain ⟨k, hk⟩ := hr
              rcases avoidN_firstHit nfa anchors [] v
                  (fun z hz => absurd hz (List.not_mem_nil z)) k y x hk with
                h2 | ⟨z, hz1, _, m, _, hm⟩
              · obtain ⟨j, hj⟩ := hp
                exact (Hd1 x).2 (Or.inr ⟨hsx, Or.inr ⟨c, hc, j + k,
                  avoidN_trans nfa anchors v j k c y x hj h2⟩⟩)
              · exact hsubd x (hC z hz1 x hsx ⟨m, hm⟩)
          obtain ⟨mono1, sound1, comp1, hCfin⟩ := ih d1 v1 d' v' hC1 hrest
          refine ⟨fun x hx => mono1 x (hsubd x hx), ?_, ?_, hCfin⟩
          · intro x hx
            rcases sound1 x hx with hx1 | ⟨hs, u, hu, hr⟩
            · rcases hd1sound x hx1 with hx2 | ⟨hs, hr⟩
              · exact Or.inl hx2
              · exact Or.inr ⟨hs, s, List.mem_cons_self _ _, hr⟩
            · exact Or.inr ⟨hs, u, List.mem_cons_of_mem _ hu, hr⟩
          · intro u hu x hsx hr
            rcases List.mem_cons.1 hu with rfl | hu
            · exact mono1 x (hcomp_s x hsx hr)
            · exact comp1 u hu x hsx hr

/-- Membership in the result of `exhaust_epsilons`: exactly the epsilon-sink
states reachable from the source set through enabled epsilon edges. -/
theorem exhaustEpsilons_mem (nfa : NFA) (anchors : List Anchor) (srcs dsts : List Nat)
    (h : exhaustEpsilonsF nfa srcs anchors = some dsts) :
    ∀ x, x ∈ dsts ↔
      (epsilonOf nfa anchors x = [] ∧ ∃ u ∈ srcs, Reach nfa anchors u x) := by
  unfold exhaustEpsilonsF at h
  cases hel : exhaustList nfa anchors ([], []) srcs with
  | none => rw [hel] at h; exact absurd h (by simp)
  | some dv =>
      obtain ⟨d', v'⟩ := dv
      rw [hel] at h
      simp only [Option.map_some', Option.some.injEq] at h
      subst h
      obtain ⟨_, sound, comp, _⟩ := exhaustList_spec nfa anchors srcs [] [] d' v'
        (fun y hy => absurd hy (List.not_mem_nil y)) hel
      intro x
      constructor
      · intro hx
        rcases sound x hx with hx | hx
        · exact absurd hx (List.not_mem_nil x)
        · exact hx
      · rintro ⟨hsx, u, hu, hr⟩
        exact comp u hu x hsx hr

/-!
## Lemmas: the anatomy of `concat a (closure a)` and `plus a`
-/

theorem pushDest_foldl_triv : ∀ (ts ds : List Nat),
    ts.foldl StateK.pushDest (.triv ds) = .triv (ds ++ ts) := by
  intro ts
  induction ts with
  | nil => intro ds; simp
  | cons t ts ih =>
      intro ds
      rw [List.foldl_cons]
      show ts.foldl StateK.pushDest (StateK.pushDest (.triv ds) t) = _
      rw [StateK.pushDest, ih]
      simp

theorem pushAts_length (L : List StateK) (i : Nat) (ts : List Nat) :
    (pushAts L i ts).length = L.length := by
  unfold pushAts
  exact List.length_set L i _

theorem getD_pushAts_ne (L : List StateK) (i j : Nat) (ts : List Nat) (h : j ≠ i) :
    (pushAts L i ts).getD j (.triv []) = L.getD j (.triv []) := by
  unfold pushAts
  rw [List.getD_eq_getElem?_getD, List.getElem?_set_ne (Ne.symm h),
    ← List.getD_eq_getElem?_getD]

theorem getD_pushAts_self (L : List StateK) (i : Nat) (ts : List Nat) (h : i < L.length) :
    (pushAts L i ts).getD i (.triv []) = ts.foldl StateK.pushDest (L.getD i (.triv [])) := by
  unfold pushAts
  rw [List.getD_eq_getElem?_getD, List.getElem?_set_self h]
  rfl

theorem getD_append_lt {α : Type _} (l1 l2 : List α) (d : α) (j : Nat) (h : j < l1.length) :
    (l1 ++ l2).getD j d = l1.getD j d := by
  rw [List.getD_eq_getElem?_getD, List.getElem?_append_left h, ← List.getD_eq_getElem?_getD]

theorem getD_append_ge {α : Type _} (l1 l2 : List α) (d : α) (j : Nat) (h : l1.length ≤ j) :
    (l1 ++ l2).getD j d = l2.getD (j - l1.length) d := by
  rw [List.getD_eq_getElem?_getD, List.getElem?_append_right h, ← List.getD_eq_getElem?_getD]

theorem getD_map_shift (L : List StateK) (k j : Nat) (h : j < L.length) :
    (L.map (StateK.shift k)).getD j (.triv []) = StateK.shift k (L.getD j (.triv [])) := by
  rw [List.getD_eq_getElem?_getD, List.getElem?_map, List.getElem?_eq_getElem h,
    List.getD_eq_getElem?_getD, List.getElem?_eq_getElem h]
  rfl

theorem concat_states (a b : NFA) : (a.concat b).states =
    pushAts a.states a.accept [b.start + a.states.length] ++
      b.states.map (StateK.shift a.states.length) := rfl

theorem concat_start (a b : NFA) : (a.concat b).start = a.start := rfl

theorem concat_accept (a b : NFA) : (a.concat b).accept = b.accept + a.states.length := rfl

theorem closure_states (a : NFA) : a.closure.states =
    pushAts a.states a.accept [a.start, a.states.length + 1] ++
      [.triv [a.start, a.states.length + 1], .triv []] := rfl

theorem closure_start (a : NFA) : a.closure.start = a.states.length := rfl

theorem closure_accept (a : NFA) : a.closure.accept = a.states.length + 1 := rfl

theorem plus_states (a : NFA) : a.plus.states =
    pushAts a.states a.accept [a.start, a.states.length + 1] ++
      [.triv [a.start], .triv []] := rfl

theorem plus_start (a : NFA) : a.plus.start = a.states.length := rfl

theorem plus_accept (a : NFA) : a.plus.accept = a.states.length + 1 := rfl

theorem closure_states_length (a : NFA) : a.closure.states.length = a.states.length + 2 := by
  rw [closure_states, List.length_append, pushAts_length]
  rfl

theorem concat_closure_length (A : NFA) :
    (A.concat A.closure).states.length = 2 * A.states.length + 2 := by
  rw [concat_states, List.length_append, pushAts_length, List.length_map,
    closure_states_length]
  omega

theorem plus_states_length (a : NFA) : a.plus.states.length = a.states.length + 2 := by
  rw [plus_states, List.length_append, pushAts_length]
  rfl

theorem concat_closure_accept (A : NFA) :
    (A.concat A.closure).accept = 2 * A.states.length + 1 := by
  rw [concat_accept, closure_accept]
  omega

theorem getState_concat_closure_copy1 (A : NFA) (i : Nat) (hi : i < A.states.length)
    (hne : i ≠ A.accept) : getState (A.concat A.closure) i = getState A i := by
  show (A.concat A.closure).states.getD i (.triv []) = A.states.getD i (.triv [])
  rw [concat_states, getD_append_lt _ _ _ i (by rw [pushAts_length]; exact hi),
    getD_pushAts_ne _ _ _ _ hne]

theorem getState_concat_closure_acc (A : NFA) (hacc : A.accept < A.states.length)
    (htriv : getState A A.accept = .triv []) :
    getState (A.concat A.closure) A.accept = .triv [2 * A.states.length] := by
  show (A.concat A.closure).states.getD A.accept (.triv []) = _
  rw [concat_states, getD_append_lt _ _ _ _ (by rw [pushAts_length]; exact hacc),
    getD_pushAts_self _ _ _ hacc]
  have h : A.states.getD A.accept (.triv []) = .triv [] := htriv
  rw [h, pushDest_foldl_triv, closure_start]
  have h2 : A.states.length + A.states.length = 2 * A.states.length := by omega
  rw [List.nil_append, h2]

theorem getState_concat_closure_copy2 (A : NFA) (i : Nat) (h1 : A.states.length ≤ i)
    (h2 : i < 2 * A.states.length) (hne : i - A.states.length ≠ A.accept) :
    getState (A.concat A.closure) i =
      StateK.shift A.states.length (getState A (i - A.states.length)) := by
  show (A.concat A.closure).states.getD i (.triv []) = _
  rw [concat_states, getD_append_ge _ _ _ _ (by rw [pushAts_length]; exact h1),
    pushAts_length, getD_map_shift _ _ _ (by rw [closure_states_length]; omega)]
  congr 1
  rw [closure_states, getD_append_lt _ _ _ _ (by rw [pushAts_length]; omega),
    getD_pushAts_ne _ _ _ _ hne]
  rfl

theorem closure_getD_acc (A : NFA) (hacc : A.accept < A.states.length)
    (htriv : getState A A.accept = .triv []) :
    A.closure.states.getD A.accept (.triv []) = .triv [A.start, A.states.length + 1] := by
  rw [closure_states, getD_append_lt _ _ _ _ (by rw [pushAts_length]; exact hacc),
    getD_pushAts_self _ _ _ hacc]
  have h : A.states.getD A.accept (.triv []) = .triv [] := htriv
  rw [h, pushDest_foldl_triv]
  simp

theorem getState_concat_closure_accN (A : NFA) (hacc : A.accept < A.states.length)
    (htriv : getState A A.accept = .triv []) :
    getState (A.concat A.closure) (A.accept + A.states.length) =
      .triv [A.start + A.states.length, 2 * A.states.length + 1] := by
  show (A.concat A.closure).states.getD (A.accept + A.states.length) (.triv []) = _
  rw [concat_states, getD_append_ge _ _ _ _ (by rw [pushAts_length]; omega),
    pushAts_length, Nat.add_sub_cancel,
    getD_map_shift _ _ _ (by rw [closure_states_length]; omega),
    closure_getD_acc A hacc htriv, StateK.shift]
  simp only [List.map_cons, List.map_nil]
  have h2 : A.states.length + 1 + A.states.length = 2 * A.states.length + 1 := by omega
  rw [h2]

theorem getState_concat_closure_fresh (A : NFA) (hn : 0 < A.states.length) :
    getState (A.concat A.closure) (2 * A.states.length) =
      .triv [A.start + A.states.length, 2 * A.states.length + 1] := by
  show (A.concat A.closure).states.getD (2 * A.states.length) (.triv []) = _
  rw [concat_states, getD_append_ge _ _ _ _ (by rw [pushAts_length]; omega),
    pushAts_length]
  have hidx : 2 * A.states.length - A.states.length = A.states.length := by omega
  rw [hidx, getD_map_shift _ _ _ (by rw [closure_states_length]; omega)]
  have h : A.closure.states.getD A.states.length (.triv []) =
      .triv [A.start, A.states.length + 1] := by
    rw [closure_states, getD_append_ge _ _ _ _ (by rw [pushAts_length]),
      pushAts_length, Nat.sub_self]
    rfl
  rw [h, StateK.shift]
  simp only [List.map_cons, List.map_nil]
  have h2 : A.states.length + 1 + A.states.length = 2 * A.states.length + 1 := by omega
  rw [h2]

theorem getState_concat_closure_accept (A : NFA) :
    getState (A.concat A.closure) (2 * A.states.length + 1) = .triv [] := by
  show (A.concat A.closure).states.getD (2 * A.states.length + 1) (.triv []) = _
  rw [concat_states, getD_append_ge _ _ _ _ (by rw [pushAts_length]; omega),
    pushAts_length]
  have hidx : 2 * A.states.length + 1 - A.states.length = A.states.length + 1 := by omega
  rw [hidx, getD_map_shift _ _ _ (by rw [closure_states_length]; omega)]
  have h : A.closure.states.getD (A.states.length + 1) (.triv []) = .triv [] := by
    rw [closure_states, getD_append_ge _ _ _ _ (by rw [pushAts_length]; omega),
      pushAts_length]
    have : A.states.length + 1 - A.states.length = 1 := by omega
    rw [this]
    rfl
  rw [h]
  rfl

theorem getState_plus_copy (A : NFA) (i : Nat) (hi : i < A.states.length)
    (hne : i ≠ A.accept) : getState A.plus i = getState A i := by
  show A.plus.states.getD i (.triv []) = A.states.getD i (.triv [])
  rw [plus_states, getD_append_lt _ _ _ i (by rw [pushAts_length]; exact hi),
    getD_pushAts_ne _ _ _ _ hne]

theorem getState_plus_acc (A : NFA) (hacc : A.accept < A.states.length)
    (htriv : getState A A.accept = .triv []) :
    getState A.plus A.accept = .triv [A.start, A.states.length + 1] := by
  show A.plus.states.getD A.accept (.triv []) = _
  rw [plus_states, getD_append_lt _ _ _ _ (by rw [pushAts_length]; exact hacc),
    getD_pushAts_self _ _ _ hacc]
  have h : A.states.getD A.accept (.triv []) = .triv [] := htriv
  rw [h, pushDest_foldl_triv]
  simp

theorem getState_plus_freshStart (A : NFA) :
    getState A.plus A.states.length = .triv [A.start] := by
  show A.plus.states.getD A.states.length (.triv []) = _
  rw [plus_states, getD_append_ge _ _ _ _ (by rw [pushAts_length]),
    pushAts_length, Nat.sub_self]
  rfl

theorem getState_plus_accept (A : NFA) :
    getState A.plus (A.states.length + 1) = .triv [] := by
  show A.plus.states.getD (A.states.length + 1) (.triv []) = _
  rw [plus_states, getD_append_ge _ _ _ _ (by rw [pushAts_length]; omega),
    pushAts_length]
  have : A.states.length + 1 - A.states.length = 1 := by omega
  rw [this]
  rfl

theorem epsilonOf_of_triv (nfa : NFA) (anchors : List Anchor) (i : Nat) (ds : List Nat)
    (h : getState nfa i = .triv ds) : epsilonOf nfa anchors i = ds := by
  unfold epsilonOf
  rw [h]

theorem epsilonOf_congr (nfa1 nfa2 : NFA) (anchors : List Anchor) (i j : Nat)
    (h : getState nfa1 i = getState nfa2 j) :
    epsilonOf nfa1 anchors i = epsilonOf nfa2 anchors j := by
  unfold epsilonOf
  rw [h]

theorem transitionOf_congr (nfa1 nfa2 : NFA) (c : Char) (i j : Nat)
    (h : getState nfa1 i = getState nfa2 j) :
    transitionOf nfa1 c i = transitionOf nfa2 c j := by
  unfold transitionOf
  rw [h]

theorem epsilonOf_shift (nfa1 nfa2 : NFA) (anchors : List Anchor) (i j k : Nat)
    (h : getState nfa1 i = StateK.shift k (getState nfa2 j)) :
    epsilonOf nfa1 anchors i = (epsilonOf nfa2 anchors j).map (· + k) := by
  unfold epsilonOf
  rw [h]
  cases getState nfa2 j with
  | triv ds => rfl
  | token c d => rfl
  | lambda p d => rfl
  | anchorS a d =>
      rw [StateK.shift]
      by_cases ha : a ∈ anchors <;> simp [ha]

theorem transitionOf_shift (nfa1 nfa2 : NFA) (c : Char) (i j k : Nat)
    (h : getState nfa1 i = StateK.shift k (getState nfa2 j)) :
    transitionOf nfa1 c i = (transitionOf nfa2 c j).map (· + k) := by
  unfold transitionOf
  rw [h]
  cases getState nfa2 j with
  | triv ds => rfl
  | token c' d =>
      rw [StateK.shift]
      by_cases hc : c' = c <;> simp [hc]
  | lambda p d =>
      rw [StateK.shift]
      by_cases hp : evalCPred p c <;> simp [hp]
  | anchorS a d => rfl

theorem psiA_lt (A : NFA) (i : Nat) (h : i < A.states.length) : psiA A i = i := by
  unfold psiA
  rw [if_pos h]

theorem psiA_mid (A : NFA) (i : Nat) (h1 : A.states.length ≤ i)
    (h2 : i < 2 * A.states.length) : psiA A i = i - A.states.length := by
  unfold psiA
  rw [if_neg (by omega), if_pos h2]

theorem psiA_fresh (A : NFA) (hn : 0 < A.states.length) :
    psiA A (2 * A.states.length) = A.accept := by
  unfold psiA
  rw [if_neg (by omega), if_neg (by omega), if_pos rfl]

theorem psiA_top (A : NFA) (hn : 0 < A.states.length) :
    psiA A (2 * A.states.length + 1) = A.states.length + 1 := by
  unfold psiA
  rw [if_neg (by omega), if_neg (by omega), if_neg (by omega)]

theorem transitionOf_of_triv (nfa : NFA) (c : Char) (i : Nat) (ds : List Nat)
    (h : getState nfa i = .triv ds) : transitionOf nfa c i = none := by
  unfold transitionOf
  rw [h]

theorem transitionOf_valid (nfa : NFA) (hwf : nfa.WF) (c : Char) (i d : Nat)
    (h : transitionOf nfa c i = some d) : d < nfa.states.length := by
  by_cases hi : i < nfa.states.length
  · have hget : getState nfa i = nfa.states.get ⟨i, hi⟩ := by
      unfold getState
      rw [List.getD_eq_getElem?_getD, List.getElem?_eq_getElem hi]
      rfl
    have hmem : getState nfa i ∈ nfa.states := by
      rw [hget]; exact List.get_mem _ _ _
    have hsub : d ∈ destsOf (getState nfa i) := by
      revert h
      unfold transitionOf
      cases getState nfa i with
      | triv ds => intro h; simp at h
      | token c' dd =>
          intro h
          by_cases hc : c' = c
          · simp [hc] at h
            simp [destsOf, h]
          · simp [hc] at h
      | lambda p dd =>
          intro h
          by_cases hp : evalCPred p c
          · simp [hp] at h
            simp [destsOf, h]
          · simp [hp] at h
      | anchorS a dd => intro h; simp at h
    exact hwf _ hmem d hsub
  · have hget : getState nfa i = .triv [] := by
      unfold getState
      rw [List.getD_eq_getElem?_getD, List.getElem?_eq_none (by omega)]
      rfl
    rw [transitionOf_of_triv nfa c i [] hget] at h
    exact absurd h (by simp)

/-!
## Lemmas: the simulation of `concat a (closure a)` inside `plus a`
-/

theorem hom_step (A : NFA) (hG : GoodNFA A) (anchors : List Anchor) (u w : Nat)
    (hu : u < 2 * A.states.length + 2)
    (hw : w ∈ epsilonOf (A.concat A.closure) anchors u) :
    Reach A.plus anchors (psiA A u) (psiA A w) := by
  obtain ⟨hwf, hstart, hacc, htriv⟩ := hG
  have hn : 0 < A.states.length := by omega
  by_cases h1 : u < A.states.length
  · by_cases he : u = A.accept
    · subst he
      rw [epsilonOf_of_triv _ anchors _ _ (getState_concat_closure_acc A hacc htriv)] at hw
      have hws : w = 2 * A.states.length := by simpa using hw
      subst hws
      rw [psiA_fresh A hn, psiA_lt A A.accept hacc]
      exact reach_refl _ _ _
    · rw [epsilonOf_congr _ A anchors _ _ (getState_concat_closure_copy1 A u h1 he)] at hw
      have hwn : w < A.states.length := epsilonOf_valid A hwf anchors u w hw
      rw [psiA_lt A u h1, psiA_lt A w hwn]
      refine reach_head _ _ _ w _ ?_ (reach_refl _ _ _)
      rw [epsilonOf_congr A.plus A anchors _ _ (getState_plus_copy A u h1 he)]
      exact hw
  · by_cases h2 : u < 2 * A.states.length
    · by_cases he : u - A.states.length = A.accept
      · have hu' : u = A.accept + A.states.length := by omega
        subst hu'
        rw [epsilonOf_of_triv _ anchors _ _ (getState_concat_closure_accN A hacc htriv)] at hw
        rw [psiA_mid A _ (by omega) (by omega), Nat.add_sub_cancel]
        simp only [List.mem_cons, List.mem_singleton, List.not_mem_nil, or_false] at hw
        rcases hw with rfl | rfl
        · rw [psiA_mid A _ (by omega) (by omega), Nat.add_sub_cancel]
          refine reach_head _ _ _ A.start _ ?_ (reach_refl _ _ _)
          rw [epsilonOf_of_triv _ anchors _ _ (getState_plus_acc A hacc htriv)]
          simp
        · rw [psiA_top A hn]
          refine reach_head _ _ _ (A.states.length + 1) _ ?_ (reach_refl _ _ _)
          rw [epsilonOf_of_triv _ anchors _ _ (getState_plus_acc A hacc htriv)]
          simp
      · rw [epsilonOf_shift (A.concat A.closure) A anchors u (u - A.states.length)
            A.states.length (getState_concat_closure_copy2 A u (by omega) h2 he)] at hw
        obtain ⟨q, hq, rfl⟩ := List.mem_map.1 hw
        have hqn : q < A.states.length := epsilonOf_valid A hwf anchors _ q hq
        rw [psiA_mid A u (by omega) h2, psiA_mid A (q + A.states.length) (by omega) (by omega),
          Nat.add_sub_cancel]
        refine reach_head _ _ _ q _ ?_ (reach_refl _ _ _)
        rw [epsilonOf_congr A.plus A anchors _ _
          (getState_plus_copy A (u - A.states.length) (by omega) he)]
        exact hq
    · by_cases h3 : u = 2 * A.states.length
      · subst h3
        rw [epsilonOf_of_triv _ anchors _ _ (getState_concat_closure_fresh A hn)] at hw
        rw [psiA_fresh A hn]
        simp only [List.mem_cons, List.mem_singleton, List.not_mem_nil, or_false] at hw
        rcases hw with rfl | rfl
        · rw [psiA_mid A _ (by omega) (by omega), Nat.add_sub_cancel]
          refine reach_head _ _ _ A.start _ ?_ (reach_refl _ _ _)
          rw [epsilonOf_of_triv _ anchors _ _ (getState_plus_acc A hacc htriv)]
          simp
        · rw [psiA_top A hn]
          refine reach_head _ _ _ (A.states.length + 1) _ ?_ (reach_refl _ _ _)
          rw [epsilonOf_of_triv _ anchors _ _ (getState_plus_acc A hacc htriv)]
          simp
      · have h4 : u = 2 * A.states.length + 1 := by omega
        subst h4
        rw [epsilonOf_of_triv _ anchors _ _ (getState_concat_closure_accept A)] at hw
        exact absurd hw (List.not_mem_nil w)

theorem lift_step (A : NFA) (hG : GoodNFA A) (anchors : List Anchor) (u : Nat)
    (hu : u < 2 * A.states.length + 2) (q : Nat)
    (hq : q ∈ epsilonOf A.plus anchors (psiA A u)) :
    ∃ w, w < 2 * A.states.length + 2 ∧
      Reach (A.concat A.closure) anchors u w ∧ psiA A w = q := by
  obtain ⟨hwf, hstart, hacc, htriv⟩ := hG
  have hn : 0 < A.states.length := by omega
  have hfromAcc : ∀ v, v < 2 * A.states.length + 2 →
      epsilonOf (A.concat A.closure) anchors v = [A.start + A.states.length,
        2 * A.states.length + 1] →
      q ∈ epsilonOf A.plus anchors A.accept →
      ∃ w, w < 2 * A.states.length + 2 ∧
        Reach (A.concat A.closure) anchors v w ∧ psiA A w = q := by
    intro v _ hv hq2
    rw [epsilonOf_of_triv _ anchors _ _ (getState_plus_acc A hacc htriv)] at hq2
    simp only [List.mem_cons, List.mem_singleton, List.not_mem_nil, or_false] at hq2
    rcases hq2 with rfl | rfl
    · refine ⟨A.start + A.states.length, by omega, ?_, ?_⟩
      · refine reach_head _ _ _ (A.start + A.states.length) _ ?_ (reach_refl _ _ _)
        rw [hv]; simp
      · rw [psiA_mid A _ (by omega) (by omega), Nat.add_sub_cancel]
    · refine ⟨2 * A.states.length + 1, by omega, ?_, psiA_top A hn⟩
      refine reach_head _ _ _ (2 * A.states.length + 1) _ ?_ (reach_refl _ _ _)
      rw [hv]; simp
  by_cases h1 : u < A.states.length
  · by_cases he : u = A.accept
    · subst he
      rw [psiA_lt A A.accept hacc] at hq
      obtain ⟨w, hwb, hr, hpsi⟩ := hfromAcc (2 * A.states.length) (by omega)
        (epsilonOf_of_triv _ anchors _ _ (getState_concat_closure_fresh A hn)) hq
      refine ⟨w, hwb, ?_, hpsi⟩
      refine reach_head _ _ _ (2 * A.states.length) _ ?_ hr
      rw [epsilonOf_of_triv _ anchors _ _ (getState_concat_closure_acc A hacc htriv)]
      simp
    · rw [psiA_lt A u h1,
        epsilonOf_congr A.plus A anchors _ _ (getState_plus_copy A u h1 he)] at hq
      have hqn : q < A.states.length := epsilonOf_valid A hwf anchors u q hq
      refine ⟨q, by omega, ?_, psiA_lt A q hqn⟩
      refine reach_head _ _ _ q _ ?_ (reach_refl _ _ _)
      rw [epsilonOf_congr _ A anchors _ _ (getState_concat_closure_copy1 A u h1 he)]
      exact hq
  · by_cases h2 : u < 2 * A.states.length
    · by_cases he : u - A.states.length = A.accept
      · have hu' : u = A.accept + A.states.length := by omega
        subst hu'
        rw [psiA_mid A _ (by omega) (by omega), Nat.add_sub_cancel] at hq
        exact hfromAcc (A.accept + A.states.length) (by omega)
          (epsilonOf_of_triv _ anchors _ _ (getState_concat_closure_accN A hacc htriv)) hq
      · rw [psiA_mid A u (by omega) h2,
          epsilonOf_congr A.plus A anchors _ _
            (getState_plus_copy A (u - A.states.length) (by omega) he)] at hq
        have hqn : q < A.states.length := epsilonOf_valid A hwf anchors _ q hq
        refine ⟨q + A.states.length, by omega, ?_, ?_⟩
        · refine reach_head _ _ _ (q + A.states.length) _ ?_ (reach_refl _ _ _)
          rw [epsilonOf_shift (A.concat A.closure) A anchors u (u - A.states.length)
            A.states.length (getState_concat_closure_copy2 A u (by omega) h2 he)]
          exact List.mem_map.2 ⟨q, hq, rfl⟩
        · rw [psiA_mid A _ (by omega) (by omega), Nat.add_sub_cancel]
    · by_cases h3 : u = 2 * A.states.length
      · subst h3
        rw [psiA_fresh A hn] at hq
        exact hfromAcc (2 * A.states.length) (by omega)
          (epsilonOf_of_triv _ anchors _ _ (getState_concat_closure_fresh A hn)) hq
      · have h4 : u = 2 * A.states.length + 1 := by omega
        subst h4
        rw [psiA_top A hn,
          epsilonOf_of_triv _ anchors _ _ (getState_plus_accept A)] at hq
        exact absurd hq (List.not_mem_nil q)

theorem sink_corr (A : NFA) (hG : GoodNFA A) (anchors : List Anchor) (u : Nat)
    (hu : u < 2 * A.states.length + 2) :
    (epsilonOf (A.concat A.closure) anchors u = [] ↔
      epsilonOf A.plus anchors (psiA A u) = []) := by
  obtain ⟨hwf, hstart, hacc, htriv⟩ := hG
  have hn : 0 < A.states.length := by omega
  by_cases h1 : u < A.states.length
  · by_cases he : u = A.accept
    · subst he
      rw [epsilonOf_of_triv _ anchors _ _ (getState_concat_closure_acc A hacc htriv),
        psiA_lt A A.accept hacc,
        epsilonOf_of_triv _ anchors _ _ (getState_plus_acc A hacc htriv)]
      simp
    · rw [epsilonOf_congr _ A anchors _ _ (getState_concat_closure_copy1 A u h1 he),
        psiA_lt A u h1,
        epsilonOf_congr A.plus A anchors _ _ (getState_plus_copy A u h1 he)]
  · by_cases h2 : u < 2 * A.states.length
    · by_cases he : u - A.states.length = A.accept
      · have hu' : u = A.accept + A.states.length := by omega
        subst hu'
        rw [epsilonOf_of_triv _ anchors _ _ (getState_concat_closure_accN A hacc htriv),
          psiA_mid A _ (by omega) (by omega), Nat.add_sub_cancel,
          epsilonOf_of_triv _ anchors _ _ (getState_plus_acc A hacc htriv)]
        simp
      · rw [epsilonOf_shift (A.concat A.closure) A anchors u (u - A.states.length)
            A.states.length (getState_concat_closure_copy2 A u (by omega) h2 he),
          psiA_mid A u (by omega) h2,
          epsilonOf_congr A.plus A anchors _ _
            (getState_plus_copy A (u - A.states.length) (by omega) he)]
        simp
    · by_cases h3 : u = 2 * A.states.length
      · subst h3
        rw [epsilonOf_of_triv _ anchors _ _ (getState_concat_closure_fresh A hn),
          psiA_fresh A hn,
          epsilonOf_of_triv _ anchors _ _ (getState_plus_acc A hacc htriv)]
        simp
      · have h4 : u = 2 * A.states.length + 1 := by omega
        subst h4
        rw [epsilonOf_of_triv _ anchors _ _ (getState_concat_closure_accept A),
          psiA_top A hn,
          epsilonOf_of_triv _ anchors _ _ (getState_plus_accept A)]

theorem trans_corr (A : NFA) (hG : GoodNFA A) (c : Char) (u : Nat)
    (hu : u < 2 * A.states.length + 2) :
    transitionOf A.plus c (psiA A u) =
      (transitionOf (A.concat A.closure) c u).map (psiA A) := by
  obtain ⟨hwf, hstart, hacc, htriv⟩ := hG
  have hn : 0 < A.states.length := by omega
  by_cases h1 : u < A.states.length
  · by_cases he : u = A.accept
    · subst he
      rw [psiA_lt A A.accept hacc,
        transitionOf_of_triv A.plus c _ _ (getState_plus_acc A hacc htriv),
        transitionOf_of_triv _ c _ _ (getState_concat_closure_acc A hacc htriv)]
      rfl
    · rw [psiA_lt A u h1,
        transitionOf_congr A.plus A c _ _ (getState_plus_copy A u h1 he),
        transitionOf_congr _ A c _ _ (getState_concat_closure_copy1 A u h1 he)]
      cases htr : transitionOf A c u with
      | none => rfl
      | some d =>
          have hd : d < A.states.length := transitionOf_valid A hwf c u d htr
          rw [Option.map_some', psiA_lt A d hd]
  · by_cases h2 : u < 2 * A.states.length
    · by_cases he : u - A.states.length = A.accept
      · have hu' : u = A.accept + A.states.length := by omega
        subst hu'
        rw [psiA_mid A _ (by omega) (by omega), Nat.add_sub_cancel,
          transitionOf_of_triv A.plus c _ _ (getState_plus_acc A hacc htriv),
          transitionOf_of_triv _ c _ _ (getState_concat_closure_accN A hacc htriv)]
        rfl
      · rw [psiA_mid A u (by omega) h2,
          transitionOf_congr A.plus A c _ _
            (getState_plus_copy A (u - A.states.length) (by omega) he),
          transitionOf_shift (A.concat A.closure) A c u (u - A.states.length)
            A.states.length (getState_concat_closure_copy2 A u (by omega) h2 he)]
        cases htr : transitionOf A c (u - A.states.length) with
        | none => rfl
        | some d =>
            have hd : d < A.states.length := transitionOf_valid A hwf c _ d htr
            rw [Option.map_some', Option.map_some', psiA_mid A _ (by omega) (by omega),
              Nat.add_sub_cancel]
    · by_cases h3 : u = 2 * A.states.length
      · subst h3
        rw [psiA_fresh A hn,
          transitionOf_of_triv A.plus c _ _ (getState_plus_acc A hacc htriv),
          transitionOf_of_triv _ c _ _ (getState_concat_closure_fresh A hn)]
        rfl
      · have h4 : u = 2 * A.states.length + 1 := by omega
        subst h4
        rw [psiA_top A hn,
          transitionOf_of_triv A.plus c _ _ (getState_plus_accept A),
          transitionOf_of_triv _ c _ _ (getState_concat_closure_accept A)]
        rfl

/-!
## Lemmas: the constructors preserve the structural invariant
-/

theorem destsOf_shift (k : Nat) (st : StateK) :
    destsOf (StateK.shift k st) = (destsOf st).map (· + k) := by
  cases st <;> rfl

theorem destsOf_foldl_pushDest : ∀ (ts : List Nat) (st : StateK) (d : Nat),
    d ∈ destsOf (ts.foldl StateK.pushDest st) → d ∈ destsOf st ∨ d ∈ ts := by
  intro ts
  induction ts with
  | nil => intro st d h; exact Or.inl h
  | cons t ts ih =>
      intro st d h
      rw [List.foldl_cons] at h
      rcases ih (StateK.pushDest st t) d h with h2 | h2
      · cases st with
        | triv ds =>
            simp only [StateK.pushDest, destsOf] at h2
            rcases List.mem_append.1 h2 with h3 | h3
            · exact Or.inl (by simpa [destsOf] using h3)
            · exact Or.inr (by simp [List.mem_singleton.1 h3])
        | token c dd => exact Or.inl (by simpa [StateK.pushDest] using h2)
        | lambda p dd => exact Or.inl (by simpa [StateK.pushDest] using h2)
        | anchorS a dd => exact Or.inl (by simpa [StateK.pushDest] using h2)
      · exact Or.inr (List.mem_cons_of_mem _ h2)

theorem mem_pushAts (L : List StateK) (i : Nat) (ts : List Nat) (st : StateK)
    (h : st ∈ pushAts L i ts) :
    st ∈ L ∨ st = ts.foldl StateK.pushDest (L.getD i (.triv [])) := by
  unfold pushAts at h
  exact List.mem_or_eq_of_mem_set h

theorem getD_mem_or (L : List StateK) (i : Nat) :
    L.getD i (.triv []) ∈ L ∨ L.getD i (.triv []) = .triv [] := by
  by_cases hi : i < L.length
  · left
    rw [List.getD_eq_getElem?_getD, List.getElem?_eq_getElem hi]
    exact List.get_mem _ _ _
  · right
    rw [List.getD_eq_getElem?_getD, List.getElem?_eq_none (by omega)]
    rfl

theorem boundl_pushAts (L : List StateK) (bound i : Nat) (ts : List Nat)
    (hL : ∀ st ∈ L, ∀ d ∈ destsOf st, d < bound) (hts : ∀ t ∈ ts, t < bound) :
    ∀ st ∈ pushAts L i ts, ∀ d ∈ destsOf st, d < bound := by
  intro st hst d hd
  rcases mem_pushAts L i ts st hst with h | h
  · exact hL st h d hd
  · subst h
    rcases destsOf_foldl_pushDest ts _ d hd with h2 | h2
    · rcases getD_mem_or L i with h3 | h3
      · exact hL _ h3 d h2
      · rw [h3] at h2
        exact absurd h2 (by simp [destsOf])
    · exact hts d h2

theorem boundl_shift_map (L : List StateK) (bound k : Nat)
    (hL : ∀ st ∈ L, ∀ d ∈ destsOf st, d < bound) :
    ∀ st ∈ L.map (StateK.shift k), ∀ d ∈ destsOf st, d < bound + k := by
  intro st hst d hd
  obtain ⟨st0, hst0, rfl⟩ := List.mem_map.1 hst
  rw [destsOf_shift] at hd
  obtain ⟨d0, hd0, rfl⟩ := List.mem_map.1 hd
  have := hL st0 hst0 d0 hd0
  omega

theorem boundl_mono (L : List StateK) (b1 b2 : Nat) (h : b1 ≤ b2)
    (hL : ∀ st ∈ L, ∀ d ∈ destsOf st, d < b1) :
    ∀ st ∈ L, ∀ d ∈ destsOf st, d < b2 := by
  intro st hst d hd
  exact Nat.lt_of_lt_of_le (hL st hst d hd) h

theorem good_concat (a b : NFA) (ha : GoodNFA a) (hb : GoodNFA b) : GoodNFA (a.concat b) := by
  obtain ⟨hawf, has, haa, hat⟩ := ha
  obtain ⟨hbwf, hbs, hba, hbt⟩ := hb
  have hlen : (a.concat b).states.length = a.states.length + b.states.length := by
    rw [concat_states, List.length_append, pushAts_length, List.length_map]
  refine ⟨?_, ?_, ?_, ?_⟩
  · intro st hst d hd
    rw [hlen]
    rw [concat_states] at hst
    rcases List.mem_append.1 hst with hst | hst
    · refine boundl_pushAts a.states (a.states.length + b.states.length) a.accept _
        (boundl_mono _ _ _ (by omega) hawf) ?_ st hst d hd
      intro t ht
      have ht2 := List.mem_singleton.1 ht
      omega
    · have := boundl_shift_map b.states b.states.length a.states.length hbwf st hst d hd
      omega
  · rw [concat_start, hlen]
    omega
  · rw [concat_accept, hlen]
    omega
  · show (a.concat b).states.getD (a.concat b).accept (.triv []) = .triv []
    rw [concat_accept, concat_states,
      getD_append_ge _ _ _ _ (by rw [pushAts_length]; omega), pushAts_length,
      Nat.add_sub_cancel, getD_map_shift _ _ _ hba]
    have h : b.states.getD b.accept (.triv []) = .triv [] := hbt
    rw [h]
    rfl

theorem or_states (a b : NFA) : (a.or b).states =
    (pushAts a.states a.accept [a.states.length + b.states.length + 1] ++
      pushAts (b.states.map (StateK.shift a.states.length)) b.accept
        [a.states.length + b.states.length + 1]) ++
      [.triv [a.start, b.start + a.states.length], .triv []] := rfl

theorem or_start (a b : NFA) : (a.or b).start = a.states.length + b.states.length := rfl

theorem or_accept (a b : NFA) : (a.or b).accept = a.states.length + b.states.length + 1 := rfl

theorem optional_states (a : NFA) : a.optional.states =
    pushAts a.states a.accept [a.states.length + 1] ++
      [.triv [a.start, a.states.length + 1], .triv []] := rfl

theorem optional_start (a : NFA) : a.optional.start = a.states.length := rfl

theorem optional_accept (a : NFA) : a.optional.accept = a.states.length + 1 := rfl

theorem or_states_length (a b : NFA) :
    (a.or b).states.length = a.states.length + b.states.length + 2 := by
  rw [or_states, List.length_append, List.length_append, pushAts_length, pushAts_length,
    List.length_map]
  rfl

theorem optional_states_length (a : NFA) :
    a.optional.states.length = a.states.length + 2 := by
  rw [optional_states, List.length_append, pushAts_length]
  rfl

theorem good_or (a b : NFA) (ha : GoodNFA a) (hb : GoodNFA b) : GoodNFA (a.or b) := by
  obtain ⟨hawf, has, haa, hat⟩ := ha
  obtain ⟨hbwf, hbs, hba, hbt⟩ := hb
  refine ⟨?_, ?_, ?_, ?_⟩
  · intro st hst d hd
    rw [or_states_length]
    rw [or_states] at hst
    rcases List.mem_append.1 hst with hst | hst
    · rcases List.mem_append.1 hst with hst | hst
      · refine boundl_pushAts a.states (a.states.length + b.states.length + 2) a.accept _
          (boundl_mono _ _ _ (by omega) hawf) ?_ st hst d hd
        intro t ht
        have ht2 := List.mem_singleton.1 ht
        omega
      · refine boundl_pushAts (b.states.map (StateK.shift a.states.length))
          (a.states.length + b.states.length + 2) b.accept _ ?_ ?_ st hst d hd
        · exact boundl_mono _ _ _ (by omega)
            (boundl_shift_map b.states b.states.length a.states.length hbwf)
        · intro t ht
          have ht2 := List.mem_singleton.1 ht
          omega
    · simp only [List.mem_cons, List.not_mem_nil, or_false] at hst
      rcases hst with rfl | rfl
      · simp only [destsOf, List.mem_cons, List.mem_singleton, List.not_mem_nil,
          or_false] at hd
        rcases hd with rfl | rfl <;> omega
      · exact absurd hd (by simp [destsOf])
  · rw [or_start, or_states_length]
    omega
  · rw [or_accept, or_states_length]
    omega
  · show (a.or b).states.getD (a.or b).accept (.triv []) = .triv []
    rw [or_accept, or_states,
      getD_append_ge _ _ _ _ (by
        rw [List.length_append, pushAts_length, pushAts_length, List.length_map]; omega),
      List.length_append, pushAts_length, pushAts_length, List.length_map]
    have h1 : a.states.length + b.states.length + 1 -
        (a.states.length + b.states.length) = 1 := by omega
    rw [h1]
    rfl

theorem getState_closure_accept (a : NFA) :
    getState a.closure (a.states.length + 1) = .triv [] := by
  show a.closure.states.getD (a.states.length + 1) (.triv []) = _
  rw [closure_states, getD_append_ge _ _ _ _ (by rw [pushAts_length]; omega),
    pushAts_length]
  have h : a.states.length + 1 - a.states.length = 1 := by omega
  rw [h]
  rfl

theorem getState_optional_accept (a : NFA) :
    getState a.optional (a.states.length + 1) = .triv [] := by
  show a.optional.states.getD (a.states.length + 1) (.triv []) = _
  rw [optional_states, getD_append_ge _ _ _ _ (by rw [pushAts_length]; omega),
    pushAts_length]
  have h : a.states.length + 1 - a.states.length = 1 := by omega
  rw [h]
  rfl

theorem good_closure (a : NFA) (ha : GoodNFA a) : GoodNFA a.closure := by
  obtain ⟨hawf, has, haa, hat⟩ := ha
  refine ⟨?_, ?_, ?_, getState_closure_accept a⟩
  · intro st hst d hd
    rw [closure_states_length]
    rw [closure_states] at hst
    rcases List.mem_append.1 hst with hst | hst
    · refine boundl_pushAts a.states (a.states.length + 2) a.accept _
        (boundl_mono _ _ _ (by omega) hawf) ?_ st hst d hd
      intro t ht
      simp only [List.mem_cons, List.mem_singleton, List.not_mem_nil, or_false] at ht
      rcases ht with rfl | rfl <;> omega
    · simp only [List.mem_cons, List.not_mem_nil, or_false] at hst
      rcases hst with rfl | rfl
      · simp only [destsOf, List.mem_cons, List.mem_singleton, List.not_mem_nil,
          or_false] at hd
        rcases hd with rfl | rfl <;> omega
      · exact absurd hd (by simp [destsOf])
  · rw [closure_start, closure_states_length]
    omega
  · rw [closure_accept, closure_states_length]
    omega

theorem good_optional (a : NFA) (ha : GoodNFA a) : GoodNFA a.optional := by
  obtain ⟨hawf, has, haa, hat⟩ := ha
  refine ⟨?_, ?_, ?_, getState_optional_accept a⟩
  · intro st hst d hd
    rw [optional_states_length]
    rw [optional_states] at hst
    rcases List.mem_append.1 hst with hst | hst
    · refine boundl_pushAts a.states (a.states.length + 2) a.accept _
        (boundl_mono _ _ _ (by omega) hawf) ?_ st hst d hd
      intro t ht
      have ht2 := List.mem_singleton.1 ht
      omega
    · simp only [List.mem_cons, List.not_mem_nil, or_false] at hst
      rcases hst with rfl | rfl
      · simp only [destsOf, List.mem_cons, List.mem_singleton, List.not_mem_nil,
          or_false] at hd
        rcases hd with rfl | rfl <;> omega
      · exact absurd hd (by simp [destsOf])
  · rw [optional_start, optional_states_length]
    omega
  · rw [optional_accept, optional_states_length]
    omega

theorem good_plus (a : NFA) (ha : GoodNFA a) : GoodNFA a.plus := by
  obtain ⟨hawf, has, haa, hat⟩ := ha
  refine ⟨?_, ?_, ?_, getState_plus_accept a⟩
  · intro st hst d hd
    rw [plus_states_length]
    rw [plus_states] at hst
    rcases List.mem_append.1 hst with hst | hst
    · refine boundl_pushAts a.states (a.states.length + 2) a.accept _
        (boundl_mono _ _ _ (by omega) hawf) ?_ st hst d hd
      intro t ht
      simp only [List.mem_cons, List.mem_singleton, List.not_mem_nil, or_false] at ht
      rcases ht with rfl | rfl <;> omega
    · simp only [List.mem_cons, List.not_mem_nil, or_false] at hst
      rcases hst with rfl | rfl
      · simp only [destsOf, List.mem_singleton] at hd
        rw [hd]
        omega
      · exact absurd hd (by simp [destsOf])
  · rw [plus_start, plus_states_length]
    omega
  · rw [plus_accept, plus_states_length]
    omega

theorem good_fromToken (c : Char) : GoodNFA (fromToken c) := by
  refine ⟨?_, ?_, ?_, rfl⟩
  · intro st hst d hd
    simp only [fromToken, List.mem_cons, List.not_mem_nil, or_false] at hst
    rcases hst with rfl | rfl
    · exact absurd hd (by simp [destsOf])
    · simp only [destsOf, List.mem_singleton] at hd
      rw [hd]
      show (0 : Nat) < 2
      decide
  · show (1 : Nat) < 2
    decide
  · show (0 : Nat) < 2
    decide

theorem good_fromLambda (p : CPred) : GoodNFA (fromLambda p) := by
  refine ⟨?_, ?_, ?_, rfl⟩
  · intro st hst d hd
    simp only [fromLambda, List.mem_cons, List.not_mem_nil, or_false] at hst
    rcases hst with rfl | rfl
    · exact absurd hd (by simp [destsOf])
    · simp only [destsOf, List.mem_singleton] at hd
      rw [hd]
      show (0 : Nat) < 2
      decide
  · show (1 : Nat) < 2
    decide
  · show (0 : Nat) < 2
    decide

theorem good_fromAnchor (a : Anchor) : GoodNFA (fromAnchor a) := by
  refine ⟨?_, ?_, ?_, rfl⟩
  · intro st hst d hd
    simp only [fromAnchor, List.mem_cons, List.not_mem_nil, or_false] at hst
    rcases hst with rfl | rfl
    · exact absurd hd (by simp [destsOf])
    · simp only [destsOf, List.mem_singleton] at hd
      rw [hd]
      show (0 : Nat) < 2
      decide
  · show (1 : Nat) < 2
    decide
  · show (0 : Nat) < 2
    decide

theorem hom_reach (A : NFA) (hG : GoodNFA A) (anchors : List Anchor) :
    ∀ k u x, u < 2 * A.states.length + 2 →
      AvoidN (A.concat A.closure) anchors [] k u x →
      Reach A.plus anchors (psiA A u) (psiA A x) := by
  have hwf1 : (A.concat A.closure).WF := (good_concat A A.closure hG (good_closure A hG)).1
  have hlen1 := concat_closure_length A
  intro k
  induction k with
  | zero =>
      intro u x hu h
      rw [AvoidN] at h
      rw [← h.1]
      exact reach_refl _ _ _
  | succ k ih =>
      intro u x hu h
      rw [AvoidN] at h
      obtain ⟨_, w, hw, hrest⟩ := h
      have hw' : w ∈ epsilonOf (A.concat A.closure) anchors u := hw
      have hwb : w < 2 * A.states.length + 2 := by
        have := epsilonOf_valid _ hwf1 anchors u w hw'
        omega
      exact reach_trans _ _ _ _ _ (hom_step A hG anchors u w hu hw') (ih w x hwb hrest)

theorem lift_reach (A : NFA) (hG : GoodNFA A) (anchors : List Anchor) :
    ∀ k u q, u < 2 * A.states.length + 2 →
      AvoidN A.plus anchors [] k (psiA A u) q →
      ∃ w, w < 2 * A.states.length + 2 ∧
        Reach (A.concat A.closure) anchors u w ∧ psiA A w = q := by
  intro k
  induction k with
  | zero =>
      intro u q hu h
      rw [AvoidN] at h
      exact ⟨u, hu, reach_refl _ _ _, h.1⟩
  | succ k ih =>
      intro u q hu h
      rw [AvoidN] at h
      obtain ⟨_, r, hr, hrest⟩ := h
      have hr' : r ∈ epsilonOf A.plus anchors (psiA A u) := hr
      obtain ⟨w1, hw1b, hw1r, hw1psi⟩ := lift_step A hG anchors u hu r hr'
      obtain ⟨w, hwb, hwr, hwpsi⟩ := ih w1 q hw1b (by rw [hw1psi]; exact hrest)
      exact ⟨w, hwb, reach_trans _ _ _ _ _ hw1r hwr, hwpsi⟩

theorem psiA_eq_accept2 (A : NFA) (hacc : A.accept < A.states.length) (x : Nat)
    (hx : x < 2 * A.states.length + 2) (h : psiA A x = A.states.length + 1) :
    x = 2 * A.states.length + 1 := by
  by_cases h1 : x < A.states.length
  · rw [psiA_lt A x h1] at h
    omega
  · by_cases h2 : x < 2 * A.states.length
    · rw [psiA_mid A x (by omega) h2] at h
      omega
    · by_cases h3 : x = 2 * A.states.length
      · subst h3
        rw [psiA_fresh A (by omega)] at h
        omega
      · omega

theorem corr_close (A : NFA) (hG : GoodNFA A) (anchors : List Anchor)
    (S1 : List Nat) (P2 : Nat → Prop) (D1 D2 : List Nat)
    (hb : ∀ x ∈ S1, x < 2 * A.states.length + 2)
    (hP2fwd : ∀ y, epsilonOf A.plus anchors y = [] → P2 y →
      ∃ x ∈ S1, Reach A.plus anchors (psiA A x) y)
    (hP2bwd : ∀ x ∈ S1, ∀ y, Reach A.plus anchors (psiA A x) y → P2 y)
    (hD1 : ∀ x, x ∈ D1 ↔ (epsilonOf (A.concat A.closure) anchors x = [] ∧
      ∃ u ∈ S1, Reach (A.concat A.closure) anchors u x))
    (hD2 : ∀ y, y ∈ D2 ↔ (epsilonOf A.plus anchors y = [] ∧ P2 y)) :
    (∀ x ∈ D1, x < 2 * A.states.length + 2) ∧
      (∀ y, y ∈ D2 ↔ ∃ x ∈ D1, psiA A x = y) := by
  have hlen1 := concat_closure_length A
  have hwf1 : (A.concat A.closure).WF := (good_concat A A.closure hG (good_closure A hG)).1
  have hbound : ∀ x ∈ D1, x < 2 * A.states.length + 2 := by
    intro x hx
    obtain ⟨_, u, hu, k, hk⟩ := (hD1 x).1 hx
    have := reach_bound _ hwf1 anchors k u x hk (by rw [hlen1]; exact hb u hu)
    omega
  refine ⟨hbound, ?_⟩
  intro y
  constructor
  · intro hy
    obtain ⟨hsink2, hp2⟩ := (hD2 y).1 hy
    obtain ⟨x0, hx0, k, hk⟩ := hP2fwd y hsink2 hp2
    obtain ⟨w, hwb, hwr, hwpsi⟩ := lift_reach A hG anchors k x0 y (hb x0 hx0) hk
    refine ⟨w, ?_, hwpsi⟩
    rw [hD1 w]
    constructor
    · rw [sink_corr A hG anchors w hwb, hwpsi]
      exact hsink2
    · exact ⟨x0, hx0, hwr⟩
  · rintro ⟨x, hx, rfl⟩
    obtain ⟨hsink1, u, hu, k, hk⟩ := (hD1 x).1 hx
    rw [hD2 (psiA A x)]
    constructor
    · rw [← sink_corr A hG anchors x (hbound x hx)]
      exact hsink1
    · exact hP2bwd u hu (psiA A x) (hom_reach A hG anchors k u x (hb u hu) hk)

theorem frcorr_of_close (A : NFA) (hG : GoodNFA A) (r : Nat) (b1 b2 : Option Nat)
    (hb12 : b1 = b2) (D1 D2 : List Nat)
    (hbD1 : ∀ x ∈ D1, x < 2 * A.states.length + 2)
    (hcorrD : ∀ y, y ∈ D2 ↔ ∃ x ∈ D1, psiA A x = y) :
    FrCorr A ((if (A.concat A.closure).accept ∈ D1 then some r else b1), D1)
      ((if A.plus.accept ∈ D2 then some r else b2), D2) := by
  have hacc : A.accept < A.states.length := hG.2.2.1
  have hn : 0 < A.states.length := by omega
  have hiff : (A.concat A.closure).accept ∈ D1 ↔ A.plus.accept ∈ D2 := by
    rw [concat_closure_accept, plus_accept]
    constructor
    · intro h
      exact (hcorrD _).2 ⟨2 * A.states.length + 1, h, psiA_top A hn⟩
    · intro h
      obtain ⟨x, hx, hpsi⟩ := (hcorrD _).1 h
      have := psiA_eq_accept2 A hacc x (hbD1 x hx) hpsi
      rw [← this]
      exact hx
  refine ⟨?_, hbD1, hcorrD⟩
  show (if (A.concat A.closure).accept ∈ D1 then some r else b1) =
    (if A.plus.accept ∈ D2 then some r else b2)
  by_cases h : (A.concat A.closure).accept ∈ D1
  · rw [if_pos h, if_pos (hiff.1 h)]
  · rw [if_neg h, if_neg (fun h2 => h (hiff.2 h2)), hb12]

theorem epsFrontier_corr (A : NFA) (hG : GoodNFA A) (r : Nat) (anchors : List Anchor)
    (f1 f2 f1' f2' : Frontier) (hc : FrCorr A f1 f2)
    (h1 : epsFrontier (A.concat A.closure) r anchors f1 = some f1')
    (h2 : epsFrontier A.plus r anchors f2 = some f2') :
    FrCorr A f1' f2' := by
  unfold epsFrontier at h1 h2
  cases hx1 : exhaustEpsilonsF (A.concat A.closure) f1.2 anchors with
  | none => rw [hx1] at h1; exact absurd h1 (by simp)
  | some D1 =>
      cases hx2 : exhaustEpsilonsF A.plus f2.2 anchors with
      | none => rw [hx2] at h2; exact absurd h2 (by simp)
      | some D2 =>
          rw [hx1] at h1
          rw [hx2] at h2
          have h1' : ((if (A.concat A.closure).accept ∈ D1 then some r else f1.1), D1) =
              f1' := Option.some.inj h1
          have h2' : ((if A.plus.accept ∈ D2 then some r else f2.1), D2) = f2' :=
            Option.some.inj h2
          subst h1'
          subst h2'
          obtain ⟨hb12, hbS1, hcorrS⟩ := hc
          have hmem1 := exhaustEpsilons_mem _ anchors f1.2 D1 hx1
          have hmem2 := exhaustEpsilons_mem _ anchors f2.2 D2 hx2
          have hP2fwd : ∀ y, epsilonOf A.plus anchors y = [] →
              (∃ p ∈ f2.2, Reach A.plus anchors p y) →
              ∃ x ∈ f1.2, Reach A.plus anchors (psiA A x) y := by
            rintro y _ ⟨p, hp, hr⟩
            obtain ⟨x, hx, rfl⟩ := (hcorrS p).1 hp
            exact ⟨x, hx, hr⟩
          have hP2bwd : ∀ x ∈ f1.2, ∀ y, Reach A.plus anchors (psiA A x) y →
              ∃ p ∈ f2.2, Reach A.plus anchors p y := by
            intro x hx y hr
            exact ⟨psiA A x, (hcorrS _).2 ⟨x, hx, rfl⟩, hr⟩
          obtain ⟨hbD1, hcorrD⟩ := corr_close A hG anchors f1.2
            (fun y => ∃ p ∈ f2.2, Reach A.plus anchors p y) D1 D2 hbS1 hP2fwd hP2bwd
            hmem1 hmem2
          exact frcorr_of_close A hG r f1.1 f2.1 hb12 D1 D2 hbD1 hcorrD

theorem seed_corr (A : NFA) (hG : GoodNFA A) (r : Nat) (anchors : List Anchor)
    (f1' f2' : Frontier)
    (h1 : epsFrontier (A.concat A.closure) r anchors
      (none, [(A.concat A.closure).start]) = some f1')
    (h2 : epsFrontier A.plus r anchors (none, [A.plus.start]) = some f2') :
    FrCorr A f1' f2' := by
  have hstart : A.start < A.states.length := hG.2.1
  unfold epsFrontier at h1 h2
  cases hx1 : exhaustEpsilonsF (A.concat A.closure)
      ((none : Option Nat), [(A.concat A.closure).start]).2 anchors with
  | none => rw [hx1] at h1; exact absurd h1 (by simp)
  | some D1 =>
      cases hx2 : exhaustEpsilonsF A.plus ((none : Option Nat), [A.plus.start]).2 anchors with
      | none => rw [hx2] at h2; exact absurd h2 (by simp)
      | some D2 =>
          rw [hx1] at h1
          rw [hx2] at h2
          have h1' : ((if (A.concat A.closure).accept ∈ D1 then some r else none), D1) =
              f1' := Option.some.inj h1
          have h2' : ((if A.plus.accept ∈ D2 then some r else none), D2) = f2' :=
            Option.some.inj h2
          subst h1'
          subst h2'
          have hmem1 := exhaustEpsilons_mem _ anchors _ D1 hx1
          have hmem2 := exhaustEpsilons_mem _ anchors _ D2 hx2
          have heps2start : epsilonOf A.plus anchors A.plus.start = [A.start] :=
            epsilonOf_of_triv _ anchors _ _ (getState_plus_freshStart A)
          have hP2fwd : ∀ y, epsilonOf A.plus anchors y = [] →
              (∃ p ∈ [A.plus.start], Reach A.plus anchors p y) →
              ∃ x ∈ [(A.concat A.closure).start], Reach A.plus anchors (psiA A x) y := by
            rintro y hsink ⟨p, hp, k, hk⟩
            have hps := List.mem_singleton.1 hp
            subst hps
            cases k with
            | zero =>
                rw [AvoidN] at hk
                exfalso
                rw [← hk.1] at hsink
                rw [heps2start] at hsink
                exact absurd hsink (by simp)
            | succ k =>
                rw [AvoidN] at hk
                obtain ⟨_, v, hv, hrest⟩ := hk
                have hv' : v ∈ epsilonOf A.plus anchors A.plus.start := hv
                rw [heps2start] at hv'
                have hvs := List.mem_singleton.1 hv'
                subst hvs
                refine ⟨(A.concat A.closure).start, List.mem_singleton_self _, ?_⟩
                rw [concat_start, psiA_lt A A.start hstart]
                exact ⟨k, hrest⟩
          have hP2bwd : ∀ x ∈ [(A.concat A.closure).start], ∀ y,
              Reach A.plus anchors (psiA A x) y →
              ∃ p ∈ [A.plus.start], Reach A.plus anchors p y := by
            intro x hx y hr
            have hxs := List.mem_singleton.1 hx
            subst hxs
            rw [concat_start, psiA_lt A A.start hstart] at hr
            refine ⟨A.plus.start, List.mem_singleton_self _, ?_⟩
            refine reach_head _ _ _ A.start _ ?_ hr
            rw [heps2start]
            simp
          have hbS1 : ∀ x ∈ [(A.concat A.closure).start], x < 2 * A.states.length + 2 := by
            intro x hx
            have hxs := List.mem_singleton.1 hx
            rw [hxs, concat_start]
            omega
          obtain ⟨hbD1, hcorrD⟩ := corr_close A hG anchors [(A.concat A.closure).start]
            (fun y => ∃ p ∈ [A.plus.start], Reach A.plus anchors p y) D1 D2 hbS1 hP2fwd
            hP2bwd hmem1 hmem2
          exact frcorr_of_close A hG r none none rfl D1 D2 hbD1 hcorrD

theorem chr_corr (A : NFA) (hG : GoodNFA A) (c : Char) (f1 f2 : Frontier)
    (hc : FrCorr A f1 f2) :
    FrCorr A (f1.1, f1.2.filterMap (transitionOf (A.concat A.closure) c))
      (f2.1, f2.2.filterMap (transitionOf A.plus c)) := by
  obtain ⟨hb12, hb, hcorr⟩ := hc
  have hwf1 : (A.concat A.closure).WF := (good_concat A A.closure hG (good_closure A hG)).1
  have hlen1 := concat_closure_length A
  refine ⟨hb12, ?_, ?_⟩
  · intro x hx
    obtain ⟨x0, hx0, htr⟩ := List.mem_filterMap.1 hx
    have := transitionOf_valid _ hwf1 c x0 x htr
    omega
  · intro y
    constructor
    · intro hy
      obtain ⟨p, hp, htr⟩ := List.mem_filterMap.1 hy
      obtain ⟨x0, hx0, rfl⟩ := (hcorr p).1 hp
      rw [trans_corr A hG c x0 (hb x0 hx0)] at htr
      cases htr2 : transitionOf (A.concat A.closure) c x0 with
      | none => rw [htr2] at htr; exact absurd htr (by simp)
      | some d =>
          rw [htr2] at htr
          simp only [Option.map_some', Option.some.injEq] at htr
          exact ⟨d, List.mem_filterMap.2 ⟨x0, hx0, htr2⟩, htr⟩
    · rintro ⟨w, hw, rfl⟩
      obtain ⟨x0, hx0, htr⟩ := List.mem_filterMap.1 hw
      refine List.mem_filterMap.2 ⟨psiA A x0, (hcorr _).2 ⟨x0, hx0, rfl⟩, ?_⟩
      rw [trans_corr A hG c x0 (hb x0 hx0), htr]
      rfl

theorem mapME_eps_corr (A : NFA) (hG : GoodNFA A) (r : Nat) (anchors : List Anchor)
    (frs1 frs2 : List Frontier) (hc : List.Forall₂ (FrCorr A) frs1 frs2) :
    ∀ out1 out2,
      mapME (epsFrontier (A.concat A.closure) r anchors)
        (frs1 ++ [(none, [(A.concat A.closure).start])]) = some out1 →
      mapME (epsFrontier A.plus r anchors) (frs2 ++ [(none, [A.plus.start])]) = some out2 →
      List.Forall₂ (FrCorr A) out1 out2 := by
  induction hc with
  | nil =>
      intro out1 out2 h1 h2
      rw [List.nil_append] at h1 h2
      rw [mapME] at h1 h2
      cases hx1 : epsFrontier (A.concat A.closure) r anchors
          (none, [(A.concat A.closure).start]) with
      | none => rw [hx1] at h1; exact absurd h1 (by simp [mapME])
      | some f1' =>
          cases hx2 : epsFrontier A.plus r anchors (none, [A.plus.start]) with
          | none => rw [hx2] at h2; exact absurd h2 (by simp [mapME])
          | some f2' =>
              rw [hx1] at h1
              rw [hx2] at h2
              have h1' : [f1'] = out1 := Option.some.inj h1
              have h2' : [f2'] = out2 := Option.some.inj h2
              subst h1'
              subst h2'
              exact List.Forall₂.cons (seed_corr A hG r anchors f1' f2' hx1 hx2)
                List.Forall₂.nil
  | @cons a b l1 l2 hab htail ih =>
      intro out1 out2 h1 h2
      rw [List.cons_append] at h1 h2
      rw [mapME] at h1 h2
      cases hx1 : epsFrontier (A.concat A.closure) r anchors a with
      | none => rw [hx1] at h1; exact absurd h1 (by simp)
      | some a' =>
          cases hx2 : epsFrontier A.plus r anchors b with
          | none => rw [hx2] at h2; exact absurd h2 (by simp)
          | some b' =>
              rw [hx1] at h1
              rw [hx2] at h2
              cases hr1 : mapME (epsFrontier (A.concat A.closure) r anchors)
                  (l1 ++ [(none, [(A.concat A.closure).start])]) with
              | none => rw [hr1] at h1; exact absurd h1 (by simp)
              | some rest1 =>
                  cases hr2 : mapME (epsFrontier A.plus r anchors)
                      (l2 ++ [(none, [A.plus.start])]) with
                  | none => rw [hr2] at h2; exact absurd h2 (by simp)
                  | some rest2 =>
                      rw [hr1] at h1
                      rw [hr2] at h2
                      have h1' : a' :: rest1 = out1 := Option.some.inj h1
                      have h2' : b' :: rest2 = out2 := Option.some.inj h2
                      subst h1'
                      subst h2'
                      exact List.Forall₂.cons
                        (epsFrontier_corr A hG r anchors a b a' b' hab hx1 hx2)
                        (ih rest1 rest2 hr1 hr2)

theorem stepItem_corr (A : NFA) (hG : GoodNFA A) (it : TItem)
    (frs1 frs2 out1 out2 : List Frontier) (hc : List.Forall₂ (FrCorr A) frs1 frs2)
    (h1 : stepItem (A.concat A.closure) frs1 it = some out1)
    (h2 : stepItem A.plus frs2 it = some out2) :
    List.Forall₂ (FrCorr A) out1 out2 := by
  cases it with
  | chr c =>
      simp only [stepItem, Option.some.injEq] at h1 h2
      subst h1
      subst h2
      induction hc with
      | nil => exact List.Forall₂.nil
      | @cons a b l1 l2 hab htail ih =>
          rw [List.map_cons, List.map_cons]
          exact List.Forall₂.cons (chr_corr A hG c a b hab) ih
  | eps r anchors =>
      rw [stepItem] at h1 h2
      exact mapME_eps_corr A hG r anchors frs1 frs2 hc out1 out2 h1 h2

theorem runItems_corr (A : NFA) (hG : GoodNFA A) :
    ∀ (items : List TItem) (frs1 frs2 out1 out2 : List Frontier),
      List.Forall₂ (FrCorr A) frs1 frs2 →
      runItems (A.concat A.closure) items frs1 = some out1 →
      runItems A.plus items frs2 = some out2 →
      List.Forall₂ (FrCorr A) out1 out2 := by
  intro items
  induction items with
  | nil =>
      intro frs1 frs2 out1 out2 hc h1 h2
      rw [runItems] at h1 h2
      have h1' : frs1 = out1 := Option.some.inj h1
      have h2' : frs2 = out2 := Option.some.inj h2
      subst h1'
      subst h2'
      exact hc
  | cons it its ih =>
      intro frs1 frs2 out1 out2 hc h1 h2
      cases hstep1 : stepItem (A.concat A.closure) frs1 it with
      | none => rw [runItems, hstep1] at h1; exact absurd h1 (by simp)
      | some frs1' =>
          cases hstep2 : stepItem A.plus frs2 it with
          | none => rw [runItems, hstep2] at h2; exact absurd h2 (by simp)
          | some frs2' =>
              have h1' : runItems (A.concat A.closure) its frs1' = some out1 := by
                rw [runItems, hstep1] at h1
                exact h1
              have h2' : runItems A.plus its frs2' = some out2 := by
                rw [runItems, hstep2] at h2
                exact h2
              exact ih frs1' frs2' out1 out2
                (stepItem_corr A hG it frs1 frs2 frs1' frs2' hc hstep1 hstep2) h1' h2'

theorem matchesFrom_corr (A : NFA) (frs1 frs2 : List Frontier)
    (h : List.Forall₂ (FrCorr A) frs1 frs2) :
    ∀ j, matchesFrom j frs1 = matchesFrom j frs2 := by
  induction h with
  | nil => intro j; rfl
  | @cons a b l1 l2 hab htail ih =>
      intro j
      rw [matchesFrom_cons, matchesFrom_cons, hab.1, ih (j + 1)]

theorem concatClosure_searchPairs (A : NFA) (hG : GoodNFA A) (s : List Char) :
    searchPairs (A.concat A.closure) s = searchPairs A.plus s := by
  have hwf1 : (A.concat A.closure).WF := (good_concat A A.closure hG (good_closure A hG)).1
  have hwf2 : A.plus.WF := (good_plus A hG).1
  unfold searchPairs
  cases hrun1 : runItems (A.concat A.closure) (transitionList s) [] with
  | none =>
      have := runItems_isSome (A.concat A.closure) hwf1 (transitionList s) []
      rw [hrun1] at this
      cases this
  | some frs1 =>
      cases hrun2 : runItems A.plus (transitionList s) [] with
      | none =>
          have := runItems_isSome A.plus hwf2 (transitionList s) []
          rw [hrun2] at this
          cases this
      | some frs2 =>
          have hcorr := runItems_corr A hG (transitionList s) [] [] frs1 frs2
            List.Forall₂.nil hrun1 hrun2
          have hmatch : matchesOf frs1 = matchesOf frs2 :=
            matchesFrom_corr A frs1 frs2 hcorr 0
          show admitFrom none (matchesOf frs1) = admitFrom none (matchesOf frs2)
          rw [hmatch]

theorem concatClosure_searchEq (A : NFA) (hG : GoodNFA A) (s : List Char) :
    fullMatch (A.concat A.closure) s = fullMatch A.plus s ∧
      greedySearch (A.concat A.closure) s = greedySearch A.plus s ∧
      globalSearch (A.concat A.closure) s = globalSearch A.plus s := by
  have hglobal : globalSearch (A.concat A.closure) s = globalSearch A.plus s := by
    unfold globalSearch
    rw [concatClosure_searchPairs A hG s]
  have hgreedy : greedySearch (A.concat A.closure) s = greedySearch A.plus s := by
    unfold greedySearch
    rw [hglobal]
  refine ⟨?_, hgreedy, hglobal⟩
  unfold fullMatch
  rw [hgreedy]

/-!
## Lemmas: every automaton the compiler produces satisfies the invariant
-/

theorem foldl_exceptGood (f : NFA → NFA → NFA)
    (hf : ∀ a b, GoodNFA a → GoodNFA b → GoodNFA (f a b)) :
    ∀ (xs : List (Except String NFA)) (acc : Except String NFA),
      (∀ B, acc = .ok B → GoodNFA B) →
      (∀ x ∈ xs, ∀ B, x = .ok B → GoodNFA B) →
      ∀ B, xs.foldl
        (fun acc e =>
          match acc, e with
          | .ok a, .ok b => .ok (f a b)
          | .error msg, _ => .error msg
          | .ok _, .error msg => .error msg)
        acc = .ok B → GoodNFA B := by
  intro xs
  induction xs with
  | nil =>
      intro acc hacc _ B h
      exact hacc B (by simpa using h)
  | cons y ys ih =>
      intro acc hacc hxs B h
      rw [List.foldl_cons] at h
      refine ih _ ?_ (fun x hx => hxs x (List.mem_cons_of_mem _ hx)) B h
      intro B' hB'
      cases acc with
      | error m => exact absurd hB' (by simp)
      | ok a =>
          cases y with
          | error m => exact absurd hB' (by simp)
          | ok b =>
              have hB2 : f a b = B' := by simpa using hB'
              rw [← hB2]
              exact hf a b (hacc a rfl) (hxs (.ok b) (List.mem_cons_self _ _) b rfl)

theorem foldAutomata_good (f : NFA → NFA → NFA)
    (hf : ∀ a b, GoodNFA a → GoodNFA b → GoodNFA (f a b))
    (l : List (Except String NFA)) (hl : ∀ x ∈ l, ∀ B, x = .ok B → GoodNFA B) :
    ∀ B, foldAutomata f l = .ok B → GoodNFA B := by
  cases l with
  | nil =>
      intro B h
      exact absurd h (by simp [foldAutomata])
  | cons x xs =>
      intro B h
      rw [foldAutomata] at h
      exact foldl_exceptGood f hf xs x (hl x (List.mem_cons_self _ _))
        (fun y hy => hl y (List.mem_cons_of_mem _ hy)) B h

theorem compileCGItem_good (it : CharacterGroupItem) :
    ∀ B, compileCGItem it = .ok B → GoodNFA B := by
  cases it with
  | characterClass cc =>
      intro B h
      have h2 : fromLambda (ccPred cc) = B := by simpa [compileCGItem] using h
      rw [← h2]
      exact good_fromLambda _
  | characterRange cr =>
      obtain ⟨lo, hi⟩ := cr
      intro B h
      have h2 : fromLambda (.range lo hi) = B := by simpa [compileCGItem] using h
      rw [← h2]
      exact good_fromLambda _
  | char c =>
      intro B h
      have h2 : fromToken c = B := by simpa [compileCGItem] using h
      rw [← h2]
      exact good_fromToken c

theorem compileMatch_good (m : RMatch) : ∀ B, compileMatch m = .ok B → GoodNFA B := by
  cases m with
  | anyM =>
      intro B h
      have h2 : fromLambda .anyC = B := by simpa [compileMatch] using h
      rw [← h2]
      exact good_fromLambda _
  | characterClass cc =>
      intro B h
      have h2 : fromLambda (ccPred cc) = B := by simpa [compileMatch] using h
      rw [← h2]
      exact good_fromLambda _
  | characterGroup cg =>
      intro B h
      rw [compileMatch] at h
      refine foldAutomata_good NFA.or good_or (cg.map compileCGItem) ?_ B h
      intro x hx B' hB'
      obtain ⟨it, _, rfl⟩ := List.mem_map.1 hx
      exact compileCGItem_good it B' hB'
  | char c =>
      intro B h
      have h2 : fromToken c = B := by simpa [compileMatch] using h
      rw [← h2]
      exact good_fromToken c

mutual

theorem exprListGood : ∀ (e : List (List BasicExpression)) (x : Except String NFA),
    x ∈ compileSubList e → ∀ B, x = .ok B → GoodNFA B
  | se :: rest, x, hx, B, hB => by
      simp only [compileSubList] at hx
      rcases List.mem_cons.1 hx with rfl | hx
      · exact foldAutomata_good NFA.concat good_concat (compileBasicList se)
          (fun y hy B' hB' => subListGood se y hy B' hB') B hB
      · exact exprListGood rest x hx B hB

theorem subListGood : ∀ (se : List BasicExpression) (x : Except String NFA),
    x ∈ compileBasicList se → ∀ B, x = .ok B → GoodNFA B
  | b :: rest, x, hx, B, hB => by
      simp only [compileBasicList] at hx
      rcases List.mem_cons.1 hx with rfl | hx
      · exact basicGood b B hB
      · exact subListGood rest x hx B hB

theorem basicGood : ∀ (b : BasicExpression) (B : NFA),
    compileBasic b = .ok B → GoodNFA B
  | .anchor a, B, h => by
      have h2 : fromAnchor a = B := by simpa [compileBasic] using h
      rw [← h2]
      exact good_fromAnchor a
  | .quantified qf none, B, h => by
      rw [compileBasic] at h
      exact quantifiableGood qf B h
  | .quantified qf (some .zeroOrMore), B, h => by
      rw [compileBasic] at h
      cases hqf : compileQuantifiable qf with
      | error m => rw [hqf] at h; exact absurd h (by simp [Except.map])
      | ok C =>
          rw [hqf] at h
          have h2 : C.closure = B := Except.ok.inj h
          rw [← h2]
          exact good_closure C (quantifiableGood qf C hqf)
  | .quantified qf (some .oneOrMore), B, h => by
      rw [compileBasic] at h
      cases hqf : compileQuantifiable qf with
      | error m => rw [hqf] at h; exact absurd h (by simp [Except.map])
      | ok C =>
          rw [hqf] at h
          have h2 : C.plus = B := Except.ok.inj h
          rw [← h2]
          exact good_plus C (quantifiableGood qf C hqf)
  | .quantified qf (some .zeroOrOne), B, h => by
      rw [compileBasic] at h
      cases hqf : compileQuantifiable qf with
      | error m => rw [hqf] at h; exact absurd h (by simp [Except.map])
      | ok C =>
          rw [hqf] at h
          have h2 : C.optional = B := Except.ok.inj h
          rw [← h2]
          exact good_optional C (quantifiableGood qf C hqf)
  | .quantified qf (some (.range (lower, some u))), B, h => by
      refine foldAutomata_good NFA.concat good_concat
        (List.replicate lower (compileQuantifiable qf) ++
          List.replicate (u - lower) ((compileQuantifiable qf).map NFA.optional))
        ?_ B h
      intro x hx B' hB'
      rcases List.mem_append.1 hx with hx | hx
      · have hxc := List.eq_of_mem_replicate hx
        subst hxc
        exact quantifiableGood qf B' hB'
      · have hxc := List.eq_of_mem_replicate hx
        subst hxc
        cases hqf : compileQuantifiable qf with
        | error m => rw [hqf] at hB'; exact absurd hB' (by simp [Except.map])
        | ok C =>
            rw [hqf] at hB'
            have h2 : C.optional = B' := Except.ok.inj hB'
            rw [← h2]
            exact good_optional C (quantifiableGood qf C hqf)
  | .quantified qf (some (.range (lower, none))), B, h => by
      refine foldAutomata_good NFA.concat good_concat
        (List.replicate lower (compileQuantifiable qf) ++
          [(compileQuantifiable qf).map NFA.closure])
        ?_ B h
      intro x hx B' hB'
      rcases List.mem_append.1 hx with hx | hx
      · have hxc := List.eq_of_mem_replicate hx
        subst hxc
        exact quantifiableGood qf B' hB'
      · have hxc := List.mem_singleton.1 hx
        subst hxc
        cases hqf : compileQuantifiable qf with
        | error m => rw [hqf] at hB'; exact absurd hB' (by simp [Except.map])
        | ok C =>
            rw [hqf] at hB'
            have h2 : C.closure = B' := Except.ok.inj hB'
            rw [← h2]
            exact good_closure C (quantifiableGood qf C hqf)

theorem quantifiableGood : ∀ (qf : Quantifiable) (B : NFA),
    compileQuantifiable qf = .ok B → GoodNFA B
  | .group (.mk nc idx e), B, h => by
      rw [compileQuantifiable] at h
      exact foldAutomata_good NFA.or good_or (compileSubList e)
        (fun y hy B' hB' => exprListGood e y hy B' hB') B h
  | .matchQ m, B, h => by
      rw [compileQuantifiable] at h
      exact compileMatch_good m B h
  | .backreference n, B, h => by
      rw [compileQuantifiable] at h
      exact absurd h (by simp)

end

theorem searchEq_refl (a : Except String NFA) (s : List Char) : searchEq a a s := by
  cases a with
  | ok A => exact ⟨rfl, rfl, rfl⟩
  | error m => trivial

theorem compileQuantified_range_one_one (qf : Quantifiable) :
    compileQuantified (qf, some (.range (1, some 1))) = compileQuantified (qf, none) := rfl

theorem compileQuantified_range_zero_none (qf : Quantifiable) :
    compileQuantified (qf, some (.range (0, none))) =
      compileQuantified (qf, some .zeroOrMore) := rfl

theorem compileQuantified_range_zero_one (qf : Quantifiable) :
    compileQuantified (qf, some (.range (0, some 1))) =
      compileQuantified (qf, some .zeroOrOne) := rfl

theorem compileQuantified_range_one_none (qf : Quantifiable) :
    compileQuantified (qf, some (.range (1, none))) =
      foldAutomata NFA.concat [compileQuantifiable qf,
        (compileQuantifiable qf).map NFA.closure] := rfl

/-- Claim C6: the quantifier identity laws.  For every quantifiable atom and
every input, the bounded-repetition forms compile to automata with the same
`full_match`, `greedy_search` and `global_search` behaviour as the simple
quantifiers: `a{1}` ≡ `a`, `a{0,}` ≡ `a*`, `a{1,}` ≡ `a+`, `a{0,1}` ≡ `a?`.
The first, second and fourth pairs compile to identical automata; `a{1,}`
compiles to `concat a (closure a)` while `a+` compiles to `plus a`, and the
two simulate each other (shown through a state map collapsing the second copy
of `a` onto the first). -/
theorem quantifier_identity_laws (qf : Quantifiable) (s : List Char) :
    searchEq (compileQuantified (qf, some (.range (1, some 1))))
        (compileQuantified (qf, none)) s ∧
      searchEq (compileQuantified (qf, some (.range (0, none))))
        (compileQuantified (qf, some .zeroOrMore)) s ∧
      searchEq (compileQuantified (qf, some (.range (1, none))))
        (compileQuantified (qf, some .oneOrMore)) s ∧
      searchEq (compileQuantified (qf, some (.range (0, some 1))))
        (compileQuantified (qf, some .zeroOrOne)) s := by
  refine ⟨?_, ?_, ?_, ?_⟩
  · rw [compileQuantified_range_one_one]
    exact searchEq_refl _ s
  · rw [compileQuantified_range_zero_none]
    exact searchEq_refl _ s
  · cases hqf : compileQuantifiable qf with
    | error m =>
        have hL : compileQuantified (qf, some (.range (1, none))) = .error m := by
          rw [compileQuantified_range_one_none, hqf]
          rfl
        have hR : compileQuantified (qf, some .oneOrMore) = .error m := by
          show (compileQuantifiable qf).map NFA.plus = _
          rw [hqf]
          rfl
        rw [hL, hR]
        trivial
    | ok C =>
        have hGood : GoodNFA C := quantifiableGood qf C hqf
        have hL : compileQuantified (qf, some (.range (1, none))) =
            .ok (C.concat C.closure) := by
          rw [compileQuantified_range_one_none, hqf]
          rfl
        have hR : compileQuantified (qf, some .oneOrMore) = .ok C.plus := by
          show (compileQuantifiable qf).map NFA.plus = _
          rw [hqf]
          rfl
        rw [hL, hR]
        exact concatClosure_searchEq C hGood s
  · rw [compileQuantified_range_zero_one]
    exact searchEq_refl _ s

/-!
## Lemmas: byte-offset slicing versus char positions
-/

theorem utf8Len_ascii (c : Char) (h : c.toNat < 128) : utf8Len c = 1 := by
  unfold utf8Len
  rw [if_pos h]

theorem byteLen_ascii (s : List Char) (h : ∀ c ∈ s, c.toNat < 128) :
    byteLen s = s.length := by
  induction s with
  | nil => rfl
  | cons c cs ih =>
      simp only [byteLen, List.map_cons, List.sum_cons]
      rw [utf8Len_ascii c (h c (List.mem_cons_self _ _)),
        show (cs.map utf8Len).sum = byteLen cs from rfl,
        ih (fun x hx => h x (List.mem_cons_of_mem _ hx)), List.length_cons]
      omega

theorem dropBytes_ascii : ∀ (s : List Char) (l : Nat), (∀ c ∈ s, c.toNat < 128) →
    l ≤ s.length → dropBytes s l = some (s.drop l) := by
  intro s
  induction s with
  | nil =>
      intro l _ hl
      have hl0 : l = 0 := by simpa using hl
      subst hl0
      rfl
  | cons c cs ih =>
      intro l h hl
      cases l with
      | zero => rfl
      | succ l =>
          have h1 : utf8Len c = 1 := utf8Len_ascii c (h c (List.mem_cons_self _ _))
          rw [dropBytes, if_pos (by rw [h1]; omega), h1]
          have h2 : l + 1 - 1 = l := by omega
          rw [h2]
          exact ih l (fun x hx => h x (List.mem_cons_of_mem _ hx)) (by simp at hl; omega)

theorem takeBytes_ascii : ∀ (s : List Char) (k : Nat), (∀ c ∈ s, c.toNat < 128) →
    k ≤ s.length → takeBytes s k = some (s.take k) := by
  intro s
  induction s with
  | nil =>
      intro k _ hk
      have hk0 : k = 0 := by simpa using hk
      subst hk0
      rfl
  | cons c cs ih =>
      intro k h hk
      cases k with
      | zero => rfl
      | succ k =>
          have h1 : utf8Len c = 1 := utf8Len_ascii c (h c (List.mem_cons_self _ _))
          rw [takeBytes, if_pos (by rw [h1]; omega), h1]
          have h2 : k + 1 - 1 = k := by omega
          rw [h2, ih k (fun x hx => h x (List.mem_cons_of_mem _ hx)) (by simp at hk; omega)]
          rfl

theorem extractRust_ascii (s : List Char) (hascii : ∀ c ∈ s, c.toNat < 128) (l r : Nat)
    (h1 : l ≤ r) (h2 : r ≤ s.length) : extractRust s l r = some (extract s l r) := by
  unfold extractRust
  rw [if_pos h1, dropBytes_ascii s l hascii (by omega)]
  show takeBytes (s.drop l) (r - l) = some (extract s l r)
  have hsub : ∀ c ∈ s.drop l, c.toNat < 128 := fun c hc =>
    hascii c (List.drop_subset _ _ hc)
  rw [takeBytes_ascii _ _ hsub (by rw [List.length_drop]; omega)]
  rfl

theorem admitExtractFrom_cons (s : List Char) (rm : Option Nat) (l r : Nat)
    (ms : List (Nat × Nat)) :
    admitExtractFrom s rm ((l, r) :: ms) =
      if (match rm with
          | none => true
          | some m => decide (m ≤ l) && decide (m < r)) then
        match extractRust s l r with
        | none => none
        | some w =>
            match admitExtractFrom s (some r) ms with
            | none => none
            | some ws => some (w :: ws)
      else admitExtractFrom s rm ms := by
  cases rm <;> rfl

theorem admitFrom_cons_eq (rm : Option Nat) (l r : Nat) (ms : List (Nat × Nat)) :
    admitFrom rm ((l, r) :: ms) =
      if (match rm with
          | none => true
          | some m => decide (m ≤ l) && decide (m < r)) then
        (l, r) :: admitFrom (some r) ms
      else admitFrom rm ms := by
  cases rm <;> rfl

theorem admitExtractFrom_ascii (s : List Char) (hascii : ∀ c ∈ s, c.toNat < 128) :
    ∀ (ms : List (Nat × Nat)) (rm : Option Nat),
      (∀ p ∈ ms, p.1 ≤ p.2 ∧ p.2 ≤ s.length) →
      admitExtractFrom s rm ms =
        some ((admitFrom rm ms).map fun p => extract s p.1 p.2) := by
  intro ms
  induction ms with
  | nil => intro rm _; rfl
  | cons p ms ih =>
      intro rm hb
      obtain ⟨l, r⟩ := p
      have hp := hb (l, r) (List.mem_cons_self _ _)
      rw [admitExtractFrom_cons, admitFrom_cons_eq]
      by_cases hadm : (match rm with
          | none => true
          | some m => decide (m ≤ l) && decide (m < r)) = true
      · rw [if_pos hadm, if_pos hadm, extractRust_ascii s hascii l r hp.1 hp.2,
          ih (some r) (fun q hq => hb q (List.mem_cons_of_mem _ hq))]
        rfl
      · rw [if_neg hadm, if_neg hadm]
        exact ih rm (fun q hq => hb q (List.mem_cons_of_mem _ hq))

/-- The byte-slice panic of `Automata::search`: compiling `.` and searching
the two-byte character `é` aborts all three public operations — the admitted
match interval is the char-position pair `(0, 1)`, and byte offset `1` falls
in the middle of the character — while the char-level admitted match is the
whole input. -/
theorem byte_slice_panic_nonascii :
    (compileRegex ['.']).toOption.map (fun A => globalSearchRust A ['é']) = some none ∧
    (compileRegex ['.']).toOption.map (fun A => greedySearchRust A ['é']) = some none ∧
    (compileRegex ['.']).toOption.map (fun A => fullMatchRust A ['é']) = some none ∧
    (compileRegex ['.']).toOption.map (fun A => globalSearch A ['é']) = some [['é']] ∧
    (compileRegex ['.']).toOption.map (fun A => fullMatch A ['é']) = some true := by
  decide

/-- Claim C8 (corrected): for every well-formed automaton — including the
cyclic graphs produced by `closure` and `plus` — the simulation loop cannot
fail: the epsilon-closure worklist walk terminates on every input because
visited states are tracked by identity, so a frontier list is always
produced.  The three public operations, however, extract each admitted match
with `String::from(&expr[left..right])`, using char positions as byte
offsets, and therefore panic when a match endpoint falls inside a multi-byte
character; on input whose characters are ASCII — where char positions and
byte offsets coincide — `full_match`, `greedy_search` and `global_search`
are total and return the results of the char-level model. -/
theorem search_total_on_ascii (nfa : NFA) (hwf : nfa.WF) (s : List Char)
    (hascii : ∀ c ∈ s, c.toNat < 128) :
    (∃ frs, runItems nfa (transitionList s) [] = some frs) ∧
      globalSearchRust nfa s = some (globalSearch nfa s) ∧
      greedySearchRust nfa s = some (greedySearch nfa s) ∧
      fullMatchRust nfa s = some (fullMatch nfa s) := by
  have hrun := runItems_isSome nfa hwf (transitionList s) []
  cases hrun2 : runItems nfa (transitionList s) [] with
  | none => rw [hrun2] at hrun; cases hrun
  | some frs =>
      have hbounds : ∀ p ∈ matchesOf frs, p.1 ≤ p.2 ∧ p.2 ≤ s.length := by
        have hinv := runItems_BB nfa s none 0 [] frs rfl trivial hrun2
        intro p hp
        have := matchesFrom_bounds (0 + s.length + 1) frs 0 hinv.2 p hp
        omega
      have hs1 : searchRust nfa s =
          (match admitExtractFrom s none (matchesOf frs) with
            | none => none
            | some results => some (maxByLenLast results.reverse, results)) := by
        unfold searchRust
        rw [hrun2]
      have hglobal : ((admitFrom none (matchesOf frs)).map fun p =>
          extract s p.1 p.2) = globalSearch nfa s := by
        unfold globalSearch searchPairs
        rw [hrun2]
      have hsearch : searchRust nfa s =
          some (greedySearch nfa s, globalSearch nfa s) := by
        rw [hs1, admitExtractFrom_ascii s hascii (matchesOf frs) none hbounds]
        show some (maxByLenLast ((admitFrom none (matchesOf frs)).map fun p =>
              extract s p.1 p.2).reverse,
            (admitFrom none (matchesOf frs)).map fun p => extract s p.1 p.2) = _
        rw [hglobal]
        rfl
      refine ⟨⟨frs, rfl⟩, ?_, ?_, ?_⟩
      · unfold globalSearchRust
        rw [hsearch]
        rfl
      · unfold greedySearchRust
        rw [hsearch]
        rfl
      · unfold fullMatchRust greedySearchRust fullMatch
        rw [hsearch]
        cases hg : greedySearch nfa s with
        | none => rfl
        | some m =>
            have hmem : m ∈ globalSearch nfa s := (greedy_some_spec nfa s m hg).1
            have hmascii : ∀ c ∈ m, c.toNat < 128 := by
              intro c hc
              obtain ⟨p, _, hex⟩ := globalSearch_mem.1 hmem
              rw [← hex] at hc
              unfold extract at hc
              exact hascii c (List.drop_subset _ _ (List.take_subset _ _ hc))
            show some (byteLen m == byteLen s) = some (m.length == s.length)
            rw [byteLen_ascii m hmascii, byteLen_ascii s hascii]

/-- Witness for C8 at the cyclic automaton `a+` on the ASCII input `aab`. -/
theorem search_total_on_ascii_witness :
    ((fromToken 'a').plus).WF ∧ (∀ c ∈ ['a', 'a', 'b'], c.toNat < 128) ∧
      ((∃ frs, runItems ((fromToken 'a').plus) (transitionList ['a', 'a', 'b']) [] =
          some frs) ∧
        globalSearchRust ((fromToken 'a').plus) ['a', 'a', 'b'] =
          some (globalSearch ((fromToken 'a').plus) ['a', 'a', 'b']) ∧
        greedySearchRust ((fromToken 'a').plus) ['a', 'a', 'b'] =
          some (greedySearch ((fromToken 'a').plus) ['a', 'a', 'b']) ∧
        fullMatchRust ((fromToken 'a').plus) ['a', 'a', 'b'] =
          some (fullMatch ((fromToken 'a').plus) ['a', 'a', 'b'])) :=
  ⟨by decide, by decide,
    search_total_on_ascii ((fromToken 'a').plus) (by decide) ['a', 'a', 'b'] (by decide)⟩

end RustRegex
